import Mathlib

/-! # gomail: message model, writer, sender and LOGIN mechanism

A shallow embedding of `msg/message.go`, `send/send.go`, `auth/auther.go`
and `writer/writeto.go`.

Conventions of the embedding.

* A Go `string` or `[]byte` is a sequence of bytes.  It is modelled by the
  Lean string whose characters are those bytes, so `len` is `String.length`
  and indexing is indexing into `String.data`.  A `[]byte` result that may be
  `nil` is an `Option String`.
* A Go `map[string][]string` is an association list; `h[k]` is the first
  entry under `k`, and ranging over the map visits the entries in list
  order (any order of the entries is a possible iteration order).
* A Go `(T, error)` result is a pair whose second component is an
  `Option Error`, `none` standing for `nil`.
* Functions of the Go standard library (`mail.ParseAddress`,
  `mime.WordEncoder.Encode`) are parameters of the definitions that call
  them.
-/

namespace Gomail

/-! ## Errors -/

/-- Error values built by the package, kept structured instead of rendered
to text. -/
inductive Error where
  /-- The text `gomail: invalid msg, "From" field is absent`. -/
  | absentFrom : Error
  /-- The format `gomail: invalid address %q: %v` applied to `field` and
  the parser's error `cause`. -/
  | invalidAddress (field : String) (cause : String) : Error
  /-- The format `gomail: could not send email %d: %v` applied to `index`
  and `cause`. -/
  | couldNotSend (index : Nat) (cause : Error) : Error
  /-- The text `gomail: unencrypted connection`. -/
  | unencryptedConnection : Error
  /-- The text `gomail: wrong host name`. -/
  | wrongHostName : Error
  /-- The format `gomail: unexpected server challenge: %s`. -/
  | unexpectedChallenge (fromServer : String) : Error
  /-- The text `gomail: cannot write as writer is in error`. -/
  | writerInError : Error
  /-- The text `multipart: can't write to finished part` of the standard
  library. -/
  | finishedPart : Error
  /-- An error value produced outside the package: by the sink, by a content
  producer or by a `Sender`. -/
  | external (text : String) : Error
  deriving DecidableEq, Repr

/-! ## Headers -/

/-- The type `Header`, a `map[string][]string`. -/
abbrev Header := List (String × List String)

/-- The two-valued lookup `v, ok := h[field]`. -/
def Header.get? (h : Header) (field : String) : Option (List String) :=
  match h with
  | [] => none
  | (k, v) :: rest => if k = field then some v else Header.get? rest field

/-- The one-valued lookup `h[field]`: `nil` when the key is absent. -/
def Header.get (h : Header) (field : String) : List String :=
  (h.get? field).getD []

/-! ## Addresses (`msg/message.go`, lines 434-450) -/

/-- The result of `mail.ParseAddress` as `parseAddress` uses it: the
`Address` field of the parsed address, or the text of the parser's error. -/
abbrev AddressParser := String → Except String String

/-- The function `parseAddress`. -/
def parseAddress (ParseAddress : AddressParser) (field : String) :
    String × Option Error :=
  match ParseAddress field with
  | .error err => ("", some (.invalidAddress field err))
  | .ok addr => (addr, none)

/-- The function `addAddress`: the list itself when it already holds
`addr`, else the list with `addr` appended. -/
def addAddress (list : List String) (addr : String) : List String :=
  if list.any (fun a => addr == a) then list else list ++ [addr]

/-! ## The message model (`msg/message.go`, lines 18-50, 248-252) -/

/-- The type `Encoding`, a Go string type. -/
abbrev Encoding := String

/-- The constant `QuotedPrintable`. -/
def QuotedPrintable : Encoding := "quoted-printable"

/-- The constant `Base64`. -/
def Base64 : Encoding := "base64"

/-- The constant `Unencoded`. -/
def Unencoded : Encoding := "8bit"

/-- The type `mime.MimeEncoder`: it embeds a `mime.WordEncoder`, which is a
byte. -/
structure MimeEncoder where
  WordEncoder : Char
  deriving DecidableEq, Repr

/-- The variable `mime.BEncoding`. -/
def BEncoding : MimeEncoder := ⟨'b'⟩

/-- The variable `mime.QEncoding`. -/
def QEncoding : MimeEncoder := ⟨'q'⟩

/-- The method `Encode` of the standard library's word encoder, applied to
an encoder, a charset and a text. -/
abbrev WordEncode := MimeEncoder → String → String → String

/-- A computation that uses a writer: it either returns a value, or hands a
chunk to the `Write` method of the writer and goes on from the count and
the error that the call returned. -/
inductive Prog (α : Type) where
  | ret (a : α) : Prog α
  | write (p : String) (next : Nat → Option Error → Prog α) : Prog α

/-- A content producer, the Go type `func(io.Writer) error`. -/
abbrev Producer := Prog (Option Error)

/-- The type `Part`. -/
structure Part where
  ContentType : String
  Copier : Producer
  Encoding : Encoding

/-- The type `File`. -/
structure File where
  Name : String
  Header : Header
  CopyFunc : Producer

/-- The type `Message`. -/
structure Message where
  Header : Header
  Parts : List Part
  Attachments : List File
  Embedded : List File
  Charset : String
  Encoding : Encoding
  HEncoder : MimeEncoder
  Buf : String

/-- The function `newCopier`: one `io.WriteString` of the body, whose
error is returned. -/
def newCopier (s : String) : Producer :=
  .write s (fun _ err => .ret err)

/-! ## `GetFrom` and `GetRecipients` (`msg/message.go`, lines 350-384) -/

/-- The method `Message.GetFrom`. -/
def Message.GetFrom (ParseAddress : AddressParser) (m : Message) :
    String × Option Error :=
  match m.Header.get "Sender" with
  | a :: _ => parseAddress ParseAddress a
  | [] =>
    match m.Header.get "From" with
    | a :: _ => parseAddress ParseAddress a
    | [] => ("", some .absentFrom)

/-- The inner loop of `GetRecipients` over the values of one field: the
grown list, or `nil` and the error of the first value that fails to
parse. -/
def addAddresses (ParseAddress : AddressParser) :
    List String → List String → List String × Option Error
  | list, [] => (list, none)
  | list, a :: rest =>
    match parseAddress ParseAddress a with
    | (_, some err) => ([], some err)
    | (addr, none) => addAddresses ParseAddress (addAddress list addr) rest

/-- The outer loop of `GetRecipients` over the field names. -/
def recipientsLoop (ParseAddress : AddressParser) (h : Header) :
    List String → List String → List String × Option Error
  | list, [] => (list, none)
  | list, field :: fields =>
    match h.get? field with
    | none => recipientsLoop ParseAddress h list fields
    | some addresses =>
      match addAddresses ParseAddress list addresses with
      | (_, some err) => ([], some err)
      | (list, none) => recipientsLoop ParseAddress h list fields

/-- The method `Message.GetRecipients`. -/
def Message.GetRecipients (ParseAddress : AddressParser) (m : Message) :
    List String × Option Error :=
  recipientsLoop ParseAddress m.Header [] ["To", "Cc", "Bcc"]

/-- The list that the specification describes for `GetRecipients`: every
element that already occurred earlier is removed, the first occurrence
stays where it is. -/
def keepFirst : List String → List String
  | [] => []
  | a :: rest => a :: (keepFirst rest).filter (fun b => b ≠ a)

/-- The address of a value that parses (the empty string otherwise). -/
def parsedAddress (ParseAddress : AddressParser) (a : String) : String :=
  (parseAddress ParseAddress a).1

/-- Whether a value parses as an address. -/
def parses (ParseAddress : AddressParser) (a : String) : Bool :=
  (parseAddress ParseAddress a).2.isNone

/-- The values stored under `To`, then `Cc`, then `Bcc`. -/
def Message.recipientValues (m : Message) : List String :=
  m.Header.get "To" ++ m.Header.get "Cc" ++ m.Header.get "Bcc"

/-! ## `Send` (`send/send.go`) -/

/-- One invocation of the `Send` method of a `Sender`. -/
structure Call where
  sender : String
  recipients : List String
  msg : Message

/-- A `Sender`: its `Send` method may depend on and change a state of the
sender. -/
structure Sender (σ : Type) where
  Send : σ → String → List String → Message → σ × Option Error

/-- What a run leaves behind: the state of the sender, the invocations of
the sender in the order they were made, and the returned error. -/
structure SendResult (σ : Type) where
  state : σ
  calls : List Call
  err : Option Error

/-- The function `send`. -/
def send {σ : Type} (ParseAddress : AddressParser) (s : Sender σ) (st : σ)
    (m : Message) : SendResult σ :=
  match m.GetFrom ParseAddress with
  | (_, some err) => ⟨st, [], some err⟩
  | (sender, none) =>
    match m.GetRecipients ParseAddress with
    | (_, some err) => ⟨st, [], some err⟩
    | (recipients, none) =>
      match s.Send st sender recipients m with
      | (st, some err) => ⟨st, [⟨sender, recipients, m⟩], some err⟩
      | (st, none) => ⟨st, [⟨sender, recipients, m⟩], none⟩

/-- The loop of `Send` from index `i` on, `calls` being the invocations
made so far. -/
def sendLoop {σ : Type} (ParseAddress : AddressParser) (s : Sender σ) :
    Nat → σ → List Call → List Message → SendResult σ
  | _, st, calls, [] => ⟨st, calls, none⟩
  | i, st, calls, m :: rest =>
    match send ParseAddress s st m with
    | ⟨st, made, some err⟩ => ⟨st, calls ++ made, some (.couldNotSend (i + 1) err)⟩
    | ⟨st, made, none⟩ => sendLoop ParseAddress s (i + 1) st (calls ++ made) rest

/-- The function `Send`. -/
def Send {σ : Type} (ParseAddress : AddressParser) (s : Sender σ) (st : σ)
    (msg : List Message) : SendResult σ :=
  sendLoop ParseAddress s 0 st [] msg

/-- The invocation that a message whose `GetFrom` and `GetRecipients`
succeed is handed over with. -/
def callOf (ParseAddress : AddressParser) (m : Message) : Call :=
  ⟨(m.GetFrom ParseAddress).1, (m.GetRecipients ParseAddress).1, m⟩

/-- Every message of the list is sent without a failure, the sender going
from state `st` to state `st1`. -/
def allSent {σ : Type} (ParseAddress : AddressParser) (s : Sender σ) :
    σ → List Message → σ → Prop
  | st, [], st1 => st1 = st
  | st, m :: rest, st1 =>
    (send ParseAddress s st m).err = none ∧
      allSent ParseAddress s (send ParseAddress s st m).state rest st1

/-! ## The LOGIN mechanism (`auth/auther.go`) -/

/-- The type `LoginAuth`. -/
structure LoginAuth where
  Username : String
  Password : String
  Host : String

/-- The fields of `smtp.ServerInfo` that `Start` reads. -/
structure ServerInfo where
  Name : String
  TLS : Bool
  Auth : List String

/-- The method `LoginAuth.Start`. -/
def LoginAuth.Start (a : LoginAuth) (server : ServerInfo) :
    String × Option String × Option Error :=
  if !server.TLS && !(server.Auth.any (fun mechanism => mechanism == "LOGIN")) then
    ("", none, some .unencryptedConnection)
  else if server.Name ≠ a.Host then
    ("", none, some .wrongHostName)
  else
    ("LOGIN", none, none)

/-- The method `LoginAuth.Next`. -/
def LoginAuth.Next (a : LoginAuth) (fromServer : String) (more : Bool) :
    Option String × Option Error :=
  if !more then
    (none, none)
  else if fromServer = "Username:" then
    (some a.Username, none)
  else if fromServer = "Password:" then
    (some a.Password, none)
  else
    (none, some (.unexpectedChallenge fromServer))

/-! ## `FormatAddress` (`msg/message.go`, lines 119-175) -/

/-- The method `Message.encodeString`. -/
def Message.encodeString (Encode : WordEncode) (m : Message) (value : String) : String :=
  Encode m.HEncoder m.Charset value

/-- The function `hasSpecials`. -/
def hasSpecials (text : String) : Bool :=
  text.data.any (fun c =>
    c = '(' ∨ c = ')' ∨ c = '<' ∨ c = '>' ∨ c = '[' ∨ c = ']' ∨ c = ':' ∨ c = ';' ∨
      c = '@' ∨ c = '\\' ∨ c = ',' ∨ c = '.' ∨ c = '"')

/-- The loop of `FormatAddress` over the bytes of the name, writing to the
buffer. -/
def quoteLoop : String → List Char → String
  | buf, [] => buf
  | buf, b :: rest =>
    let buf := if b = '\\' ∨ b = '"' then buf.push '\\' else buf
    quoteLoop (buf.push b) rest

/-- The method `Message.FormatAddress`: the returned string and the message
with its buffer as the call leaves it. -/
def Message.FormatAddress (Encode : WordEncode) (m : Message) (address name : String) :
    String × Message :=
  if name = "" then
    (address, m)
  else
    let enc := m.encodeString Encode name
    let buf :=
      if enc = name then
        (quoteLoop (m.Buf.push '"') name.data).push '"'
      else if hasSpecials name then
        m.Buf ++ Encode BEncoding m.Charset name
      else
        m.Buf ++ enc
    let buf := (buf ++ " <" ++ address).push '>'
    (buf, { m with Buf := "" })

/-- The name as the specification describes its quoted form: a backslash
before every backslash and every double quote, every other byte as it
is. -/
def escapedName (name : String) : String :=
  String.mk (name.data.flatMap (fun b => if b = '\\' ∨ b = '"' then ['\\', b] else [b]))

/-! ## The writer: sink and state (`writer/writeto.go`, lines 54-61, 132-146) -/

/-- The sink `W`, an `io.Writer`.  What a call of `Write` returns is a
function of the chunks handed to the sink before and of the chunk handed
over now; `calls` are the chunks handed over so far and `out` the bytes
the sink took. -/
structure Sink where
  respond : List String → String → Nat × Option Error
  calls : List String
  out : String

/-- A call `Write(p)` on the sink; the returned count is at most the length
of `p`, as the contract of `io.Writer` says. -/
def Sink.Write (s : Sink) (p : String) : Sink × Nat × Option Error :=
  let r := s.respond s.calls p
  let n := min r.1 p.length
  ({ s with calls := s.calls ++ [p], out := s.out ++ String.mk (p.data.take n) }, n, r.2)

/-- A `part` of the standard library's `multipart` package. -/
structure PartState where
  closed : Bool
  we : Option Error

/-- A `multipart.Writer` whose underlying writer is the message writer:
its boundary and its `lastpart`, a reference into the list of parts. -/
structure MultipartWriter where
  boundary : String
  lastpart : Option Nat

/-- The type `MessageWriter`.  `Writers` has three slots; `PartWriter` is
`nil` or refers to a part; `parts` holds the part objects created so far. -/
structure MessageWriter where
  W : Sink
  N : Int
  Writers : List (Option MultipartWriter)
  PartWriter : Option Nat
  Depth : Nat
  Err : Option Error
  parts : List PartState

/-- The value `&MessageWriter{W: w}`. -/
def newMessageWriter (w : Sink) : MessageWriter :=
  { W := w, N := 0, Writers := [none, none, none], PartWriter := none, Depth := 0,
    Err := none, parts := [] }

/-- The method `MessageWriter.Write`. -/
def MessageWriter.Write (w : MessageWriter) (p : String) :
    MessageWriter × Nat × Option Error :=
  match w.Err with
  | some _ => (w, 0, some .writerInError)
  | none =>
    match w.W.Write p with
    | (sink, n, err) => ({ w with W := sink, Err := err, N := w.N + n }, n, err)

/-- The method `MessageWriter.writeString`. -/
def MessageWriter.writeString (w : MessageWriter) (s : String) : MessageWriter :=
  match w.W.Write s with
  | (sink, n, _) => { w with W := sink, N := w.N + n }

/-! ## Folding a header (`writer/writeto.go`, lines 148-222) -/

/-- The slice `s[:i]`. -/
def sliceTo (s : String) (i : Nat) : String :=
  String.mk (s.data.take i)

/-- The slice `s[i:]`. -/
def sliceFrom (s : String) (i : Nat) : String :=
  String.mk (s.data.drop i)

/-- The function `strings.IndexByte` on a list of bytes, counting from
`i`. -/
def indexFrom (c : Char) : List Char → Nat → Option Nat
  | [], _ => none
  | b :: rest, i => if b = c then some i else indexFrom c rest (i + 1)

/-- The function `strings.IndexByte`: `none` stands for `-1`. -/
def IndexByte (s : String) (c : Char) : Option Nat :=
  indexFrom c s.data 0

/-- The function `strings.LastIndexByte` on a list of bytes, counting from
`i`. -/
def lastIndexFrom (c : Char) : List Char → Nat → Option Nat
  | [], _ => none
  | b :: rest, i =>
    match lastIndexFrom c rest (i + 1) with
    | some j => some j
    | none => if b = c then some i else none

/-- The function `mime.LastIndexByte`: `none` stands for `-1`. -/
def LastIndexByte (s : String) (c : Char) : Option Nat :=
  lastIndexFrom c s.data 0

/-- The first loop of `writeLine`, `for i := charsLeft - 1; i >= 0; i--`,
entered with `i + 1`: the index of the space it stops at, if any; the outer
`none` is the index `s[i]` being out of range. -/
def lastSpaceBelow (s : List Char) : Nat → Option (Option Nat)
  | 0 => some none
  | i + 1 =>
    match s.get? i with
    | none => none
    | some b => if b = ' ' then some (some i) else lastSpaceBelow s i

/-- The second loop of `writeLine`, from index `i` on over the rest of the
bytes: the index it stops at and whether a space (and not a newline) is
there. -/
def nextBreak : List Char → Nat → Option (Nat × Bool)
  | [], _ => none
  | b :: rest, i =>
    if b = ' ' then some (i, true)
    else if b = '\n' then some (i, false)
    else nextBreak rest (i + 1)

/-- Whether the first test of `writeLine` holds: a newline at an index `i`
with `i < charsLeft`. -/
def newlineBefore (s : String) (charsLeft : Int) : Option Nat :=
  match IndexByte s '\n' with
  | some i => if (i : Int) < charsLeft then some i else none
  | none => none

/-- The method `MessageWriter.writeLine`: the writer and the returned rest
of `s`; `none` when an index is out of range. -/
def MessageWriter.writeLine (w : MessageWriter) (s : String) (charsLeft : Int) :
    Option (MessageWriter × String) :=
  match newlineBefore s charsLeft with
  | some i => some (w.writeString (sliceTo s (i + 1)), sliceFrom s (i + 1))
  | none =>
    match lastSpaceBelow s.data charsLeft.toNat with
    | none => none
    | some (some i) =>
      some ((w.writeString (sliceTo s i)).writeString "\r\n ", sliceFrom s (i + 1))
    | some none =>
      match nextBreak (s.data.drop 75) 75 with
      | some (i, true) =>
        some ((w.writeString (sliceTo s i)).writeString "\r\n ", sliceFrom s (i + 1))
      | some (i, false) => some (w.writeString (sliceTo s (i + 1)), sliceFrom s (i + 1))
      | none => some (w.writeString s, "")

/-- The loop `for len(s) > charsLeft` of `writeHeader`, run for at most
`fuel` rounds: the writer, the rest of `s` and `charsLeft`. -/
def foldLoop : Nat → MessageWriter → String → Int → Option (MessageWriter × String × Int)
  | 0, w, s, charsLeft => some (w, s, charsLeft)
  | fuel + 1, w, s, charsLeft =>
    if (s.length : Int) > charsLeft then
      match w.writeLine s charsLeft with
      | none => none
      | some (w, s) => foldLoop fuel w s 75
    else some (w, s, charsLeft)

/-- The loop of `writeHeader` over the values, from index `i` on. -/
def writeValues : MessageWriter → Nat → Int → List String → Option MessageWriter
  | w, _, _, [] => some w
  | w, i, charsLeft, s :: rest =>
    let start : MessageWriter × Int :=
      if charsLeft < 1 then
        (if i = 0 then w.writeString "\r\n " else w.writeString ",\r\n ", 75)
      else if i ≠ 0 then (w.writeString ", ", charsLeft - 2)
      else (w, charsLeft)
    match foldLoop (s.length + 1) start.1 s start.2 with
    | none => none
    | some (w, s, charsLeft) =>
      let w := w.writeString s
      let charsLeft : Int :=
        match LastIndexByte s '\n' with
        | some j => 75 - ((s.length : Int) - j - 1)
        | none => charsLeft - s.length
      writeValues w (i + 1) charsLeft rest

/-- The method `MessageWriter.writeHeader`. -/
def MessageWriter.writeHeader (w : MessageWriter) (k : String) (v : List String) :
    Option MessageWriter :=
  let w := w.writeString k
  match v with
  | [] => some (w.writeString ":\r\n")
  | _ :: _ =>
    let w := w.writeString ": "
    match writeValues w 0 (76 - (k.length : Int) - 2) v with
    | none => none
    | some w => some (w.writeString "\r\n")

/-! ## Multipart writers (`writer/writeto.go`, lines 63-88, 224-234)

The methods `CreatePart` and `Close` of `multipart.Writer` belong to the
standard library; they are modelled after its source.  A run that
dereferences `nil` or indexes out of range has the result `none`. -/

/-- The method `close` of a `part`: the part is marked closed and its write
error is returned. -/
def closePart (w : MessageWriter) (i : Nat) : MessageWriter × Option Error :=
  match w.parts.get? i with
  | none => (w, none)
  | some ps => ({ w with parts := w.parts.set i { ps with closed := true } }, ps.we)

/-- The method `Write` of a `part`. -/
def partWrite (w : MessageWriter) (i : Nat) (d : String) :
    MessageWriter × Nat × Option Error :=
  match w.parts.get? i with
  | none => (w, 0, some .finishedPart)
  | some ps =>
    if ps.closed then (w, 0, some .finishedPart)
    else
      match w.Write d with
      | (w, n, none) => (w, n, none)
      | (w, n, some err) => ({ w with parts := w.parts.set i { ps with we := some err } }, n, some err)

/-- The keys of a header in increasing order, as `CreatePart` sorts them. -/
def sortedKeys (h : Header) : List String :=
  (h.map Prod.fst).insertionSort (fun a b => a ≤ b)

/-- The text that `CreatePart` writes: the boundary line, one line per value
of every key, and an empty line. -/
def partHeaderText (boundary : String) (first : Bool) (h : Header) : String :=
  (if first then "--" else "\r\n--") ++ boundary ++ "\r\n" ++
    String.join ((sortedKeys h).flatMap (fun k => (h.get k).map (fun v => k ++ ": " ++ v ++ "\r\n")))
    ++ "\r\n"

/-- A write of a whole buffer with `io.Copy`: a short count without an
error is the error `io.ErrShortWrite`. -/
def copyBuffer (w : MessageWriter) (text : String) : MessageWriter × Option Error :=
  match w.Write text with
  | (w, _, some err) => (w, some err)
  | (w, n, none) => if n = text.length then (w, none) else (w, some (.external "short write"))

/-- The method `CreatePart` of the multipart writer in slot `slot`: the
writer, the created part or `nil`, and the error. -/
def CreatePart (w : MessageWriter) (slot : Nat) (mw : MultipartWriter) (h : Header) :
    MessageWriter × Option Nat × Option Error :=
  let closed : MessageWriter × Option Error :=
    match mw.lastpart with
    | some i => closePart w i
    | none => (w, none)
  match closed with
  | (w, some err) => (w, none, some err)
  | (w, none) =>
    match copyBuffer w (partHeaderText mw.boundary mw.lastpart.isNone h) with
    | (w, some err) => (w, none, some err)
    | (w, none) =>
      let i := w.parts.length
      ({ w with parts := w.parts ++ [⟨false, none⟩],
                Writers := w.Writers.set slot (some { mw with lastpart := some i }) },
        some i, none)

/-- The method `Close` of the multipart writer in slot `slot`. -/
def MultipartClose (w : MessageWriter) (slot : Nat) (mw : MultipartWriter) :
    MessageWriter × Option Error :=
  let closed : MessageWriter × Option Error :=
    match mw.lastpart with
    | some i => closePart w i
    | none => (w, none)
  match closed with
  | (w, some err) => (w, some err)
  | (w, none) =>
    let w := { w with Writers := w.Writers.set slot (some { mw with lastpart := none }) }
    match w.Write ("\r\n--" ++ mw.boundary ++ "--\r\n") with
    | (w, _, err) => (w, err)

/-- The element `w.Writers[i]` for a `uint8` index: `none` when the index is
out of the three slots or the slot holds `nil`. -/
def MessageWriter.writerAt (w : MessageWriter) (i : Nat) : Option MultipartWriter :=
  if i < 3 then (w.Writers.get? i).join else none

/-- The method `MessageWriter.createPart`. -/
def MessageWriter.createPart (w : MessageWriter) (h : Header) : Option MessageWriter :=
  let slot := (w.Depth + 255) % 256
  match w.writerAt slot with
  | none => none
  | some mw =>
    match CreatePart w slot mw h with
    | (w, pw, err) => some { w with PartWriter := pw, Err := err }

/-- The method `MessageWriter.closeMultipart`. -/
def MessageWriter.closeMultipart (w : MessageWriter) : Option MessageWriter :=
  if w.Depth > 0 then
    match w.writerAt (w.Depth - 1) with
    | none => none
    | some mw =>
      match MultipartClose w (w.Depth - 1) mw with
      | (w, _) => some { w with Depth := w.Depth - 1 }
  else some w

/-- The method `MessageWriter.openMultipart`, with the boundary that the new
multipart writer draws. -/
def MessageWriter.openMultipart (w : MessageWriter) (boundary : String) (mimeType : String) :
    Option MessageWriter :=
  let contentType := "multipart/" ++ mimeType ++ ";\r\n boundary=" ++ boundary
  if w.Depth < 3 then
    let w := { w with Writers := w.Writers.set w.Depth (some ⟨boundary, none⟩) }
    let opened : Option MessageWriter :=
      if w.Depth = 0 then
        match w.writeHeader "Content-Type" [contentType] with
        | none => none
        | some w => some (w.writeString "\r\n")
      else w.createPart [("Content-Type", [contentType])]
    match opened with
    | none => none
    | some w => some { w with Depth := (w.Depth + 1) % 256 }
  else none

/-- The loop of `writeHeaders` over the entries of the map. -/
def writeHeaderEntries : MessageWriter → Header → Option MessageWriter
  | w, [] => some w
  | w, (k, v) :: rest =>
    if k ≠ "Bcc" then
      match w.writeHeader k v with
      | none => none
      | some w => writeHeaderEntries w rest
    else writeHeaderEntries w rest

/-- The method `MessageWriter.writeHeaders`. -/
def MessageWriter.writeHeaders (w : MessageWriter) (h : Header) : Option MessageWriter :=
  if w.Depth = 0 then writeHeaderEntries w h else w.createPart h

/-! ## Bodies (`writer/writeto.go`, lines 236-286) -/

/-- The writer `subWriter` of `writeBody`: `nil`, the sink `w.W` itself, or
a part. -/
inductive SubWriter where
  | nil : SubWriter
  | sink : SubWriter
  | part (i : Nat) : SubWriter
  deriving DecidableEq, Repr

/-- A call `Write(p)` on a sub-writer; `none` when the sub-writer is
`nil`. -/
def SubWriter.Write (sub : SubWriter) (w : MessageWriter) (p : String) :
    Option (MessageWriter × Nat × Option Error) :=
  match sub with
  | .nil => none
  | .sink =>
    match w.W.Write p with
    | (taken, n, err) => some ({ w with W := taken }, n, err)
  | .part i => some (partWrite w i p)

/-- The type `base64LineWriter`. -/
structure base64LineWriter where
  w : SubWriter
  lineLen : Nat
  deriving DecidableEq, Repr

/-- The constant `maxLineLen`. -/
def maxLineLen : Nat := 76

/-- The function `newBase64LineWriter`. -/
def newBase64LineWriter (w : SubWriter) : base64LineWriter :=
  { w := w, lineLen := 0 }

/-- The loop `for len(p)+w.lineLen > maxLineLen` of the method `Write` of
`base64LineWriter`, run for at most `fuel` rounds: the line writer, the
message writer, the rest of `p` and the count `n`. -/
def lineLoop : Nat → base64LineWriter → MessageWriter → String → Nat →
    Option (base64LineWriter × MessageWriter × String × Nat)
  | 0, lw, w, p, n => some (lw, w, p, n)
  | fuel + 1, lw, w, p, n =>
    if p.length + lw.lineLen > maxLineLen then
      match lw.w.Write w (sliceTo p (maxLineLen - lw.lineLen)) with
      | none => none
      | some (w, _, _) =>
        match lw.w.Write w "\r\n" with
        | none => none
        | some (w, _, _) =>
          lineLoop fuel { lw with lineLen := 0 } w (sliceFrom p (maxLineLen - lw.lineLen))
            (n + (maxLineLen - lw.lineLen))
    else some (lw, w, p, n)

/-- The method `Write` of `base64LineWriter`. -/
def base64LineWriter.Write (st : base64LineWriter × MessageWriter) (p : String) :
    Option ((base64LineWriter × MessageWriter) × Nat × Option Error) :=
  match lineLoop (p.length + 1) st.1 st.2 p 0 with
  | none => none
  | some (lw, w, p, n) =>
    match lw.w.Write w p with
    | none => none
    | some (w, _, _) => some (({ lw with lineLen := lw.lineLen + p.length }, w), n + p.length, none)

/-- A run of a computation against a writer with state `S`; `none` when a
call of the writer aborts. -/
def Prog.run {α S : Type} (wr : S → String → Option (S × Nat × Option Error)) :
    Prog α → S → Option (S × α)
  | .ret a, s => some (s, a)
  | .write p next, s =>
    match wr s p with
    | none => none
    | some (s, n, err) => (next n err).run wr s

/-- A stream encoder of the standard library (`base64.NewEncoder`,
`quotedprintable.NewWriter`): its state, and what its methods `Write` and
`Close` do with the writer underneath. -/
structure StreamEncoder where
  State : Type
  init : State
  Write : State → String → Prog (State × Nat × Option Error)
  Close : State → Prog (Option Error)

/-- The method `Write` of an encoder that sits on a writer with state `S`. -/
def StreamEncoder.writeOn {S : Type} (enc : StreamEncoder)
    (wr : S → String → Option (S × Nat × Option Error)) (st : enc.State × S) (p : String) :
    Option ((enc.State × S) × Nat × Option Error) :=
  match (enc.Write st.1 p).run wr st.2 with
  | none => none
  | some (s, es, n, err) => some ((es, s), n, err)

/-- What the writer takes from outside the package: the two stream encoders,
the media type that `mime.TypeByExtension(filepath.Ext(name))` gives for a
file name, the boundaries that the multipart writers draw, and the
formatted current time. -/
structure Library where
  base64 : StreamEncoder
  quotedprintable : StreamEncoder
  mediaType : String → String
  mixedBoundary : String
  relatedBoundary : String
  alternativeBoundary : String
  now : String

/-- The statement `subWriter = w.PartWriter`. -/
def MessageWriter.partSubWriter (w : MessageWriter) : SubWriter :=
  match w.PartWriter with
  | none => .nil
  | some i => .part i

/-- The method `MessageWriter.writeBody`. -/
def MessageWriter.writeBody (lib : Library) (w : MessageWriter) (f : Producer)
    (enc : Encoding) : Option MessageWriter :=
  let start : MessageWriter × SubWriter :=
    if w.Depth = 0 then (w.writeString "\r\n", .sink) else (w, w.partSubWriter)
  let w := start.1
  let subWriter := start.2
  if enc = Base64 then
    match f.run (lib.base64.writeOn base64LineWriter.Write)
        (lib.base64.init, newBase64LineWriter subWriter, w) with
    | none => none
    | some ((es, lw, w), err) =>
      match (lib.base64.Close es).run base64LineWriter.Write (lw, { w with Err := err }) with
      | none => none
      | some ((_, w), _) => some w
  else if enc = Unencoded then
    match f.run subWriter.Write w with
    | none => none
    | some (w, err) => some { w with Err := err }
  else
    match f.run (lib.quotedprintable.writeOn subWriter.Write) (lib.quotedprintable.init, w) with
    | none => none
    | some ((es, w), err) =>
      match (lib.quotedprintable.Close es).run subWriter.Write { w with Err := err } with
      | none => none
      | some (w, _) => some w

/-! ## Parts, files and the message (`writer/writeto.go`, lines 16-52, 90-130) -/

/-- The assignment `h[field] = value` on a map. -/
def Header.set (h : Header) (field : String) (value : List String) : Header :=
  match h with
  | [] => [(field, value)]
  | (k, v) :: rest => if k = field then (k, value) :: rest else (k, v) :: Header.set rest field value

/-- The method `File.SetHeader`. -/
def File.SetHeader (f : File) (field value : String) : File :=
  { f with Header := f.Header.set field [value] }

/-- The method `Message.HasMixedPart`. -/
def Message.HasMixedPart (m : Message) : Bool :=
  (m.Parts.length > 0 && m.Attachments.length > 0) || m.Attachments.length > 1

/-- The method `Message.HasRelatedPart`. -/
def Message.HasRelatedPart (m : Message) : Bool :=
  (m.Parts.length > 0 && m.Embedded.length > 0) || m.Embedded.length > 1

/-- The method `Message.HasAlternativePart`. -/
def Message.HasAlternativePart (m : Message) : Bool :=
  m.Parts.length > 1

/-- The method `MessageWriter.writePart`.  The two entries of the map
literal are visited in the order they are written in. -/
def MessageWriter.writePart (lib : Library) (w : MessageWriter) (p : Part) (charset : String) :
    Option MessageWriter :=
  match w.writeHeaders [("Content-Type", [p.ContentType ++ "; charset=" ++ charset]),
      ("Content-Transfer-Encoding", [p.Encoding])] with
  | none => none
  | some w => w.writeBody lib p.Copier p.Encoding

/-- The headers that `addFiles` fills in on a file before it writes it. -/
def fillFileHeader (lib : Library) (f : File) (isAttachment : Bool) : File :=
  let f :=
    if (f.Header.get? "Content-Type").isNone then
      let mediaType := lib.mediaType f.Name
      let mediaType := if mediaType = "" then "application/octet-stream" else mediaType
      f.SetHeader "Content-Type" (mediaType ++ "; name=\"" ++ f.Name ++ "\"")
    else f
  let f :=
    if (f.Header.get? "Content-Transfer-Encoding").isNone then
      f.SetHeader "Content-Transfer-Encoding" Base64
    else f
  let f :=
    if (f.Header.get? "Content-Disposition").isNone then
      let disp := if isAttachment then "attachment" else "inline"
      f.SetHeader "Content-Disposition" (disp ++ "; filename=\"" ++ f.Name ++ "\"")
    else f
  if !isAttachment then
    if (f.Header.get? "Content-ID").isNone then f.SetHeader "Content-ID" ("<" ++ f.Name ++ ">")
    else f
  else f

/-- The method `MessageWriter.addFiles`; the headers it fills in stay on the
files of the message, which the model does not return. -/
def MessageWriter.addFiles (lib : Library) :
    MessageWriter → List File → Bool → Option MessageWriter
  | w, [], _ => some w
  | w, f :: rest, isAttachment =>
    let f := fillFileHeader lib f isAttachment
    match w.writeHeaders f.Header with
    | none => none
    | some w =>
      match w.writeBody lib f.CopyFunc Base64 with
      | none => none
      | some w => MessageWriter.addFiles lib w rest isAttachment

/-- The loop of `WriteMessage` over the parts. -/
def writeParts (lib : Library) : MessageWriter → List Part → String → Option MessageWriter
  | w, [], _ => some w
  | w, part :: rest, charset =>
    match w.writePart lib part charset with
    | none => none
    | some w => writeParts lib w rest charset

/-- A statement that is run only when the test holds. -/
def stepIf (c : Bool) (step : MessageWriter → Option MessageWriter) (w : MessageWriter) :
    Option MessageWriter :=
  if c then step w else some w

/-- The method `MessageWriter.WriteMessage`; `none` when the run aborts. -/
def MessageWriter.WriteMessage (lib : Library) (w : MessageWriter) (m : Message) :
    Option MessageWriter := do
  let w ← stepIf (m.Header.get? "Mime-Version").isNone
    (fun w => some (w.writeString "Mime-Version: 1.0\r\n")) w
  let w ← stepIf (m.Header.get? "Date").isNone (fun w => w.writeHeader "Date" [lib.now]) w
  let w ← w.writeHeaders m.Header
  let w ← stepIf m.HasMixedPart (fun w => w.openMultipart lib.mixedBoundary "mixed") w
  let w ← stepIf m.HasRelatedPart (fun w => w.openMultipart lib.relatedBoundary "related") w
  let w ← stepIf m.HasAlternativePart
    (fun w => w.openMultipart lib.alternativeBoundary "alternative") w
  let w ← writeParts lib w m.Parts m.Charset
  let w ← stepIf m.HasAlternativePart MessageWriter.closeMultipart w
  let w ← w.addFiles lib m.Embedded false
  let w ← stepIf m.HasRelatedPart MessageWriter.closeMultipart w
  let w ← w.addFiles lib m.Attachments true
  stepIf m.HasMixedPart MessageWriter.closeMultipart w

/-- The method `Message.WriteTo`: the sink, the count and the error. -/
def Message.WriteTo (lib : Library) (m : Message) (sink : Sink) :
    Option (Sink × Int × Option Error) :=
  match (newMessageWriter sink).WriteMessage lib m with
  | none => none
  | some mw => some (mw.W, mw.N, mw.Err)

/-! ## Building a message (`msg/message.go`, lines 52-105, 192-246) -/

/-- The type `MessageSetting`, a Go `func(m *Message)`. -/
abbrev MessageSetting := Message → Message

/-- The function `SetCharset`. -/
def SetCharset (charset : String) : MessageSetting :=
  fun m => { m with Charset := charset }

/-- The function `SetEncoding`. -/
def SetEncoding (enc : Encoding) : MessageSetting :=
  fun m => { m with Encoding := enc }

/-- The method `Message.applySettings`. -/
def Message.applySettings (m : Message) : List MessageSetting → Message
  | [] => m
  | s :: rest => Message.applySettings (s m) rest

/-- The function `NewMessage`. -/
def NewMessage (settings : List MessageSetting) : Message :=
  let m : Message :=
    { Header := [], Parts := [], Attachments := [], Embedded := [], Charset := "UTF-8",
      Encoding := QuotedPrintable, HEncoder := ⟨'\x00'⟩, Buf := "" }
  let m := m.applySettings settings
  if m.Encoding = Base64 then { m with HEncoder := BEncoding }
  else { m with HEncoder := QEncoding }

/-- The method `Message.Reset`. -/
def Message.Reset (m : Message) : Message :=
  { m with Header := [], Parts := [], Attachments := [], Embedded := [] }

/-- The type `PartSetting`, a Go `func(*Part)`. -/
abbrev PartSetting := Part → Part

/-- The function `SetPartEncoding`. -/
def SetPartEncoding (e : Encoding) : PartSetting :=
  fun p => { p with Encoding := e }

/-- The method `Message.newPart`. -/
def Message.newPart (m : Message) (contentType : String) (f : Producer)
    (settings : List PartSetting) : Part :=
  settings.foldl (fun p s => s p) { ContentType := contentType, Copier := f, Encoding := m.Encoding }

/-- The method `Message.SetBody`. -/
def Message.SetBody (m : Message) (contentType body : String) (settings : List PartSetting) :
    Message :=
  { m with Parts := [m.newPart contentType (newCopier body) settings] }

/-- The method `Message.AddAlternativeWriter`. -/
def Message.AddAlternativeWriter (m : Message) (contentType : String) (f : Producer)
    (settings : List PartSetting) : Message :=
  { m with Parts := m.Parts ++ [m.newPart contentType f settings] }

/-- The method `Message.AddAlternative`. -/
def Message.AddAlternative (m : Message) (contentType body : String)
    (settings : List PartSetting) : Message :=
  m.AddAlternativeWriter contentType (newCopier body) settings

/-- A setting is one of `SetCharset` and `SetEncoding`. -/
def IsCharsetOrEncoding (s : MessageSetting) : Prop :=
  (∃ charset, s = SetCharset charset) ∨ (∃ enc, s = SetEncoding enc)

/-! ## What a writer has emitted -/

/-- The bytes handed to the sink so far, in order, whatever the sink did
with them. -/
def MessageWriter.emitted (w : MessageWriter) : List Char :=
  w.W.calls.flatMap String.data

/-- The lines of a text, cut at every CRLF; `cur` holds the current line in
reverse. -/
def splitLines : List Char → List Char → List (List Char)
  | [], cur => [cur.reverse]
  | '\r' :: '\n' :: rest, cur => cur.reverse :: splitLines rest []
  | c :: rest, cur => splitLines rest (c :: cur)

/-- The physical lines of a text: what stands between consecutive CRLFs. -/
def physicalLines (s : List Char) : List (List Char) :=
  splitLines s []

/-- The words of a text: what stands between consecutive spaces; `cur`
holds the current word in reverse. -/
def splitWords : List Char → List Char → List (List Char)
  | [], cur => [cur.reverse]
  | c :: rest, cur => if c = ' ' then cur.reverse :: splitWords rest [] else splitWords rest (c :: cur)

/-- The space-free words of a text. -/
def spaceFreeWords (s : String) : List (List Char) :=
  splitWords s.data []

/-- A sink takes every chunk whole and returns no error. -/
def Sink.Accepting (s : Sink) : Prop :=
  ∀ calls p, s.respond calls p = (p.length, none)

/-- From writer `w` to writer `w1` the bytes `x` were handed to the sink and
nothing else happened: an accepting sink has taken them all, and but for the
sink and the count `N` the writer is as it was. -/
def Emits (w w1 : MessageWriter) (x : List Char) : Prop :=
  w1.emitted = w.emitted ++ x ∧ w1.W.respond = w.W.respond ∧
    (w.W.Accepting → w1.W.out.data = w.W.out.data ++ x) ∧
    w1.Depth = w.Depth ∧ w1.Err = w.Err ∧ w1.Writers = w.Writers ∧
    w1.PartWriter = w.PartWriter ∧ w1.parts = w.parts

/-! ## Base64 lines: the reference -/

/-- The line end CRLF. -/
def crlf : List Char := ['\r', '\n']

/-- The pieces joined by a separator. -/
def joinPieces (sep : List Char) : List (List Char) → List Char
  | [] => []
  | [p] => p
  | p :: q :: rest => p ++ sep ++ joinPieces sep (q :: rest)

/-- The text cut into consecutive groups of 76 bytes, the last one being
shorter when the length is no multiple of 76; `fuel` bounds the number of
groups. -/
def cutGroups : Nat → List Char → List (List Char)
  | 0, _ => []
  | fuel + 1, d => if d = [] then [] else d.take 76 :: cutGroups fuel (d.drop 76)

/-- The consecutive 76-byte groups of a text. -/
def groups76 (d : List Char) : List (List Char) :=
  cutGroups d.length d

/-- The reference of the base64 line wrapping: the consecutive 76-byte
groups of the text joined by CRLF, no CRLF after the last group. -/
def wrap76 (d : List Char) : List Char :=
  joinPieces crlf (groups76 d)

/-- What one `Write(p)` of a `base64LineWriter` with line length `l` hands
to its writer, for at most `fuel` rounds of the loop. -/
def wrapFrom : Nat → Nat → List Char → List Char
  | 0, _, p => p
  | fuel + 1, l, p =>
    if p.length + l > 76 then p.take (76 - l) ++ crlf ++ wrapFrom fuel 0 (p.drop (76 - l))
    else p

/-- The line length after one `Write(p)` of a `base64LineWriter` with line
length `l`, for at most `fuel` rounds of the loop. -/
def nextLen : Nat → Nat → List Char → Nat
  | 0, l, p => l + p.length
  | fuel + 1, l, p =>
    if p.length + l > 76 then nextLen fuel 0 (p.drop (76 - l)) else l + p.length

/-- The calls `Write(c)` for the chunks `c` in turn: the line writer and the
message writer after them and the counts that the calls returned. -/
def writeChunks : base64LineWriter × MessageWriter → List String →
    Option ((base64LineWriter × MessageWriter) × List Nat)
  | st, [] => some (st, [])
  | st, c :: rest =>
    match base64LineWriter.Write st c with
    | none => none
    | some (st, n, _) =>
      match writeChunks st rest with
      | none => none
      | some (st, counts) => some (st, n :: counts)

/-! ## The text of a header

The functions below compute what `writeLine`, the loops of `writeHeader`
and `writeHeader` itself hand to the sink, without a writer; the theorems
`writeLine_emits` to `writeHeader_emits` relate them to the methods. -/

/-- The text that `writeLine(s, charsLeft)` writes and the rest of `s` that
it returns; `none` when an index is out of range. -/
def lineText (s : String) (charsLeft : Int) : Option (List Char × String) :=
  match newlineBefore s charsLeft with
  | some i => some (s.data.take (i + 1), sliceFrom s (i + 1))
  | none =>
    match lastSpaceBelow s.data charsLeft.toNat with
    | none => none
    | some (some i) => some (s.data.take i ++ "\r\n ".data, sliceFrom s (i + 1))
    | some none =>
      match nextBreak (s.data.drop 75) 75 with
      | some (i, true) => some (s.data.take i ++ "\r\n ".data, sliceFrom s (i + 1))
      | some (i, false) => some (s.data.take (i + 1), sliceFrom s (i + 1))
      | none => some (s.data, "")

/-- The text that the loop `for len(s) > charsLeft` writes, the rest of `s`
and `charsLeft` after it. -/
def foldText : Nat → String → Int → Option (List Char × String × Int)
  | 0, s, charsLeft => some ([], s, charsLeft)
  | fuel + 1, s, charsLeft =>
    if (s.length : Int) > charsLeft then
      match lineText s charsLeft with
      | none => none
      | some (x, s) =>
        match foldText fuel s 75 with
        | none => none
        | some (y, r) => some (x ++ y, r)
    else some ([], s, charsLeft)

/-- The text that the loop of `writeHeader` over the values writes, from
index `i` on. -/
def valuesText : Nat → Int → List String → Option (List Char)
  | _, _, [] => some []
  | i, charsLeft, s :: rest =>
    let start : List Char × Int :=
      if charsLeft < 1 then (if i = 0 then "\r\n ".data else ",\r\n ".data, 75)
      else if i ≠ 0 then (", ".data, charsLeft - 2)
      else ([], charsLeft)
    match foldText (s.length + 1) s start.2 with
    | none => none
    | some (x, s, charsLeft) =>
      let charsLeft : Int :=
        match LastIndexByte s '\n' with
        | some j => 75 - ((s.length : Int) - j - 1)
        | none => charsLeft - s.length
      match valuesText (i + 1) charsLeft rest with
      | none => none
      | some y => some (start.1 ++ x ++ s.data ++ y)

/-- The text that `writeHeader(k, v...)` writes. -/
def headerText (k : String) (v : List String) : Option (List Char) :=
  match v with
  | [] => some (k.data ++ ":\r\n".data)
  | _ :: _ =>
    match valuesText 0 (76 - (k.length : Int) - 2) v with
    | none => none
    | some x => some (k.data ++ ": ".data ++ x ++ crlf)

/-- A text begins with a space. -/
def startsWithSpace (p : List Char) : Prop :=
  p.head? = some ' '

/-- No two spaces of a text stand next to each other. -/
def NoAdjacentSpaces (s : List Char) : Prop :=
  List.Chain' (fun a b => ¬ (a = ' ' ∧ b = ' ')) s

/-! ## The header fields of a message -/

/-- The fields that `WriteMessage` writes before it turns to the body: a
`Mime-Version` when the message has none, a `Date` when the message has none,
and the entries of the header map other than `Bcc`. -/
def Message.topFields (lib : Library) (m : Message) : Gomail.Header :=
  (if (m.Header.get? "Mime-Version").isNone then [("Mime-Version", ["1.0"])] else []) ++
    (if (m.Header.get? "Date").isNone then [("Date", [lib.now])] else []) ++
    m.Header.filter (fun e => e.1 ≠ "Bcc")

/-- The text of the fields of a header, one after the other. -/
def fieldsText (h : Header) : List Char :=
  h.flatMap (fun e => (headerText e.1 e.2).getD [])

/-- The first three statements of `WriteMessage`, which write the fields of
the message. -/
def headerSteps (lib : Library) (w : MessageWriter) (m : Message) : Option MessageWriter := do
  let w ← stepIf (m.Header.get? "Mime-Version").isNone
    (fun w => some (w.writeString "Mime-Version: 1.0\r\n")) w
  let w ← stepIf (m.Header.get? "Date").isNone (fun w => w.writeHeader "Date" [lib.now]) w
  w.writeHeaders m.Header

/-- The statements of `WriteMessage` after the first three, which write the
multipart containers, the parts and the files. -/
def bodySteps (lib : Library) (m : Message) (w : MessageWriter) : Option MessageWriter := do
  let w ← stepIf m.HasMixedPart (fun w => w.openMultipart lib.mixedBoundary "mixed") w
  let w ← stepIf m.HasRelatedPart (fun w => w.openMultipart lib.relatedBoundary "related") w
  let w ← stepIf m.HasAlternativePart
    (fun w => w.openMultipart lib.alternativeBoundary "alternative") w
  let w ← writeParts lib w m.Parts m.Charset
  let w ← stepIf m.HasAlternativePart MessageWriter.closeMultipart w
  let w ← w.addFiles lib m.Embedded false
  let w ← stepIf m.HasRelatedPart MessageWriter.closeMultipart w
  let w ← w.addFiles lib m.Attachments true
  stepIf m.HasMixedPart MessageWriter.closeMultipart w

/-- The lines of the top-level header block of a text: its physical lines
up to the first empty one. -/
def headerBlock (out : List Char) : List (List Char) :=
  (physicalLines out).takeWhile (fun line => line ≠ [])

/-- The names of the header fields of the top-level header block of a text:
of every line that is no continuation line, what stands before the
colon. -/
def fieldNames (out : List Char) : List String :=
  ((headerBlock out).filter (fun line => line.head? ≠ some ' ' ∧ line.head? ≠ some '\t')).map
    (fun line => String.mk (line.takeWhile (fun c => c ≠ ':')))

/-- The text without its CRLFs: every CR that is followed by LF is deleted
together with that LF, from left to right. -/
def deleteCRLF : List Char → List Char
  | [] => []
  | '\r' :: '\n' :: rest => deleteCRLF rest
  | c :: rest => c :: deleteCRLF rest

/-! ## Nesting of the multipart containers -/

/-- The boundaries of the containers that `WriteMessage` opens for a message,
the outermost first: one for each of its three tests that holds. -/
def containers (lib : Library) (m : Message) : List String :=
  (if m.HasMixedPart then [lib.mixedBoundary] else []) ++
    (if m.HasRelatedPart then [lib.relatedBoundary] else []) ++
    (if m.HasAlternativePart then [lib.alternativeBoundary] else [])

/-- The three conditional calls of `openMultipart` in `WriteMessage`. -/
def openSteps (lib : Library) (m : Message) (w : MessageWriter) : Option MessageWriter := do
  let w ← stepIf m.HasMixedPart (fun w => w.openMultipart lib.mixedBoundary "mixed") w
  let w ← stepIf m.HasRelatedPart (fun w => w.openMultipart lib.relatedBoundary "related") w
  stepIf m.HasAlternativePart (fun w => w.openMultipart lib.alternativeBoundary "alternative") w

/-- The slots of `Writers` hold the multipart writers of the containers with
the boundaries `bs`, the outermost first: there are three slots and at most
three containers, and slot `i` holds the writer of container `i`. -/
def Slots (ws : List (Option MultipartWriter)) (bs : List String) : Prop :=
  ws.length = 3 ∧ bs.length ≤ 3 ∧
    ∀ i b, bs.get? i = some b → ∃ mw, ws.get? i = some (some mw) ∧ mw.boundary = b

/-- The writer stands inside the open containers with the boundaries `bs`,
the outermost first: `Depth` is their number and the slots below `Depth`
hold their multipart writers. -/
def Nest (w : MessageWriter) (bs : List String) : Prop :=
  w.Depth = bs.length ∧ Slots w.Writers bs

/-- From writer `w` to writer `w1` neither `Depth` nor `Writers` changed. -/
def KeepsNest (w w1 : MessageWriter) : Prop :=
  w1.Depth = w.Depth ∧ w1.Writers = w.Writers

/-! ## The SMTP driver (specification, section 4.4; `smtp/smtp_test.go`)

The file with the dialer, `smtp/smtp.go`, is not among the sources: the
driver is modelled after the specification, the mock transport after the
test file. -/

/-- The error `io.EOF` of the standard library, the end-of-stream
condition. -/
def EOF : Error := .external "EOF"

/-- Modelled from the spec: the client interface between the driver and its
transport, which `mockClient` implements; its declaration is in the missing
`smtp/smtp.go`. Every method acts on the state `σ` of the transport. `Dial`
stands for the connect step (`netDialTimeout`, `smtpNewClient`), `StartTLS`
for the upgrade together with the greeting that follows it, `Write` for
handing the message to the body writer that `Data` returned, `CloseWriter`
for closing that writer. -/
structure SmtpClient (σ : Type) where
  Dial : σ → σ × Option Error
  Hello : σ → String → σ × Option Error
  Extension : σ → String → σ × Bool × String
  StartTLS : σ → σ × Option Error
  Auth : σ → σ × Option Error
  Mail : σ → String → σ × Option Error
  Rcpt : σ → String → σ × Option Error
  Data : σ → σ × Option Error
  Write : σ → Message → σ × Option Error
  CloseWriter : σ → σ × Option Error
  Quit : σ → σ × Option Error
  Close : σ → σ × Option Error

/-- Modelled from the spec: the steps of the state machine of the driver,
`Connect`, `Hello`, the query of an extension, `UpgradeTLS`, `Hello again`,
`Authenticate`, `MailFrom`, `RcptTo`, `Data`, `WriteBody`, `CloseDataWriter`,
`Quit` and `Disconnect`. -/
inductive Step where
  | dial : Step
  | hello (localName : String) : Step
  | extension (ext : String) : Step
  | startTLS : Step
  | helloAgain : Step
  | auth : Step
  | mail (sender : String) : Step
  | rcpt (recipient : String) : Step
  | data : Step
  | write : Step
  | closeWriter : Step
  | quit : Step
  | close : Step
  deriving DecidableEq, Repr

/-- Modelled from the spec: the dial parameters of the missing type `Dialer`:
host, port, credentials, the optional local name (empty when it is not set)
and the mechanisms the driver supports. -/
structure Dialer where
  Host : String
  Port : Nat
  Username : String
  Password : String
  LocalName : String
  Mechanisms : List String

/-- A run of the driver: the state of the transport and the steps made so
far, in order. -/
structure Run (σ : Type) where
  conn : σ
  steps : List Step

/-- One step of a run: the call is made on the transport and recorded. -/
def Run.step {σ : Type} (r : Run σ) (s : Step) (call : σ → σ × Option Error) :
    Run σ × Option Error :=
  match call r.conn with
  | (conn, err) => (⟨conn, r.steps ++ [s]⟩, err)

/-- The number of connect steps among the steps of a run. -/
def dials (steps : List Step) : Nat :=
  steps.count Step.dial

/-- Modelled from the spec: the optional `Hello` of the session setup, made
when a local name is set. -/
def Dialer.hello {σ : Type} (d : Dialer) (c : SmtpClient σ) (r : Run σ) :
    Run σ × Option Error :=
  if d.LocalName ≠ "" then r.step (.hello d.LocalName) (fun s => c.Hello s d.LocalName)
  else (r, none)

/-- Modelled from the spec: port 465 implies TLS from the start of the
connection; any other port queries the extension `STARTTLS` and upgrades when
the server advertises it, and goes on in plaintext otherwise. The step
`Hello again if upgraded` is made by the method `StartTLS` of the client
itself, which greets anew on the upgraded channel: the test file expects no
command between `StartTLS` and the next query, so the run records the step
and makes no call of its own for it. The boolean is whether the channel is
secured. -/
def Dialer.upgrade {σ : Type} (d : Dialer) (c : SmtpClient σ) (r : Run σ) :
    Run σ × Bool × Option Error :=
  if d.Port = 465 then (r, true, none)
  else
    match c.Extension r.conn "STARTTLS" with
    | (conn, ok, _) =>
      let r : Run σ := ⟨conn, r.steps ++ [.extension "STARTTLS"]⟩
      if ok then
        match r.step .startTLS c.StartTLS with
        | (r, some err) => (r, false, some err)
        | (r, none) => (⟨r.conn, r.steps ++ [.helloAgain]⟩, true, none)
      else (r, false, none)

/-- Modelled from the spec: when credentials are set the extension `AUTH` is
queried; the exchange is made when the server lists a supported mechanism or
the channel is secured, and the setup fails with an authentication error
otherwise. -/
def Dialer.authenticate {σ : Type} (d : Dialer) (c : SmtpClient σ) (r : Run σ)
    (secured : Bool) : Run σ × Option Error :=
  if d.Username = "" then (r, none)
  else
    match c.Extension r.conn "AUTH" with
    | (conn, ok, mechanisms) =>
      let r : Run σ := ⟨conn, r.steps ++ [.extension "AUTH"]⟩
      if secured || (ok && (mechanisms.splitOn " ").any (fun x => d.Mechanisms.contains x)) then
        r.step .auth c.Auth
      else (r, some (.external "gomail: no acceptable authentication mechanism"))

/-- Modelled from the spec: the session setup of the missing method
`Dialer.Dial`: `Connect`, then the optional `Hello`, the upgrade to TLS and
the authentication; the first failing step ends it. -/
def Dialer.Dial {σ : Type} (d : Dialer) (c : SmtpClient σ) (r : Run σ) :
    Run σ × Option Error :=
  match r.step .dial c.Dial with
  | (r, some err) => (r, some err)
  | (r, none) =>
    match d.hello c r with
    | (r, some err) => (r, some err)
    | (r, none) =>
      match d.upgrade c r with
      | (r, _, some err) => (r, some err)
      | (r, secured, none) => d.authenticate c r secured

/-- Modelled from the spec: the `MAIL` step. When it fails with end-of-stream
on the first message of the batch, the driver dials again once and repeats
the step once; every other failure is returned as it is. -/
def Dialer.mailFrom {σ : Type} (d : Dialer) (c : SmtpClient σ) (first : Bool) (r : Run σ)
    (sender : String) : Run σ × Option Error :=
  match r.step (.mail sender) (fun s => c.Mail s sender) with
  | (r, none) => (r, none)
  | (r, some err) =>
    if err = EOF ∧ first = true then
      match d.Dial c r with
      | (r, some _) => (r, some err)
      | (r, none) => r.step (.mail sender) (fun s => c.Mail s sender)
    else (r, some err)

/-- Modelled from the spec: `RCPT` is issued once per recipient in the
given order; the first failure aborts the transaction. -/
def rcptLoop {σ : Type} (c : SmtpClient σ) : Run σ → List String → Run σ × Option Error
  | r, [] => (r, none)
  | r, t :: rest =>
    match r.step (.rcpt t) (fun s => c.Rcpt s t) with
    | (r, some err) => (r, some err)
    | (r, none) => rcptLoop c r rest

/-- Modelled from the spec: the body of a transaction after `RCPT`: `DATA`,
the message handed to the body writer, and the writer closed. -/
def dataSteps {σ : Type} (c : SmtpClient σ) (r : Run σ) (m : Message) :
    Run σ × Option Error :=
  match r.step .data c.Data with
  | (r, some err) => (r, some err)
  | (r, none) =>
    match r.step .write (fun s => c.Write s m) with
    | (r, some err) => (r, some err)
    | (r, none) => r.step .closeWriter c.CloseWriter

/-- Modelled from the spec: the transaction of one message, the method
`Send` of the sender that the missing `Dial` returns: `MailFrom`, `RcptTo`
for every recipient, `Data`, `WriteBody`, `CloseDataWriter`. -/
def Dialer.transaction {σ : Type} (d : Dialer) (c : SmtpClient σ) (first : Bool) (r : Run σ)
    (sender : String) (recipients : List String) (m : Message) : Run σ × Option Error :=
  match d.mailFrom c first r sender with
  | (r, some err) => (r, some err)
  | (r, none) =>
    match rcptLoop c r recipients with
    | (r, some err) => (r, some err)
    | (r, none) => dataSteps c r m

/-- Modelled from the spec: the driver as a `Sender`; its state is the run
and whether no message of the batch was handed to it yet. -/
def Dialer.sender {σ : Type} (d : Dialer) (c : SmtpClient σ) : Sender (Run σ × Bool) :=
  ⟨fun st sender recipients m =>
    match d.transaction c st.2 st.1 sender recipients m with
    | (r, err) => ((r, false), err)⟩

/-- Modelled from the spec: the missing method `Dialer.DialAndSend`: the
session setup, the batch sent with `Send`, then `Quit` and `Disconnect`. The
run and the error of the batch are returned; a failed setup ends the call. -/
def Dialer.DialAndSend {σ : Type} (ParseAddress : AddressParser) (d : Dialer)
    (c : SmtpClient σ) (conn : σ) (msgs : List Message) : Run σ × Option Error :=
  match d.Dial c ⟨conn, []⟩ with
  | (r, some err) => (r, some err)
  | (r, none) =>
    let sent := Send ParseAddress (d.sender c) (r, true) msgs
    let r := (sent.state.1.step .quit c.Quit).1
    let r := (r.step .close c.Close).1
    (r, sent.err)

/-- The type `mockClient` of the test file: the commands it was given, in
order, and the flag `timeout`. -/
structure MockState where
  log : List String
  timeout : Bool
  deriving DecidableEq, Repr

/-- The method `mockClient.do`, which records a command. -/
def MockState.record (c : MockState) (cmd : String) : MockState :=
  { c with log := c.log ++ [cmd] }

/-- The mock transport of the test file: `mockClient`, `mockWriter` and the
stubbed `netDialTimeout` and `smtpNewClient`. `Extension` answers `true`
with an empty parameter, `Mail` returns `io.EOF` once when `timeout` is set,
the writer records `Write msg` for the message it is handed and
`Close writer` when it is closed, and every other method records its command
and returns no error. -/
def mockClient : SmtpClient MockState where
  Dial := fun c => (c, none)
  Hello := fun c localName => (c.record ("Hello " ++ localName), none)
  Extension := fun c ext => (c.record ("Extension " ++ ext), true, "")
  StartTLS := fun c => (c.record "StartTLS", none)
  Auth := fun c => (c.record "Auth", none)
  Mail := fun c sender =>
    let c := c.record ("Mail " ++ sender)
    if c.timeout then ({ c with timeout := false }, some EOF) else (c, none)
  Rcpt := fun c recipient => (c.record ("Rcpt " ++ recipient), none)
  Data := fun c => (c.record "Data", none)
  Write := fun c _ => (c.record "Write msg", none)
  CloseWriter := fun c => (c.record "Close writer", none)
  Quit := fun c => (c.record "Quit", none)
  Close := fun c => (c.record "Close", none)

/-- The commands that the session setup of a dialer gives the mock
transport. -/
def setupCommands (d : Dialer) : List String :=
  (if d.LocalName ≠ "" then ["Hello " ++ d.LocalName] else []) ++
    (if d.Port = 465 then [] else ["Extension STARTTLS", "StartTLS"]) ++
    (if d.Username = "" then [] else ["Extension AUTH", "Auth"])

/-- Every message of the list passes `GetFrom` and `GetRecipients` and the
sender takes it without an error: the `Send` method of the sender is applied
to one message after the other, to the sender and recipients of the message,
and takes the sender from state `st` to state `st1`. -/
def handedOver {σ : Type} (ParseAddress : AddressParser) (s : Sender σ) :
    σ → List Message → σ → Prop
  | st, [], st1 => st1 = st
  | st, m :: rest, st1 =>
    (m.GetFrom ParseAddress).2 = none ∧ (m.GetRecipients ParseAddress).2 = none ∧
      (s.Send st (m.GetFrom ParseAddress).1 (m.GetRecipients ParseAddress).1 m).2 = none ∧
      handedOver ParseAddress s
        (s.Send st (m.GetFrom ParseAddress).1 (m.GetRecipients ParseAddress).1 m).1 rest st1

/-- The message `m` fails with the error `e` at the sender state `st`:
`GetFrom` fails, or `GetRecipients` fails, and the sender is not invoked and
keeps its state; or both succeed and the `Send` method of the sender,
invoked once, returns `e` and leaves the state `st1`. `calls` are the
invocations made. -/
def failsWith {σ : Type} (ParseAddress : AddressParser) (s : Sender σ) (st : σ) (m : Message)
    (e : Error) (st1 : σ) (calls : List Call) : Prop :=
  ((m.GetFrom ParseAddress).2 = some e ∧ st1 = st ∧ calls = []) ∨
    ((m.GetFrom ParseAddress).2 = none ∧ (m.GetRecipients ParseAddress).2 = some e ∧
      st1 = st ∧ calls = []) ∨
    ((m.GetFrom ParseAddress).2 = none ∧ (m.GetRecipients ParseAddress).2 = none ∧
      s.Send st (m.GetFrom ParseAddress).1 (m.GetRecipients ParseAddress).1 m = (st1, some e) ∧
      calls = [callOf ParseAddress m])

/-! ## Sample inputs -/

/-- A parser for bare addresses: a string that holds an at sign is its own
address, as for `mail.ParseAddress` on a bare `addr-spec`; any other string
is refused. -/
def bareAddressParser : AddressParser := fun field =>
  if field.data.contains '@' then .ok field else .error "mail: missing '@' or angle-addr"

/-- A message with the given header and nothing else, as `NewMessage`
leaves its other fields. -/
def headerOnly (h : Header) : Message :=
  { Header := h, Parts := [], Attachments := [], Embedded := [], Charset := "UTF-8",
    Encoding := QuotedPrintable, HEncoder := QEncoding, Buf := "" }

/-- The message of the recipients example: two To values, one of them
repeated under Cc. -/
def toCcMessage : Message :=
  headerOnly [("To", ["a@x.com", "b@x.com"]), ("Cc", ["a@x.com"])]

/-- A message with a Sender and a From value. -/
def senderFromMessage : Message :=
  headerOnly [("From", ["f@x.com"]), ("Sender", ["s@x.com"])]

/-- A message with a From value and one recipient. -/
def plainMessage : Message :=
  headerOnly [("From", ["f@x.com"]), ("To", ["b@x.com"])]

/-- A message with a recipient and no From or Sender value. -/
def noFromMessage : Message :=
  headerOnly [("To", ["c@x.com"])]

/-- A message whose second To value is no address. -/
def badToMessage : Message :=
  headerOnly [("To", ["a@x.com", "nobody"]), ("Cc", ["c@x.com"])]

/-- A sender that counts its invocations and accepts every message. -/
def countingSender : Sender Nat :=
  ⟨fun n _ _ _ => (n + 1, none)⟩

/-- The function `needsEncoding` of the standard library's `mime` package:
some byte is outside the printable ASCII range and is no tabulation. -/
def needsEncoding (s : String) : Bool :=
  s.data.any (fun b => (b < ' ' ∨ b > '~') ∧ b ≠ '\t')

/-- The 64 symbols of the standard base64 alphabet. -/
def base64Alphabet : List Char :=
  "ABCDEFGHIJKLMNOPQRSTUVWXYZabcdefghijklmnopqrstuvwxyz0123456789+/".data

/-- The base64 symbol of a six-bit value. -/
def base64Symbol (n : Nat) : Char :=
  base64Alphabet.getD n '='

/-- Standard base64 with padding, on byte values. -/
def base64Encode : List Nat → List Char
  | [] => []
  | [a] => [base64Symbol (a / 4), base64Symbol (a % 4 * 16), '=', '=']
  | [a, b] =>
    [base64Symbol (a / 4), base64Symbol (a % 4 * 16 + b / 16), base64Symbol (b % 16 * 4), '=']
  | a :: b :: c :: rest =>
    [base64Symbol (a / 4), base64Symbol (a % 4 * 16 + b / 16),
      base64Symbol (b % 16 * 4 + c / 64), base64Symbol (c % 64)] ++ base64Encode rest

/-- An upper-case hexadecimal digit. -/
def upperHex (n : Nat) : Char :=
  "0123456789ABCDEF".data.getD n '0'

/-- The Q encoding of one byte: a space becomes an underscore, a printable
byte other than `=`, `?` and `_` stays, any other byte is written as `=XX`. -/
def qEncodeByte (b : Char) : List Char :=
  if b = ' ' then ['_']
  else if '!' ≤ b ∧ b ≤ '~' ∧ b ≠ '=' ∧ b ≠ '?' ∧ b ≠ '_' then [b]
  else ['=', upperHex (b.toNat / 16), upperHex (b.toNat % 16)]

/-- A model of `mime.WordEncoder.Encode` of the standard library for a text
whose encoded form fits in one encoded word (the library splits a longer
one into several words): a text that needs no encoding is returned as it
is, any other one is wrapped as `=?charset?b?...?=` or `=?charset?q?...?=`. -/
def encodeWord : WordEncode := fun e charset s =>
  if !needsEncoding s then s
  else
    "=?" ++ charset ++ "?" ++ String.singleton e.WordEncoder ++ "?" ++
      String.mk (if e = BEncoding then base64Encode (s.data.map Char.toNat)
        else s.data.flatMap qEncodeByte) ++ "?="

/-! ## The base64 encoder of the standard library -/

/-- The bytes of a text as numbers. -/
def byteValues (s : List Char) : List Nat :=
  s.map Char.toNat

/-- The loop `for len(p) >= 3` of the encoder's `Write`, for at most `fuel`
rounds, with the count `n` so far: whole groups of three bytes are encoded
and written, at most 768 bytes at a time; the rest stays in the buffer. -/
def base64Interior : Nat → List Char → Nat → Prog ((List Char × Option Error) × Nat × Option Error)
  | 0, p, n => .ret ((p, none), n + p.length, none)
  | fuel + 1, p, n =>
    if p.length ≥ 3 then
      let nn := if 768 > p.length then p.length - p.length % 3 else 768
      .write (String.mk (base64Encode (byteValues (p.take nn)))) (fun _ err =>
        match err with
        | some e => .ret ((p, some e), n, some e)
        | none => base64Interior fuel (p.drop nn) (n + nn))
    else .ret ((p, none), n + p.length, none)

/-- A model of `base64.NewEncoder(base64.StdEncoding, w)`: the state is the
buffer of at most two pending bytes and the encoder's sticky error. -/
def stdBase64 : StreamEncoder where
  State := List Char × Option Error
  init := ([], none)
  Write := fun st p =>
    match st.2 with
    | some e => .ret (st, 0, some e)
    | none =>
      if st.1 = [] then base64Interior (p.length + 1) p.data 0
      else
        let i := min (3 - st.1.length) p.length
        let buf := st.1 ++ p.data.take i
        if buf.length < 3 then .ret ((buf, none), i, none)
        else
          .write (String.mk (base64Encode (byteValues buf))) (fun _ err =>
            match err with
            | some e => .ret ((buf, some e), i, some e)
            | none => base64Interior (p.length + 1) (p.data.drop i) i)
  Close := fun st =>
    match st.2 with
    | some e => .ret (some e)
    | none =>
      if st.1 = [] then .ret none
      else .write (String.mk (base64Encode (byteValues st.1))) (fun _ err => .ret err)

/-! ## The quoted-printable writer of the standard library -/

/-- One computation after another. -/
def Prog.bind {α β : Type} : Prog α → (α → Prog β) → Prog β
  | .ret a, f => f a
  | .write p next, f => .write p (fun n err => (next n err).bind f)

/-- The state of a `quotedprintable.Writer`: the bytes of the line buffer
and the flag `cr`. -/
structure QPState where
  line : List Char
  cr : Bool
  deriving DecidableEq, Repr

/-- A step of the writer that goes on only when the step before it returned
no error. -/
def qpThen (first : Prog (QPState × Option Error))
    (next : QPState → Prog (QPState × Option Error)) : Prog (QPState × Option Error) :=
  first.bind (fun r =>
    match r.2 with
    | some e => .ret (r.1, some e)
    | none => next r.1)

/-- The method `flush`: the line buffer is written and, when the write
returned no error, emptied. -/
def qpFlush (st : QPState) : Prog (QPState × Option Error) :=
  .write (String.mk st.line) (fun _ err =>
    match err with
    | some e => .ret (st, some e)
    | none => .ret ({ st with line := [] }, none))

/-- The method `insertCRLF`. -/
def qpInsertCRLF (st : QPState) : Prog (QPState × Option Error) :=
  qpFlush { st with line := st.line ++ ['\r', '\n'] }

/-- The method `insertSoftLineBreak`. -/
def qpInsertSoftLineBreak (st : QPState) : Prog (QPState × Option Error) :=
  qpInsertCRLF { st with line := st.line ++ ['='] }

/-- The method `encode`: the byte is buffered as `=XX`, after a soft line
break when fewer than three places are left on the line. -/
def qpEncode (st : QPState) (b : Char) : Prog (QPState × Option Error) :=
  qpThen (if 76 - 1 - st.line.length < 3 then qpInsertSoftLineBreak st else .ret (st, none))
    (fun st => .ret ({ st with line := st.line ++
      ['=', upperHex (b.toNat / 16), upperHex (b.toNat % 16)] }, none))

/-- The method `checkLastByte`: a space or tabulation at the end of the line
buffer is encoded. -/
def qpCheckLastByte (st : QPState) : Prog (QPState × Option Error) :=
  match st.line.getLast? with
  | none => .ret (st, none)
  | some b =>
    if b = ' ' ∨ b = '\t' then qpEncode { st with line := st.line.dropLast } b
    else .ret (st, none)

/-- One round of the loop of the method `write`, for a byte that is written
as it is. -/
def qpWriteByte (st : QPState) (b : Char) : Prog (QPState × Option Error) :=
  if b = '\n' ∨ b = '\r' then
    if st.cr ∧ b = '\n' then .ret ({ st with cr := false }, none)
    else
      qpThen (qpCheckLastByte (if b = '\r' then { st with cr := true } else st)) qpInsertCRLF
  else
    qpThen (if st.line.length = 76 - 1 then qpInsertSoftLineBreak st else .ret (st, none))
      (fun st => .ret ({ line := st.line ++ [b], cr := false }, none))

/-- Whether the method `Write` hands a byte on as it is: a printable byte
other than `=`, a space, a tabulation or a byte of a line end. -/
def qpPlain (b : Char) : Bool :=
  ('!' ≤ b ∧ b ≤ '~' ∧ b ≠ '=') ∨ b = ' ' ∨ b = '\t' ∨ b = '\n' ∨ b = '\r'

/-- The method `Write` over the bytes from index `i` on; `n` is the count
that is returned when a write underneath fails: the start of the run of
plain bytes being written, or the index of the byte being encoded. -/
def qpWrite : List Char → Nat → Nat → QPState → Prog (QPState × Nat × Option Error)
  | [], i, _, st => .ret (st, i, none)
  | b :: rest, i, n, st =>
    if qpPlain b then
      (qpWriteByte st b).bind (fun r =>
        match r.2 with
        | some e => .ret (r.1, n, some e)
        | none => qpWrite rest (i + 1) n r.1)
    else
      (qpEncode st b).bind (fun r =>
        match r.2 with
        | some e => .ret (r.1, i, some e)
        | none => qpWrite rest (i + 1) (i + 1) r.1)

/-- A model of `quotedprintable.NewWriter(w)`, after the source of the
standard library. -/
def stdQuotedPrintable : StreamEncoder where
  State := QPState
  init := ⟨[], false⟩
  Write := fun st p => qpWrite p.data 0 0 st
  Close := fun st => (qpThen (qpCheckLastByte st) qpFlush).bind (fun r => .ret r.2)

/-- A freshly built message with the default settings. -/
def defaultMessage : Message := headerOnly []

/-- A sink that takes every chunk whole. -/
def acceptingSink : Sink :=
  ⟨fun _ p => (p.length, none), [], ""⟩

/-- A sink that refuses every chunk. -/
def brokenSink : Sink :=
  ⟨fun _ _ => (0, some (.external "write: broken pipe")), [], ""⟩

/-- A library with the two encoders above, the media type of a PNG file and
fixed boundaries and time. -/
def sampleLibrary : Library where
  base64 := stdBase64
  quotedprintable := stdQuotedPrintable
  mediaType := fun name => if name = "logo.png" then "image/png" else ""
  mixedBoundary := "MIXED"
  relatedBoundary := "RELATED"
  alternativeBoundary := "ALTERNATIVE"
  now := "Mon, 02 Jan 2006 15:04:05 -0700"

/-- The default copy function of a file that does not exist: `os.Open`
fails and the error is returned before anything is written. -/
def missingFile : Producer :=
  .ret (some (.external "open missing.png: no such file or directory"))

/-- The error that `missingFile` returns. -/
def missingFileError : Option Error :=
  some (.external "open missing.png: no such file or directory")

/-- The method `Write` of a sink seen as a writer without a state of its
own: what the sink returns for a chunk, nothing handed over before. -/
def Sink.returns (s : Sink) (_ : Unit) (p : String) : Option (Unit × Nat × Option Error) :=
  some ((), (s.Write p).2)

/-- A message without a body, with the embedded file `missing.png`, which
cannot be opened, and the attachment `notes.txt`. -/
def embedAttachMessage : Message :=
  { headerOnly [("From", ["f@x.com"]), ("To", ["b@x.com"])] with
    Embedded := [⟨"missing.png", [], missingFile⟩]
    Attachments := [⟨"notes.txt", [], newCopier "hello"⟩] }

/-- A message built with the base64 encoding and a text body. -/
def base64TextMessage : Message :=
  { headerOnly [("From", ["f@x.com"]), ("To", ["b@x.com"])] with
    Encoding := Base64
    HEncoder := BEncoding
    Parts := [⟨"text/plain", newCopier "Hello", Base64⟩] }

/-- A message with one body part and two attachments. -/
def partTwoAttachments : Message :=
  { headerOnly [("From", ["f@x.com"]), ("To", ["b@x.com"])] with
    Parts := [⟨"text/plain", newCopier "Hello", QuotedPrintable⟩]
    Attachments := [⟨"a.txt", [], newCopier "a"⟩, ⟨"b.txt", [], newCopier "b"⟩] }

/-- A default message with a text body. -/
def textMessage : Message :=
  (NewMessage []).SetBody "text/plain" "Hello" []

/-- A default message with a text body and an attachment whose header
mapping sets the transfer encoding `8bit`. -/
def overrideMessage : Message :=
  { (NewMessage []).SetBody "text/plain" "Hello" [] with
    Attachments :=
      [⟨"notes.txt", [("Content-Transfer-Encoding", ["8bit"])], newCopier "hello"⟩] }

/-- Three recipients of a `To` header. -/
def threeRecipients : List String :=
  ["Alice Example <alice.example@mail.example.com>", "Bob <bob.b@example.org>",
    "carol@example.org"]

/-- A value of 88 characters with two adjacent spaces after its first 66
characters. -/
def doubleSpaceValue : String :=
  "xxxxxxxxxxxxxxxxxxxxxxxxxxxxxxxxxxxxxxxxxxxxxxxxxxxxxxxxxxxxxxxxxx  yyyyyyyyyyyyyyyyyyyy"

/-- A value of 81 characters: two words of 40 characters and a space
between them. -/
def twoWordValue : String :=
  "aaaaaaaaaaaaaaaaaaaaaaaaaaaaaaaaaaaaaaaa bbbbbbbbbbbbbbbbbbbbbbbbbbbbbbbbbbbbbbbb"

/-- A default message with a sender, a recipient, a hidden recipient and a
text body. -/
def bccMessage : Message :=
  { (NewMessage []).SetBody "text/plain" "Hello" [] with
    Header := [("From", ["f@x.com"]), ("To", ["b@x.com"]), ("Bcc", ["z@x.com"])] }

/-- A value of 81 characters whose only space is at index 70. -/
def slipValue : String :=
  "xxxxxxxxxxxxxxxxxxxxxxxxxxxxxxxxxxxxxxxxxxxxxxxxxxxxxxxxxxxxxxxxxxxxxx yyyyyyyyyy"

/-- A message without a body, with the embedded file `logo.png` and the
attachment `notes.txt`. -/
def logoNotesMessage : Message :=
  { headerOnly [("From", ["f@x.com"]), ("To", ["b@x.com"])] with
    Embedded := [⟨"logo.png", [], newCopier "png"⟩]
    Attachments := [⟨"notes.txt", [], newCopier "hello"⟩] }

/-- A default message with a text part, an HTML part, an embedded image and
an attachment: it calls for all three containers. -/
def nestedMessage : Message :=
  { headerOnly [("From", ["f@x.com"]), ("To", ["b@x.com"])] with
    Parts := [⟨"text/plain", newCopier "Hello", QuotedPrintable⟩,
      ⟨"text/html", newCopier "<b>Hello</b>", QuotedPrintable⟩]
    Embedded := [⟨"logo.png", [], newCopier "png"⟩]
    Attachments := [⟨"notes.txt", [], newCopier "hello"⟩] }

/-- The dialer of `TestDialerTimeout`: host and port only. -/
def timeoutDialer : Dialer :=
  { Host := "smtp.example.com", Port := 587, Username := "", Password := "", LocalName := "",
    Mechanisms := [] }

/-- The message of `getTestMessage`. -/
def testMessage : Message :=
  { (NewMessage []).SetBody "text/plain" "Test msg" [] with
    Header := [("From", ["from@example.com"]), ("To", ["to1@example.com", "to2@example.com"])] }

/-- A transport without extensions whose first `MAIL` returns end-of-stream;
its state counts the `MAIL` commands it was given. -/
def flakyClient : SmtpClient Nat where
  Dial := fun n => (n, none)
  Hello := fun n _ => (n, none)
  Extension := fun n _ => (n, false, "")
  StartTLS := fun n => (n, none)
  Auth := fun n => (n, none)
  Mail := fun n _ => if n = 0 then (1, some EOF) else (n + 1, none)
  Rcpt := fun n _ => (n, none)
  Data := fun n => (n, none)
  Write := fun n _ => (n, none)
  CloseWriter := fun n => (n, none)
  Quit := fun n => (n, none)
  Close := fun n => (n, none)

/-- A message whose To value is no address and which has a Bcc value. -/
def badToBccMessage : Message :=
  headerOnly [("To", ["nobody"]), ("Bcc", ["z@x.com"])]

/-- Two values of a `To` header, the first of 81 characters. -/
def foldedValues : List String :=
  [twoWordValue, "carol@example.org"]

/-- A parser for addresses with a display name: the address is what stands
between the angle brackets when the value has an opening one, as for
`mail.ParseAddress` on a `name-addr`; other values are treated as by
`bareAddressParser`. -/
def angleAddressParser : AddressParser := fun field =>
  if field.data.contains '<' then
    .ok (String.mk (((field.data.dropWhile (fun b => b ≠ '<')).drop 1).takeWhile
      (fun b => b ≠ '>')))
  else bareAddressParser field

/-- A message whose To values carry display names and whose Cc value repeats
the address of the first. -/
def namedToCcMessage : Message :=
  headerOnly [("To", ["Ann <a@x.com>", "b@x.com"]), ("Cc", ["a@x.com"])]

/-- A message whose Sender value carries a display name. -/
def namedSenderMessage : Message :=
  headerOnly [("From", ["f@x.com"]), ("Sender", ["Sam <s@x.com>"])]

/-! # Theorems -/

/-! ## Recipients -/

theorem parseAddress_of_parses (P : AddressParser) (a : String) (h : parses P a = true) :
    parseAddress P a = (parsedAddress P a, none) := by
  unfold parses parsedAddress at *
  unfold parseAddress at *
  cases hp : P a <;> simp_all

theorem parseAddress_of_not_parses (P : AddressParser) (a : String)
    (h : parses P a = false) :
    ∃ cause, P a = .error cause ∧ parseAddress P a = ("", some (.invalidAddress a cause)) := by
  unfold parses at h
  unfold parseAddress at *
  cases hp : P a <;> simp_all

theorem addAddress_eq (list : List String) (addr : String) :
    addAddress list addr = if addr ∈ list then list else list ++ [addr] := by
  unfold addAddress
  by_cases h : addr ∈ list
  · have : list.any (fun a => addr == a) = true := by
      simp only [List.any_eq_true, beq_iff_eq]
      exact ⟨addr, h, rfl⟩
    simp [this, h]
  · have : list.any (fun a => addr == a) = false := by
      rw [Bool.eq_false_iff]
      intro hc
      simp only [List.any_eq_true, beq_iff_eq] at hc
      obtain ⟨x, hx, rfl⟩ := hc
      exact h hx
    simp [this, h]

theorem foldl_addAddress (xs list : List String) :
    xs.foldl addAddress list = list ++ (keepFirst xs).filter (fun b => decide (b ∉ list)) := by
  induction xs generalizing list with
  | nil => simp [keepFirst]
  | cons x xs ih =>
    rw [List.foldl_cons, ih, addAddress_eq]
    by_cases hx : x ∈ list
    · simp only [hx, if_true, keepFirst, List.filter_cons, not_true_eq_false, decide_False,
        Bool.false_eq_true, if_false, List.filter_filter]
      congr 1
      apply List.filter_congr
      intro b _
      by_cases hb : b ∈ list
      · simp [hb]
      · have : b ≠ x := fun e => hb (e ▸ hx)
        simp [hb, this]
    · simp only [hx, if_false, keepFirst, List.filter_cons, not_false_eq_true, decide_True,
        if_true, List.filter_filter, List.append_assoc, List.singleton_append]
      congr 2
      apply List.filter_congr
      intro b _
      by_cases hb : b ∈ list <;> by_cases hbx : b = x <;> simp [hb, hbx]

theorem foldl_addAddress_nil (xs : List String) :
    xs.foldl addAddress [] = keepFirst xs := by
  rw [foldl_addAddress]
  simp

theorem mem_keepFirst (xs : List String) (x : String) : x ∈ keepFirst xs ↔ x ∈ xs := by
  induction xs with
  | nil => simp [keepFirst]
  | cons a rest ih =>
    simp only [keepFirst, List.mem_cons, List.mem_filter, ih, decide_eq_true_eq]
    by_cases h : x = a <;> simp [h]

theorem nodup_keepFirst (xs : List String) : (keepFirst xs).Nodup := by
  induction xs with
  | nil => simp [keepFirst]
  | cons a rest ih =>
    simp only [keepFirst, List.nodup_cons, List.mem_filter, decide_eq_true_eq]
    exact ⟨fun h => h.2 rfl, ih.filter _⟩

theorem addAddresses_of_parses (P : AddressParser) (vals list : List String)
    (h : ∀ a ∈ vals, parses P a = true) :
    addAddresses P list vals = ((vals.map (parsedAddress P)).foldl addAddress list, none) := by
  induction vals generalizing list with
  | nil => simp [addAddresses]
  | cons a rest ih =>
    have ha := parseAddress_of_parses P a (h a (List.mem_cons_self _ _))
    simp only [addAddresses, ha, List.map_cons, List.foldl_cons]
    exact ih _ (fun b hb => h b (List.mem_cons_of_mem _ hb))

theorem recipientsLoop_cons_of_parses (P : AddressParser) (h : Header) (list : List String)
    (field : String) (fields : List String) (hp : ∀ a ∈ h.get field, parses P a = true) :
    recipientsLoop P h list (field :: fields) =
      recipientsLoop P h (((h.get field).map (parsedAddress P)).foldl addAddress list) fields := by
  unfold Header.get at *
  cases hg : h.get? field with
  | none => simp [recipientsLoop, hg]
  | some addresses =>
    simp only [hg, Option.getD_some] at hp
    simp [recipientsLoop, hg, addAddresses_of_parses P addresses list hp]

theorem parses_of_ok (P : AddressParser) (a addr : String) (h : P a = .ok addr) :
    parses P a = true ∧ parsedAddress P a = addr := by
  unfold parses parsedAddress parseAddress
  rw [h]
  exact ⟨rfl, rfl⟩

theorem forall2_parsed (P : AddressParser) (vals addrs : List String)
    (h : List.Forall₂ (fun a addr => P a = .ok addr) vals addrs) :
    (∀ a ∈ vals, parses P a = true) ∧ vals.map (parsedAddress P) = addrs := by
  induction h with
  | nil => exact ⟨fun a ha => by simp at ha, rfl⟩
  | cons hab _ ih =>
    obtain ⟨h1, h2⟩ := parses_of_ok P _ _ hab
    refine ⟨?_, by rw [List.map_cons, h2, ih.2]⟩
    intro x hx
    rcases List.mem_cons.mp hx with rfl | hx
    · exact h1
    · exact ih.1 x hx

/-! ## Sending -/

theorem send_calls_of_ok {σ : Type} (P : AddressParser) (s : Sender σ) (st : σ) (m : Message)
    (h : (send P s st m).err = none) : (send P s st m).calls = [callOf P m] := by
  unfold send callOf at *
  rcases hf : m.GetFrom P with ⟨sender, _ | e⟩
  · rcases hr : m.GetRecipients P with ⟨recipients, _ | e⟩
    · rcases hs : s.Send st sender recipients m with ⟨st2, _ | e⟩ <;> simp_all
    · simp_all
  · simp_all

theorem send_calls_le_one {σ : Type} (P : AddressParser) (s : Sender σ) (st : σ) (m : Message) :
    (send P s st m).calls = [] ∨ (send P s st m).calls = [callOf P m] := by
  unfold send callOf at *
  rcases hf : m.GetFrom P with ⟨sender, _ | e⟩
  · rcases hr : m.GetRecipients P with ⟨recipients, _ | e⟩
    · rcases hs : s.Send st sender recipients m with ⟨st2, _ | e⟩ <;> simp_all
    · simp_all
  · simp_all

theorem sendLoop_cons_ok {σ : Type} (P : AddressParser) (s : Sender σ) (i : Nat) (st : σ)
    (calls : List Call) (m : Message) (rest : List Message)
    (h : (send P s st m).err = none) :
    sendLoop P s i st calls (m :: rest) =
      sendLoop P s (i + 1) (send P s st m).state (calls ++ (send P s st m).calls) rest := by
  rcases hs : send P s st m with ⟨st2, made, _ | e⟩
  · simp [sendLoop, hs]
  · simp [hs] at h

theorem sendLoop_cons_err {σ : Type} (P : AddressParser) (s : Sender σ) (i : Nat) (st : σ)
    (calls : List Call) (m : Message) (rest : List Message) (e : Error)
    (h : (send P s st m).err = some e) :
    sendLoop P s i st calls (m :: rest) =
      ⟨(send P s st m).state, calls ++ (send P s st m).calls, some (.couldNotSend (i + 1) e)⟩ := by
  rcases hs : send P s st m with ⟨st2, made, _ | e2⟩
  · simp [hs] at h
  · simp only [hs, Option.some.injEq] at h
    simp [sendLoop, hs, h]

theorem sendLoop_allSent {σ : Type} (P : AddressParser) (s : Sender σ) (msgs : List Message)
    (i : Nat) (st st1 : σ) (calls : List Call) (h : allSent P s st msgs st1) :
    sendLoop P s i st calls msgs = ⟨st1, calls ++ msgs.map (callOf P), none⟩ := by
  induction msgs generalizing i st calls with
  | nil =>
    simp only [allSent] at h
    simp [sendLoop, h]
  | cons m rest ih =>
    obtain ⟨hm, hrest⟩ := h
    rw [sendLoop_cons_ok P s i st calls m rest hm, ih _ _ _ hrest,
      send_calls_of_ok P s st m hm]
    simp

theorem sendLoop_first_failure {σ : Type} (P : AddressParser) (s : Sender σ)
    (pre : List Message) (mk : Message) (post : List Message) (i : Nat) (st st1 : σ)
    (calls : List Call) (e : Error) (h : allSent P s st pre st1)
    (hk : (send P s st1 mk).err = some e) :
    sendLoop P s i st calls (pre ++ mk :: post) =
      ⟨(send P s st1 mk).state, calls ++ pre.map (callOf P) ++ (send P s st1 mk).calls,
        some (.couldNotSend (i + pre.length + 1) e)⟩ := by
  induction pre generalizing i st calls with
  | nil =>
    simp only [allSent] at h
    subst h
    simpa using sendLoop_cons_err P s i st1 calls mk post e hk
  | cons m rest ih =>
    obtain ⟨hm, hrest⟩ := h
    rw [List.cons_append, sendLoop_cons_ok P s i st calls m _ hm, ih _ _ _ hrest,
      send_calls_of_ok P s st m hm]
    simp [Nat.add_comm, Nat.add_left_comm]

theorem allSent_or_first_failure {σ : Type} (P : AddressParser) (s : Sender σ)
    (msgs : List Message) (st : σ) :
    (∃ st1, allSent P s st msgs st1) ∨
      ∃ pre mk post st1 e, msgs = pre ++ mk :: post ∧ allSent P s st pre st1 ∧
        (send P s st1 mk).err = some e := by
  induction msgs generalizing st with
  | nil => exact Or.inl ⟨st, rfl⟩
  | cons m rest ih =>
    cases hm : (send P s st m).err with
    | some e => exact Or.inr ⟨[], m, rest, st, e, rfl, rfl, hm⟩
    | none =>
      rcases ih (send P s st m).state with ⟨st1, h1⟩ | ⟨pre, mk, post, st1, e, rfl, h1, h2⟩
      · exact Or.inl ⟨st1, hm, h1⟩
      · exact Or.inr ⟨m :: pre, mk, post, st1, e, rfl, ⟨hm, h1⟩, h2⟩

/-! ## Recipients that do not parse -/

theorem addAddresses_error_nil (P : AddressParser) (vals list : List String) (e : Error) :
    (addAddresses P list vals).2 = some e → (addAddresses P list vals).1 = [] := by
  induction vals generalizing list with
  | nil => simp [addAddresses]
  | cons a rest ih =>
    unfold addAddresses
    rcases hp : parseAddress P a with ⟨addr, _ | e2⟩
    · simpa using ih _
    · simp

theorem addAddresses_append (P : AddressParser) (xs ys list : List String) :
    addAddresses P list (xs ++ ys) =
      match addAddresses P list xs with
      | (_, some err) => ([], some err)
      | (list, none) => addAddresses P list ys := by
  induction xs generalizing list with
  | nil => simp [addAddresses]
  | cons a rest ih =>
    rw [List.cons_append]
    rcases hp : parseAddress P a with ⟨addr, _ | e2⟩
    · simp only [addAddresses, hp]
      exact ih _
    · simp [addAddresses, hp]

theorem recipientsLoop_eq_addAddresses (P : AddressParser) (h : Header)
    (fields list : List String) :
    recipientsLoop P h list fields = addAddresses P list (fields.flatMap h.get) := by
  induction fields generalizing list with
  | nil => simp [recipientsLoop, addAddresses]
  | cons field fields ih =>
    rw [List.flatMap_cons, addAddresses_append]
    unfold recipientsLoop Header.get
    cases hg : h.get? field with
    | none => simpa [addAddresses] using ih list
    | some addresses =>
      simp only [Option.getD_some]
      rcases ha : addAddresses P list addresses with ⟨l, _ | e⟩
      · simpa using ih l
      · simp

theorem GetRecipients_eq_addAddresses (P : AddressParser) (m : Message) :
    m.GetRecipients P = addAddresses P [] m.recipientValues := by
  unfold Message.GetRecipients Message.recipientValues
  rw [recipientsLoop_eq_addAddresses]
  simp [List.flatMap]

/-- C4. When some value under To, Cc or Bcc does not parse, `GetRecipients`
returns the invalid-address error of the first such value, in To, Cc, Bcc
order and in stored order within a field, together with the `nil` list and
not a partial one. -/
theorem GetRecipients_fails_at_first_invalid (P : AddressParser) (m : Message)
    (good : List String) (bad : String) (rest : List String)
    (hsplit : m.recipientValues = good ++ bad :: rest)
    (hgood : ∀ a ∈ good, parses P a = true) (hbad : parses P bad = false) :
    ∃ cause, P bad = .error cause ∧
      m.GetRecipients P = ([], some (.invalidAddress bad cause)) := by
  obtain ⟨cause, hc, hp⟩ := parseAddress_of_not_parses P bad hbad
  refine ⟨cause, hc, ?_⟩
  rw [GetRecipients_eq_addAddresses, hsplit, addAddresses_append,
    addAddresses_of_parses P good [] hgood]
  simp [addAddresses, hp]

theorem GetRecipients_fails_at_first_invalid_witness :
    badToMessage.recipientValues = ["a@x.com"] ++ "nobody" :: ["c@x.com"] ∧
      ∃ cause, bareAddressParser "nobody" = .error cause ∧
        badToMessage.GetRecipients bareAddressParser =
          ([], some (.invalidAddress "nobody" cause)) :=
  ⟨by decide, GetRecipients_fails_at_first_invalid bareAddressParser badToMessage
    ["a@x.com"] "nobody" ["c@x.com"] (by decide) (by decide) (by decide)⟩

/-! ## The LOGIN mechanism -/

/-- C5. `Start` succeeds, with the mechanism name LOGIN and no initial
response, exactly when the channel is TLS or LOGIN is advertised, and the
server name is the configured host; in every other case it returns an
error.  On TLS it succeeds with nothing advertised; on a plaintext channel
with nothing advertised it fails. -/
theorem Start_succeeds_iff (a : LoginAuth) (server : ServerInfo) :
    (a.Start server = ("LOGIN", none, none) ↔
      (server.TLS = true ∨ "LOGIN" ∈ server.Auth) ∧ server.Name = a.Host) ∧
    (a.Start server ≠ ("LOGIN", none, none) → ∃ e, a.Start server = ("", none, some e)) ∧
    (server.TLS = true → server.Auth = [] → server.Name = a.Host →
      a.Start server = ("LOGIN", none, none)) ∧
    (server.TLS = false → server.Auth = [] →
      a.Start server = ("", none, some .unencryptedConnection)) := by
  have hany : server.Auth.any (fun mechanism => mechanism == "LOGIN") = true ↔
      "LOGIN" ∈ server.Auth := by
    simp [List.any_eq_true]
  unfold LoginAuth.Start
  cases hb : server.Auth.any (fun mechanism => mechanism == "LOGIN") <;>
    cases htls : server.TLS <;> by_cases hname : server.Name = a.Host
  all_goals
    have hadv := hany
    rw [hb] at hadv
    simp only [Bool.not_true, Bool.not_false, Bool.and_true, Bool.and_false, Bool.true_and,
      Bool.false_and, Bool.false_eq_true, if_true, if_false, hname, ne_eq, not_true_eq_false,
      not_false_eq_true]
    simp only [Bool.false_eq_true, false_iff, true_iff] at hadv
    refine ⟨?_, ?_, ?_, ?_⟩ <;> simp_all <;> (intro h; simp [h] at hadv)

theorem Start_succeeds_iff_witness :
    (⟨"user", "pwd", "smtp.example.com"⟩ : LoginAuth).Start ⟨"smtp.example.com", true, []⟩ =
      ("LOGIN", none, none) :=
  (Start_succeeds_iff ⟨"user", "pwd", "smtp.example.com"⟩ ⟨"smtp.example.com", true, []⟩).2.2.1
    rfl rfl rfl

/-- C6. While the server expects more data, `Next` answers the challenge
`Username:` with the user name, the challenge `Password:` with the
password, and every other challenge with an error and no response. -/
theorem Next_answers_challenges (a : LoginAuth) (fromServer : String) :
    a.Next "Username:" true = (some a.Username, none) ∧
    a.Next "Password:" true = (some a.Password, none) ∧
    (fromServer ≠ "Username:" → fromServer ≠ "Password:" →
      a.Next fromServer true = (none, some (.unexpectedChallenge fromServer))) := by
  refine ⟨by simp [LoginAuth.Next], by simp [LoginAuth.Next], ?_⟩
  intro h1 h2
  simp [LoginAuth.Next, h1, h2]

theorem Next_answers_challenges_witness :
    (⟨"user", "pwd", "smtp.example.com"⟩ : LoginAuth).Next "username:" true =
      (none, some (.unexpectedChallenge "username:")) :=
  (Next_answers_challenges ⟨"user", "pwd", "smtp.example.com"⟩ "username:").2.2
    (by decide) (by decide)

/-! ## Formatting an address -/

theorem quoteLoop_data (name : List Char) (buf : String) :
    (quoteLoop buf name).data =
      buf.data ++ name.flatMap (fun b => if b = '\\' ∨ b = '"' then ['\\', b] else [b]) := by
  induction name generalizing buf with
  | nil => simp [quoteLoop]
  | cons b rest ih =>
    simp only [quoteLoop, ih, List.flatMap_cons]
    by_cases hb : b = '\\' ∨ b = '"'
    · simp [hb, String.data_push]
    · simp [hb, String.data_push]

/-- C7. On a message whose buffer is empty (as `NewMessage` and every call
of `FormatAddress` leave it), for a non-empty name that the header encoder
returns unchanged, `FormatAddress` returns a double quote, the name with a
backslash put before every backslash and double quote, a double quote, a
space and the address in angle brackets; for the empty name it returns the
address as it is.  The buffer is empty again afterwards. -/
theorem FormatAddress_quotes_plain_name (Encode : WordEncode) (m : Message)
    (address name : String) (hbuf : m.Buf = "") :
    (name ≠ "" → Encode m.HEncoder m.Charset name = name →
      (m.FormatAddress Encode address name).1 =
        "\"" ++ escapedName name ++ "\" <" ++ address ++ ">") ∧
    (m.FormatAddress Encode address "").1 = address ∧
    (m.FormatAddress Encode address name).2.Buf = "" := by
  refine ⟨?_, by simp [Message.FormatAddress], ?_⟩
  · intro hne henc
    simp only [Message.FormatAddress, hne, if_false, Message.encodeString, henc, if_true, hbuf]
    apply String.ext
    simp [String.data_push, String.data_append, quoteLoop_data, escapedName]
  · by_cases hne : name = ""
    · simp [Message.FormatAddress, hne, hbuf]
    · simp [Message.FormatAddress, hne]

theorem FormatAddress_quotes_plain_name_witness :
    (defaultMessage.FormatAddress encodeWord "bob@x.com" "Bob \"B\" \\ Roe").1 =
      "\"Bob \\\"B\\\" \\\\ Roe\" <bob@x.com>" := by
  rw [(FormatAddress_quotes_plain_name encodeWord defaultMessage "bob@x.com"
    "Bob \"B\" \\ Roe" rfl).1 (by decide) (by decide)]
  decide

/-- C8, the claim as stated fails: on a message with the quoted-printable
header encoder, a name that needs encoding and holds a comma is not
rendered with the quoted-printable word encoding of the message. -/
theorem FormatAddress_not_own_encoder :
    defaultMessage.HEncoder = QEncoding ∧ "Ann,\n" ≠ "" ∧
      encodeWord defaultMessage.HEncoder defaultMessage.Charset "Ann,\n" ≠ "Ann,\n" ∧
      hasSpecials "Ann,\n" = true ∧
      (defaultMessage.FormatAddress encodeWord "ann@x.com" "Ann,\n").1 ≠
        encodeWord defaultMessage.HEncoder defaultMessage.Charset "Ann,\n" ++ " <ann@x.com>" ∧
      (defaultMessage.FormatAddress encodeWord "ann@x.com" "Ann,\n").1 =
        "=?UTF-8?b?QW5uLAo=?= <ann@x.com>" := by
  decide

/-- C8, amended. On a message whose buffer is empty, for a non-empty name
that the header encoder changes and that holds a special character,
`FormatAddress` returns the base64 word encoding of the name, whatever the
header encoder of the message, then a space and the address in angle
brackets. -/
theorem FormatAddress_base64_for_specials (Encode : WordEncode) (m : Message)
    (address name : String) (hbuf : m.Buf = "") (hne : name ≠ "")
    (henc : Encode m.HEncoder m.Charset name ≠ name) (hspec : hasSpecials name = true) :
    (m.FormatAddress Encode address name).1 =
      Encode BEncoding m.Charset name ++ " <" ++ address ++ ">" := by
  simp only [Message.FormatAddress, hne, if_false, Message.encodeString, henc, hspec, if_true,
    hbuf]
  apply String.ext
  simp [String.data_push, String.data_append]

theorem FormatAddress_base64_for_specials_witness :
    (defaultMessage.FormatAddress encodeWord "ann@x.com" "Ann,\n").1 =
      encodeWord BEncoding "UTF-8" "Ann,\n" ++ " <" ++ "ann@x.com" ++ ">" :=
  FormatAddress_base64_for_specials encodeWord defaultMessage "ann@x.com" "Ann,\n" rfl
    (by decide) (by decide) (by decide)

/-! ## Errors of the writer -/

/-- C9, the code at the failing input. The embedded file of the message
cannot be opened, so its content producer returns an error; the attachment
after it is written without an error, and `WriteMessage` ends with `Err`
being `nil`: `WriteTo` reports no error. -/
theorem WriteMessage_forgets_producer_error :
    (embedAttachMessage.Embedded.map (fun f => (f.CopyFunc.run acceptingSink.returns ()).map
        Prod.snd) = [some missingFileError]) ∧
      ((newMessageWriter acceptingSink).WriteMessage sampleLibrary
        embedAttachMessage).map MessageWriter.Err = some none ∧
      (embedAttachMessage.WriteTo sampleLibrary acceptingSink).map (fun r => r.2.2) =
        some none := by
  decide!

/-- C10, the code at the failing input. Every write to the sink fails while
the header lines, the blank line and the base64 body of the message are
written; `WriteMessage` ends with `Err` being `nil` and `WriteTo` returns
the count 0 and no error. -/
theorem WriteMessage_ignores_sink_failure :
    (base64TextMessage.WriteTo sampleLibrary brokenSink).map (fun r => (r.1.out, r.2)) =
      some ("", 0, none) := by
  decide!

/-! ## The method `Write` -/

/-- C11. When `Err` is set, `Write(p)` returns 0 and an error, hands nothing
to the sink and leaves the writer, with its count `N` and its `Err`, as it
was.  When `Err` is not set, `Write(p)` hands `p` to the sink, returns the
count and the error of the sink, adds the count to `N` and stores the error
in `Err`. -/
theorem Write_sticky_error (w : MessageWriter) (p : String) :
    (w.Err ≠ none → (w.Write p).1 = w ∧ (w.Write p).2.1 = 0 ∧ (w.Write p).2.2 ≠ none) ∧
    (w.Err = none →
      (w.Write p).1.W = (w.W.Write p).1 ∧
      (w.Write p).2 = (w.W.Write p).2 ∧
      (w.Write p).1.N = w.N + ((w.W.Write p).2.1 : Int) ∧
      (w.Write p).1.Err = (w.W.Write p).2.2 ∧
      (w.Write p).1.W.calls = w.W.calls ++ [p]) := by
  constructor
  · intro h
    cases he : w.Err with
    | none => exact absurd he h
    | some e => simp [MessageWriter.Write, he]
  · intro h
    simp [MessageWriter.Write, h, Sink.Write]

theorem Write_sticky_error_witness :
    (({ newMessageWriter acceptingSink with Err := some .writerInError, N := 7 }).Write "abc").2 =
        (0, some .writerInError) ∧
      (({ newMessageWriter acceptingSink with Err := some .writerInError, N := 7 }).Write
        "abc").1.N = 7 := by
  have h := (Write_sticky_error
    { newMessageWriter acceptingSink with Err := some .writerInError, N := 7 } "abc").1
    (by simp)
  refine ⟨?_, by rw [h.1]⟩
  simp [MessageWriter.Write]

/-! ## The structure of a message -/

/-- C18. `AddAlternative` without part settings leaves the part list as it
was, followed by one new part with the given content type and the encoding
of the message; on a new default message, a plain and then an HTML
alternative give the plain part before the HTML part, both quoted-printable,
and `HasAlternativePart` holds. -/
theorem AddAlternative_appends (m : Message) (contentType body : String) :
    (m.AddAlternative contentType body []).Parts =
        m.Parts ++ [⟨contentType, newCopier body, m.Encoding⟩] ∧
      (((NewMessage []).AddAlternative "text/plain" "A" []).AddAlternative "text/html"
        "<p>A</p>" []).Parts =
        [⟨"text/plain", newCopier "A", QuotedPrintable⟩,
          ⟨"text/html", newCopier "<p>A</p>", QuotedPrintable⟩] ∧
      (((NewMessage []).AddAlternative "text/plain" "A" []).AddAlternative "text/html"
        "<p>A</p>" []).HasAlternativePart = true := by
  refine ⟨rfl, rfl, rfl⟩

/-- C20. `HasMixedPart` holds exactly when the message has a body part and
an attachment, or at least two attachments; it holds for one part with two
attachments and does not depend on the embedded files. -/
theorem HasMixedPart_iff (m : Message) (embedded : List File) :
    (m.HasMixedPart = true ↔
      (1 ≤ m.Parts.length ∧ 1 ≤ m.Attachments.length) ∨ 2 ≤ m.Attachments.length) ∧
    (m.Parts.length = 1 → m.Attachments.length = 2 → m.HasMixedPart = true) ∧
    ({ m with Embedded := embedded }).HasMixedPart = m.HasMixedPart := by
  refine ⟨?_, ?_, rfl⟩
  · simp only [Message.HasMixedPart, Bool.or_eq_true, Bool.and_eq_true, decide_eq_true_eq]
    omega
  · intro h1 h2
    simp [Message.HasMixedPart, h1, h2]

theorem HasMixedPart_iff_witness : partTwoAttachments.HasMixedPart = true :=
  (HasMixedPart_iff partTwoAttachments []).2.1 rfl rfl

theorem applySettings_keeps_content (settings : List MessageSetting) (m : Message)
    (h : ∀ s ∈ settings, IsCharsetOrEncoding s) :
    (m.applySettings settings).Header = m.Header ∧
      (m.applySettings settings).Parts = m.Parts ∧
      (m.applySettings settings).Attachments = m.Attachments ∧
      (m.applySettings settings).Embedded = m.Embedded ∧
      (m.applySettings settings).Buf = m.Buf := by
  induction settings generalizing m with
  | nil => simp [Message.applySettings]
  | cons s rest ih =>
    have hs := h s (List.mem_cons_self _ _)
    have hrest := ih (s m) (fun t ht => h t (List.mem_cons_of_mem _ ht))
    simp only [Message.applySettings]
    rcases hs with ⟨c, rfl⟩ | ⟨e, rfl⟩
    · simpa [SetCharset] using hrest
    · simpa [SetEncoding] using hrest

theorem NewMessage_empty (settings : List MessageSetting)
    (h : ∀ s ∈ settings, IsCharsetOrEncoding s) :
    (NewMessage settings).Header = [] ∧ (NewMessage settings).Parts = [] ∧
      (NewMessage settings).Attachments = [] ∧ (NewMessage settings).Embedded = [] ∧
      (NewMessage settings).Buf = "" := by
  have hk := applySettings_keeps_content settings
    { Header := [], Parts := [], Attachments := [], Embedded := [], Charset := "UTF-8",
      Encoding := QuotedPrintable, HEncoder := ⟨'\x00'⟩, Buf := "" } h
  unfold NewMessage
  simp only
  split <;> simpa using hk

/-- C19. After `Reset` the header map and the lists of parts, attachments
and embedded files are empty, and the charset, the encoding and the header
encoder are unchanged.  A message that still has the charset, encoding,
header encoder and (empty) buffer that `NewMessage` gave it for a list of
`SetCharset` and `SetEncoding` settings is, after `Reset`, the very message
that `NewMessage` returns for these settings. -/
theorem Reset_restores_new_message (m : Message) :
    (m.Reset.Header = [] ∧ m.Reset.Parts = [] ∧ m.Reset.Attachments = [] ∧
      m.Reset.Embedded = [] ∧ m.Reset.Charset = m.Charset ∧ m.Reset.Encoding = m.Encoding ∧
      m.Reset.HEncoder = m.HEncoder) ∧
    (∀ settings : List MessageSetting, (∀ s ∈ settings, IsCharsetOrEncoding s) →
      m.Charset = (NewMessage settings).Charset → m.Encoding = (NewMessage settings).Encoding →
      m.HEncoder = (NewMessage settings).HEncoder → m.Buf = (NewMessage settings).Buf →
      m.Reset = NewMessage settings) := by
  refine ⟨⟨rfl, rfl, rfl, rfl, rfl, rfl, rfl⟩, ?_⟩
  intro settings hs hc he hh hb
  obtain ⟨h1, h2, h3, h4, _⟩ := NewMessage_empty settings hs
  cases hn : NewMessage settings with
  | mk Header Parts Attachments Embedded Charset Encoding HEncoder Buf =>
    rw [hn] at h1 h2 h3 h4 hc he hh hb
    cases m
    simp_all [Message.Reset]

theorem Reset_restores_new_message_witness :
    (((NewMessage [SetEncoding Base64]).AddAlternative "text/plain" "A" []).Reset) =
      NewMessage [SetEncoding Base64] :=
  (Reset_restores_new_message ((NewMessage [SetEncoding Base64]).AddAlternative "text/plain"
    "A" [])).2 [SetEncoding Base64]
    (by
      intro s hs
      simp only [List.mem_singleton] at hs
      exact Or.inr ⟨Base64, hs⟩)
    rfl rfl rfl rfl

/-! ## The count of `WriteTo` -/

/-- C12, the code at the failing input. For the default message with a text
body and a sink that takes every write, `WriteTo` returns the count 146
while the sink received 151 bytes: the five bytes of the body are not
counted.  For the multipart message with one part and two attachments the
count and the number of bytes agree. -/
theorem WriteTo_count_misses_body :
    (textMessage.WriteTo sampleLibrary acceptingSink).map
        (fun r => (r.2.1, r.1.out.length, r.2.2)) = some (146, 151, none) ∧
      (partTwoAttachments.WriteTo sampleLibrary acceptingSink).map
        (fun r => (r.2.1, r.1.out.length, r.2.2)) = some (566, 566, none) := by
  decide!

/-! ## The length of header lines -/

/-- C14, the code at the failing input. The name `To` has two characters, the
three values hold no CR or LF and no word of more than 40 characters, and
`writeHeader` emits all of them on one physical line of 94 characters. -/
theorem writeHeader_line_exceeds_76 :
    (∀ v ∈ threeRecipients, '\r' ∉ v.data ∧ '\n' ∉ v.data ∧
        ∀ word ∈ spaceFreeWords v, word.length ≤ 40) ∧
      ((newMessageWriter acceptingSink).writeHeader "To" threeRecipients).map
        (fun w => (String.mk w.emitted, (physicalLines w.emitted).map List.length)) =
        some ("To: Alice Example <alice.example@mail.example.com>, Bob <bob.b@example.org>, " ++
          "carol@example.org\r\n", [94, 0]) := by
  decide!

/-! ## The transfer encoding of a file -/

/-- C17, the code at the failing input. The attachment declares the transfer
encoding `8bit` through its header mapping; `WriteMessage` writes that header
for the file and writes its content `hello` in base64, as `aGVsbG8=`. -/
theorem addFiles_ignores_declared_encoding :
    (overrideMessage.WriteTo sampleLibrary acceptingSink).map (fun r => (r.1.out, r.2.2)) =
      some ("Mime-Version: 1.0\r\nDate: Mon, 02 Jan 2006 15:04:05 -0700\r\n" ++
        "Content-Type: multipart/mixed;\r\n boundary=MIXED\r\n\r\n" ++
        "--MIXED\r\nContent-Transfer-Encoding: quoted-printable\r\n" ++
        "Content-Type: text/plain; charset=UTF-8\r\n\r\nHello\r\n" ++
        "--MIXED\r\nContent-Disposition: attachment; filename=\"notes.txt\"\r\n" ++
        "Content-Transfer-Encoding: 8bit\r\n" ++
        "Content-Type: application/octet-stream; name=\"notes.txt\"\r\n\r\n" ++
        "aGVsbG8=\r\n--MIXED--\r\n", none) := by
  decide!

/-! ## What a writer emits -/

theorem Emits.refl (w : MessageWriter) : Emits w w [] := by
  simp [Emits]

theorem Emits.trans {w w1 w2 : MessageWriter} {x y : List Char} (h1 : Emits w w1 x)
    (h2 : Emits w1 w2 y) : Emits w w2 (x ++ y) := by
  obtain ⟨e1, r1, o1, a1, b1, c1, d1, f1⟩ := h1
  obtain ⟨e2, r2, o2, a2, b2, c2, d2, f2⟩ := h2
  refine ⟨by rw [e2, e1, List.append_assoc], r2.trans r1, fun ha => ?_, a2.trans a1,
    b2.trans b1, c2.trans c1, d2.trans d1, f2.trans f1⟩
  have ha1 : w1.W.Accepting := by
    intro calls p
    rw [r1]
    exact ha calls p
  rw [o2 ha1, o1 ha, List.append_assoc]

theorem Sink.Write_calls (s : Sink) (p : String) : (s.Write p).1.calls = s.calls ++ [p] := rfl

theorem Sink.Write_respond (s : Sink) (p : String) : (s.Write p).1.respond = s.respond := rfl

theorem Sink.Write_out_of_accepting (s : Sink) (p : String) (h : s.Accepting) :
    (s.Write p).1.out.data = s.out.data ++ p.data := by
  unfold Sink.Write
  simp only [h s.calls p, Nat.min_self, String.data_append]
  rw [show p.length = p.data.length from rfl, List.take_length]

theorem emits_sink_step (w : MessageWriter) (p : String) :
    Emits w { w with W := (w.W.Write p).1 } p.data := by
  refine ⟨?_, rfl, fun ha => Sink.Write_out_of_accepting _ _ ha, rfl, rfl, rfl, rfl, rfl⟩
  simp [MessageWriter.emitted, Sink.Write_calls]

theorem emits_writeString (w : MessageWriter) (s : String) :
    Emits w (w.writeString s) s.data := by
  have h := emits_sink_step w s
  unfold MessageWriter.writeString
  exact ⟨h.1, h.2.1, h.2.2.1, rfl, rfl, rfl, rfl, rfl⟩

theorem SubWriter.sink_Write (w : MessageWriter) (p : String) :
    SubWriter.sink.Write w p =
      some ({ w with W := (w.W.Write p).1 }, (w.W.Write p).2.1, (w.W.Write p).2.2) := rfl

/-! ## Base64 lines -/

theorem cutGroups_fuel (f1 f2 : Nat) (d : List Char) (h1 : d.length ≤ f1) (h2 : d.length ≤ f2) :
    cutGroups f1 d = cutGroups f2 d := by
  induction f1 generalizing f2 d with
  | zero =>
    have : d = [] := List.length_eq_zero.mp (Nat.le_zero.mp h1)
    subst this
    cases f2 <;> simp [cutGroups]
  | succ f1 ih =>
    by_cases hd : d = []
    · subst hd
      cases f2 <;> simp [cutGroups]
    · have hpos : 0 < d.length := List.length_pos.mpr hd
      cases f2 with
      | zero => omega
      | succ f2 =>
        simp only [cutGroups, hd, if_false]
        rw [ih f2 (d.drop 76) (by simp; omega) (by simp; omega)]

theorem groups76_of_ne_nil (d : List Char) (hd : d ≠ []) :
    groups76 d = d.take 76 :: groups76 (d.drop 76) := by
  have hpos : 0 < d.length := List.length_pos.mpr hd
  unfold groups76
  obtain ⟨n, hn⟩ : ∃ n, d.length = n + 1 := ⟨d.length - 1, by omega⟩
  rw [hn]
  simp only [cutGroups, hd, if_false]
  rw [cutGroups_fuel n (d.drop 76).length (d.drop 76) (by simp; omega) (le_refl _)]

theorem groups76_nil : groups76 [] = [] := rfl

theorem groups76_ne_nil (d : List Char) (hd : d ≠ []) : groups76 d ≠ [] := by
  rw [groups76_of_ne_nil d hd]
  simp

theorem wrap76_eq (d : List Char) :
    wrap76 d = if d.length ≤ 76 then d else d.take 76 ++ crlf ++ wrap76 (d.drop 76) := by
  by_cases hd : d = []
  · subst hd
    simp [wrap76, groups76_nil, joinPieces]
  · unfold wrap76
    rw [groups76_of_ne_nil d hd]
    by_cases hl : d.length ≤ 76
    · have : d.drop 76 = [] := List.drop_eq_nil_iff.mpr hl
      simp [hl, this, groups76_nil, joinPieces, List.take_of_length_le hl]
    · have hne : d.drop 76 ≠ [] := by
        intro h
        exact hl (List.drop_eq_nil_iff.mp h)
      obtain ⟨g, gs, hg⟩ := List.exists_cons_of_ne_nil (groups76_ne_nil _ hne)
      simp [hl, hg, joinPieces]

theorem wrapFrom_zero_eq_wrap76 (f : Nat) (q : List Char) (h : q.length ≤ 76 * f) :
    wrapFrom f 0 q = wrap76 q := by
  induction f generalizing q with
  | zero =>
    have : q = [] := List.length_eq_zero.mp (by omega)
    subst this
    simp [wrapFrom, wrap76, groups76_nil, joinPieces]
  | succ f ih =>
    rw [wrap76_eq]
    by_cases hl : q.length ≤ 76
    · have : ¬ q.length > 76 := by omega
      simp [wrapFrom, hl, this]
    · have : q.length > 76 := by omega
      simp only [wrapFrom, Nat.add_zero, this, if_true, hl, if_false, Nat.sub_zero]
      rw [ih (q.drop 76) (by simp; omega)]

theorem wrapFrom_fuel (f1 f2 l : Nat) (p : List Char) (h1 : p.length + l ≤ 76 * f1)
    (h2 : p.length + l ≤ 76 * f2) (hl : l ≤ 76) : wrapFrom f1 l p = wrapFrom f2 l p := by
  induction f1 generalizing f2 l p with
  | zero =>
    have hp : p.length + l ≤ 76 := by omega
    cases f2 with
    | zero => rfl
    | succ f2 =>
      have : ¬ p.length + l > 76 := by omega
      simp [wrapFrom, this]
  | succ f1 ih =>
    cases f2 with
    | zero =>
      have : ¬ p.length + l > 76 := by omega
      simp [wrapFrom, this]
    | succ f2 =>
      by_cases hgt : p.length + l > 76
      · simp only [wrapFrom, hgt, if_true]
        rw [ih f2 0 (p.drop (76 - l)) (by simp; omega) (by simp; omega) (by omega)]
      · simp [wrapFrom, hgt]

theorem nextLen_fuel (f1 f2 l : Nat) (p : List Char) (h1 : p.length + l ≤ 76 * f1)
    (h2 : p.length + l ≤ 76 * f2) (hl : l ≤ 76) : nextLen f1 l p = nextLen f2 l p := by
  induction f1 generalizing f2 l p with
  | zero =>
    cases f2 with
    | zero => rfl
    | succ f2 =>
      have : ¬ p.length + l > 76 := by omega
      simp [nextLen, this]
  | succ f1 ih =>
    cases f2 with
    | zero =>
      have : ¬ p.length + l > 76 := by omega
      simp [nextLen, this]
    | succ f2 =>
      by_cases hgt : p.length + l > 76
      · simp only [nextLen, hgt, if_true]
        rw [ih f2 0 (p.drop (76 - l)) (by simp; omega) (by simp; omega) (by omega)]
      · simp [nextLen, hgt]

theorem nextLen_le (f l : Nat) (p : List Char) (h : p.length + l ≤ 76 * f) (hl : l ≤ 76) :
    nextLen f l p ≤ 76 := by
  induction f generalizing l p with
  | zero => simp [nextLen]; omega
  | succ f ih =>
    by_cases hgt : p.length + l > 76
    · simp only [nextLen, hgt, if_true]
      exact ih 0 (p.drop (76 - l)) (by simp; omega) (by omega)
    · simp only [nextLen, hgt, if_false]
      omega

theorem wrapFrom_of_le (f l : Nat) (p : List Char) (h : p.length + l ≤ 76) :
    wrapFrom f l p = p := by
  cases f with
  | zero => rfl
  | succ f =>
    have : ¬ p.length + l > 76 := by omega
    simp [wrapFrom, this]

theorem nextLen_of_le (f l : Nat) (p : List Char) (h : p.length + l ≤ 76) :
    nextLen f l p = l + p.length := by
  cases f with
  | zero => rfl
  | succ f =>
    have : ¬ p.length + l > 76 := by omega
    simp [nextLen, this]

theorem wrapFrom_append (fa : Nat) : ∀ (f fb l : Nat) (a b : List Char), l ≤ 76 →
    (a ++ b).length + l ≤ 76 * f → a.length + l ≤ 76 * fa → b.length + 76 ≤ 76 * fb →
    wrapFrom f l (a ++ b) = wrapFrom fa l a ++ wrapFrom fb (nextLen fa l a) b ∧
      nextLen f l (a ++ b) = nextLen fb (nextLen fa l a) b := by
  induction fa with
  | zero =>
    intro f fb l a b hl hf hfa hfb
    have ha : a = [] := List.length_eq_zero.mp (by omega)
    have hl0 : l = 0 := by omega
    subst ha hl0
    simp only [List.nil_append, wrapFrom, nextLen, List.length_nil, Nat.add_zero]
    simp only [List.nil_append, List.length_nil] at hf
    exact ⟨wrapFrom_fuel f fb 0 b (by omega) (by omega) (by omega),
      nextLen_fuel f fb 0 b (by omega) (by omega) (by omega)⟩
  | succ fa ih =>
    intro f fb l a b hl hf hfa hfb
    simp only [List.length_append] at hf
    by_cases hgt : a.length + l > 76
    · obtain ⟨f1, rfl⟩ : ∃ f1, f = f1 + 1 := ⟨f - 1, by omega⟩
      have hgt2 : (a ++ b).length + l > 76 := by simp; omega
      have htake : (a ++ b).take (76 - l) = a.take (76 - l) :=
        List.take_append_of_le_length (by omega)
      have hdrop : (a ++ b).drop (76 - l) = a.drop (76 - l) ++ b :=
        List.drop_append_of_le_length (by omega)
      have key := ih f1 fb 0 (a.drop (76 - l)) b (by omega) (by simp; omega) (by simp; omega) hfb
      simp only [wrapFrom, nextLen, hgt, hgt2, if_true, htake, hdrop, key.1, key.2,
        List.append_assoc]
      exact ⟨trivial, trivial⟩
    · have hle : a.length + l ≤ 76 := by omega
      rw [wrapFrom_of_le _ _ _ hle, nextLen_of_le _ _ _ hle]
      by_cases hgt2 : a.length + b.length + l > 76
      · obtain ⟨f1, rfl⟩ : ∃ f1, f = f1 + 1 := ⟨f - 1, by omega⟩
        obtain ⟨fb1, rfl⟩ : ∃ fb1, fb = fb1 + 1 := ⟨fb - 1, by omega⟩
        have c1 : (a ++ b).length + l > 76 := by simp; omega
        have c2 : b.length + (l + a.length) > 76 := by omega
        have htake : (a ++ b).take (76 - l) = a ++ b.take (76 - (l + a.length)) := by
          rw [List.take_append_eq_append_take, List.take_of_length_le (by omega)]
          congr 2
          omega
        have hdrop : (a ++ b).drop (76 - l) = b.drop (76 - (l + a.length)) := by
          rw [List.drop_append_eq_append_drop, List.drop_of_length_le (by omega)]
          simp only [List.nil_append]
          congr 1
          omega
        simp only [wrapFrom, nextLen, c1, c2, if_true, htake, hdrop, List.append_assoc]
        exact ⟨by rw [wrapFrom_fuel f1 fb1 0 _ (by simp; omega) (by simp; omega) (by omega)],
          nextLen_fuel f1 fb1 0 _ (by simp; omega) (by simp; omega) (by omega)⟩
      · have h1 : (a ++ b).length + l ≤ 76 := by simp; omega
        have h2 : b.length + (l + a.length) ≤ 76 := by omega
        rw [wrapFrom_of_le _ _ _ h1, nextLen_of_le _ _ _ h1, wrapFrom_of_le _ _ _ h2,
          nextLen_of_le _ _ _ h2]
        simp only [List.length_append]
        exact ⟨trivial, by omega⟩

theorem sliceTo_data (s : String) (i : Nat) : (sliceTo s i).data = s.data.take i := rfl

theorem sliceFrom_data (s : String) (i : Nat) : (sliceFrom s i).data = s.data.drop i := rfl

theorem sliceFrom_length (s : String) (i : Nat) : (sliceFrom s i).length = s.length - i := by
  show (s.data.drop i).length = s.data.length - i
  exact List.length_drop _ _

theorem lineLoop_sink (f : Nat) : ∀ (lw : base64LineWriter) (w : MessageWriter) (p : String)
    (n : Nat), lw.w = .sink → lw.lineLen ≤ 76 → p.length + lw.lineLen ≤ 76 * f →
    ∃ lw1 w1 p1 n1 x, lineLoop f lw w p n = some (lw1, w1, p1, n1) ∧ lw1.w = .sink ∧
      Emits w w1 x ∧ x ++ p1.data = wrapFrom f lw.lineLen p.data ∧
      lw1.lineLen + p1.length = nextLen f lw.lineLen p.data ∧ n1 + p1.length = n + p.length := by
  induction f with
  | zero =>
    intro lw w p n hs hl hf
    exact ⟨lw, w, p, n, [], rfl, hs, Emits.refl w, rfl, rfl, rfl⟩
  | succ f ih =>
    intro lw w p n hs hl hf
    obtain ⟨sub, l⟩ := lw
    simp only at hs hl hf
    subst hs
    by_cases hgt : p.length + l > 76
    · have hlen : (sliceFrom p (76 - l)).length = p.length - (76 - l) := sliceFrom_length _ _
      obtain ⟨lw1, w1, p1, n1, x, hrun, hs1, hem, hx, hlen1, hn1⟩ :=
        ih ⟨.sink, 0⟩
          { w with W := ((w.W.Write (sliceTo p (76 - l))).1.Write "\r\n").1 }
          (sliceFrom p (76 - l)) (n + (76 - l)) rfl (by simp)
          (by simp only [hlen]; omega)
      refine ⟨lw1, w1, p1, n1, (p.data.take (76 - l) ++ crlf) ++ x, ?_, hs1, ?_, ?_, ?_, ?_⟩
      · simp only [lineLoop, maxLineLen, hgt, if_true, SubWriter.sink_Write]
        exact hrun
      · exact ((emits_sink_step w (sliceTo p (76 - l))).trans
          (emits_sink_step _ "\r\n")).trans hem
      · have hp : p.data.length + l > 76 := hgt
        simp only [wrapFrom, hp, if_true, List.append_assoc]
        exact congrArg (fun t => List.take (76 - l) p.data ++ (crlf ++ t)) hx
      · have hp : p.data.length + l > 76 := hgt
        simp only [nextLen, hp, if_true]
        exact hlen1
      · rw [hn1, hlen]
        omega
    · refine ⟨⟨.sink, l⟩, w, p, n, [], ?_, rfl, Emits.refl w, ?_, ?_, rfl⟩
      · simp only [lineLoop, maxLineLen, hgt, if_false]
      · have hp : ¬ p.data.length + l > 76 := hgt
        simp only [wrapFrom, hp, if_false, List.nil_append]
      · have hp : ¬ p.data.length + l > 76 := hgt
        simp only [nextLen, hp, if_false]
        rfl
theorem base64LineWriter_Write_sink (l : Nat) (w : MessageWriter) (p : String) (hl : l ≤ 76) :
    ∃ w1, base64LineWriter.Write (⟨.sink, l⟩, w) p =
        some ((⟨.sink, nextLen (p.length + 1) l p.data⟩, w1), p.length, none) ∧
      Emits w w1 (wrapFrom (p.length + 1) l p.data) := by
  obtain ⟨lw1, w1, p1, n1, x, hrun, hs1, hem, hx, hlen1, hn1⟩ :=
    lineLoop_sink (p.length + 1) ⟨.sink, l⟩ w p 0 rfl hl (by simp only; omega)
  obtain ⟨sub, l1⟩ := lw1
  simp only at hs1 hlen1
  subst hs1
  refine ⟨{ w1 with W := (w1.W.Write p1).1 }, ?_, ?_⟩
  · simp only [base64LineWriter.Write, hrun, SubWriter.sink_Write, hlen1]
    have : n1 + p1.length = p.length := by omega
    rw [this]
  · rw [← hx]
    exact hem.trans (emits_sink_step w1 p1)

theorem writeChunks_sink (chunks : List String) : ∀ (l : Nat) (w : MessageWriter), l ≤ 76 →
    ∃ w1, writeChunks (⟨.sink, l⟩, w) chunks =
        some ((⟨.sink, nextLen ((chunks.flatMap String.data).length + 1) l
          (chunks.flatMap String.data)⟩, w1), chunks.map String.length) ∧
      Emits w w1 (wrapFrom ((chunks.flatMap String.data).length + 1) l
        (chunks.flatMap String.data)) := by
  induction chunks with
  | nil =>
    intro l w hl
    have e1 : nextLen 1 l [] = l := nextLen_of_le 1 l [] (by simpa using hl)
    have e2 : wrapFrom 1 l [] = [] := wrapFrom_of_le 1 l [] (by simpa using hl)
    refine ⟨w, ?_, ?_⟩
    · simp only [writeChunks, List.flatMap_nil, List.length_nil, Nat.zero_add, e1, List.map_nil]
    · simp only [List.flatMap_nil, List.length_nil, Nat.zero_add, e2]
      exact Emits.refl w
  | cons c rest ih =>
    intro l w hl
    obtain ⟨w1, hw, hem1⟩ := base64LineWriter_Write_sink l w c hl
    have hl1 : nextLen (c.length + 1) l c.data ≤ 76 :=
      nextLen_le _ _ _ (by show c.data.length + l ≤ 76 * (c.data.length + 1); omega) hl
    obtain ⟨w2, hrest, hem2⟩ := ih (nextLen (c.length + 1) l c.data) w1 hl1
    have happ := wrapFrom_append (c.length + 1)
      ((c.data ++ rest.flatMap String.data).length + 1) ((rest.flatMap String.data).length + 1)
      l c.data (rest.flatMap String.data) hl (by omega)
      (by show c.data.length + l ≤ 76 * (c.data.length + 1); omega) (by omega)
    refine ⟨w2, ?_, ?_⟩
    · simp only [writeChunks, hw, hrest, List.flatMap_cons, List.map_cons, happ.2]
    · simp only [List.flatMap_cons, happ.1]
      exact hem1.trans hem2

theorem joinPieces_nil_cons (g : List Char) (gs : List (List Char)) :
    joinPieces [] (g :: gs) = g ++ joinPieces [] gs := by
  cases gs <;> simp [joinPieces]

theorem cutGroups_nil (f : Nat) : cutGroups f [] = [] := by
  cases f <;> simp [cutGroups]

theorem cutGroups_props (f : Nat) : ∀ d : List Char, d.length ≤ f →
    joinPieces [] (cutGroups f d) = d ∧ (∀ g ∈ cutGroups f d, g.length ≤ 76 ∧ g ≠ []) ∧
      ∀ g ∈ (cutGroups f d).dropLast, g.length = 76 := by
  induction f with
  | zero =>
    intro d hd
    have : d = [] := List.length_eq_zero.mp (by omega)
    subst this
    simp [cutGroups, joinPieces]
  | succ f ih =>
    intro d hd
    by_cases hnil : d = []
    · subst hnil
      simp [cutGroups, joinPieces]
    · have hpos : 0 < d.length := List.length_pos.mpr hnil
      obtain ⟨h1, h2, h3⟩ := ih (d.drop 76) (by simp; omega)
      simp only [cutGroups, hnil, if_false]
      refine ⟨?_, ?_, ?_⟩
      · rw [joinPieces_nil_cons, h1, List.take_append_drop]
      · intro g hg
        rcases List.mem_cons.mp hg with rfl | hg
        · refine ⟨by simp, ?_⟩
          intro h
          have := congrArg List.length h
          simp only [List.length_take, List.length_nil] at this
          omega
        · exact h2 g hg
      · intro g hg
        by_cases hrest : cutGroups f (d.drop 76) = []
        · simp [hrest] at hg
        · obtain ⟨a, as, has⟩ := List.exists_cons_of_ne_nil hrest
          rw [has, List.dropLast_cons₂] at hg
          rcases List.mem_cons.mp hg with rfl | hg
          · have hne : d.drop 76 ≠ [] := by
              intro h
              rw [h, cutGroups_nil] at hrest
              exact hrest rfl
            have : 76 < d.length := by
              by_contra hc
              exact hne (List.drop_eq_nil_iff.mpr (by omega))
            simp
            omega
          · rw [has] at h3
            exact h3 g hg

/-- C15. For every sequence of chunks written to a fresh `base64LineWriter`
over the sink, every `Write` returns the length of its chunk and the sink
receives the concatenation of the chunks cut into consecutive 76-byte groups
joined by CRLF, no CRLF after the last group (an accepting sink has exactly
this text more); writing the concatenation as one chunk gives the same.
Joining the groups without the CRLFs gives the concatenation back, no group
has more than 76 bytes and every group but the last has exactly 76. -/
theorem base64LineWriter_wraps_at_76 (w : MessageWriter) (chunks : List String) :
    (∃ lw1 w1, writeChunks (newBase64LineWriter .sink, w) chunks =
        some ((lw1, w1), chunks.map String.length) ∧
      Emits w w1 (wrap76 (chunks.flatMap String.data))) ∧
    (∃ lw2 w2, writeChunks (newBase64LineWriter .sink, w)
        [String.mk (chunks.flatMap String.data)] =
        some ((lw2, w2), [(chunks.flatMap String.data).length]) ∧
      Emits w w2 (wrap76 (chunks.flatMap String.data))) ∧
    joinPieces [] (groups76 (chunks.flatMap String.data)) = chunks.flatMap String.data ∧
    (∀ g ∈ groups76 (chunks.flatMap String.data), g.length ≤ 76) ∧
    (∀ g ∈ (groups76 (chunks.flatMap String.data)).dropLast, g.length = 76) := by
  have key : ∀ cs : List String, ∃ lw1 w1, writeChunks (newBase64LineWriter .sink, w) cs =
      some ((lw1, w1), cs.map String.length) ∧ Emits w w1 (wrap76 (cs.flatMap String.data)) := by
    intro cs
    obtain ⟨w1, hrun, hem⟩ := writeChunks_sink cs 0 w (by omega)
    rw [wrapFrom_zero_eq_wrap76 _ _ (by omega)] at hem
    exact ⟨_, w1, hrun, hem⟩
  obtain ⟨p1, p2, p3⟩ := cutGroups_props _ (chunks.flatMap String.data) (le_refl _)
  refine ⟨key chunks, ?_, p1, fun g hg => (p2 g hg).1, p3⟩
  obtain ⟨lw2, w2, hrun, hem⟩ := key [String.mk (chunks.flatMap String.data)]
  refine ⟨lw2, w2, ?_, ?_⟩
  · simpa [String.length] using hrun
  · simpa using hem


/-! ## The text of a header -/

theorem writeLine_emits (w : MessageWriter) (s : String) (c : Int) :
    match lineText s c with
    | none => w.writeLine s c = none
    | some (x, r) => ∃ w1, w.writeLine s c = some (w1, r) ∧ Emits w w1 x := by
  unfold lineText MessageWriter.writeLine
  cases newlineBefore s c with
  | some i => exact ⟨_, rfl, emits_writeString w _⟩
  | none =>
    simp only
    cases lastSpaceBelow s.data c.toNat with
    | none => rfl
    | some found =>
      cases found with
      | some i =>
        exact ⟨_, rfl, (emits_writeString w _).trans (emits_writeString _ _)⟩
      | none =>
        simp only
        cases nextBreak (s.data.drop 75) 75 with
        | none => exact ⟨_, rfl, emits_writeString w _⟩
        | some found =>
          obtain ⟨i, b⟩ := found
          cases b with
          | true => exact ⟨_, rfl, (emits_writeString w _).trans (emits_writeString _ _)⟩
          | false => exact ⟨_, rfl, emits_writeString w _⟩

theorem foldLoop_emits (fuel : Nat) : ∀ (w : MessageWriter) (s : String) (c : Int),
    match foldText fuel s c with
    | none => foldLoop fuel w s c = none
    | some (x, r) => ∃ w1, foldLoop fuel w s c = some (w1, r) ∧ Emits w w1 x := by
  induction fuel with
  | zero =>
    intro w s c
    exact ⟨w, rfl, Emits.refl w⟩
  | succ fuel ih =>
    intro w s c
    unfold foldText foldLoop
    by_cases hgt : (s.length : Int) > c
    · simp only [hgt, if_true]
      have h1 := writeLine_emits w s c
      cases hl : lineText s c with
      | none =>
        rw [hl] at h1
        simp only [h1]
      | some xr =>
        obtain ⟨x, r⟩ := xr
        rw [hl] at h1
        obtain ⟨w1, hw1, he1⟩ := h1
        simp only [hw1]
        have h2 := ih w1 r 75
        cases hf : foldText fuel r 75 with
        | none =>
          rw [hf] at h2
          simp only [h2]
        | some yr =>
          obtain ⟨y, r2⟩ := yr
          rw [hf] at h2
          obtain ⟨w2, hw2, he2⟩ := h2
          exact ⟨w2, hw2, he1.trans he2⟩
    · simp only [hgt, if_false]
      exact ⟨w, rfl, Emits.refl w⟩

theorem writeValues_emits (v : List String) : ∀ (w : MessageWriter) (i : Nat) (c : Int),
    match valuesText i c v with
    | none => writeValues w i c v = none
    | some x => ∃ w1, writeValues w i c v = some w1 ∧ Emits w w1 x := by
  induction v with
  | nil =>
    intro w i c
    exact ⟨w, rfl, Emits.refl w⟩
  | cons s rest ih =>
    intro w i c
    unfold valuesText writeValues
    simp only
    -- the separator written before the value
    obtain ⟨w0, hw0, hc0, he0⟩ : ∃ w0,
        (if c < 1 then (if i = 0 then w.writeString "\r\n " else w.writeString ",\r\n ", (75 : Int))
          else if i ≠ 0 then (w.writeString ", ", c - 2) else (w, c)).1 = w0 ∧
        (if c < 1 then (if i = 0 then w.writeString "\r\n " else w.writeString ",\r\n ", (75 : Int))
          else if i ≠ 0 then (w.writeString ", ", c - 2) else (w, c)).2 =
          (if c < 1 then (if i = 0 then "\r\n ".data else ",\r\n ".data, (75 : Int))
            else if i ≠ 0 then (", ".data, c - 2) else ([], c)).2 ∧
        Emits w w0 (if c < 1 then (if i = 0 then "\r\n ".data else ",\r\n ".data, (75 : Int))
            else if i ≠ 0 then (", ".data, c - 2) else ([], c)).1 := by
      by_cases h1 : c < 1
      · by_cases h2 : i = 0
        · simp only [h1, h2, if_true]
          exact ⟨_, rfl, trivial, emits_writeString w _⟩
        · simp only [h1, h2, if_true, if_false]
          exact ⟨_, rfl, trivial, emits_writeString w _⟩
      · by_cases h2 : i = 0
        · simp only [h1, h2, if_false, ne_eq, not_true_eq_false]
          exact ⟨_, rfl, trivial, Emits.refl w⟩
        · simp only [h1, h2, if_false, ne_eq, not_false_eq_true, if_true]
          exact ⟨_, rfl, trivial, emits_writeString w _⟩
    rw [hw0, hc0]
    generalize (if c < 1 then (if i = 0 then "\r\n ".data else ",\r\n ".data, (75 : Int))
            else if i ≠ 0 then (", ".data, c - 2) else ([], c)) = start at he0 ⊢
    have h1 := foldLoop_emits (s.length + 1) w0 s start.2
    cases hf : foldText (s.length + 1) s start.2 with
    | none =>
      rw [hf] at h1
      simp only [h1]
    | some xr =>
      obtain ⟨x, r, c1⟩ := xr
      rw [hf] at h1
      obtain ⟨w1, hw1, he1⟩ := h1
      simp only [hw1]
      have h2 := ih (w1.writeString r) (i + 1)
        (match LastIndexByte r '\n' with
          | some j => 75 - ((r.length : Int) - j - 1)
          | none => c1 - r.length)
      cases hv : valuesText (i + 1)
          (match LastIndexByte r '\n' with
            | some j => 75 - ((r.length : Int) - j - 1)
            | none => c1 - r.length) rest with
      | none =>
        rw [hv] at h2
        simp only [h2]
      | some y =>
        rw [hv] at h2
        obtain ⟨w2, hw2, he2⟩ := h2
        refine ⟨w2, hw2, ?_⟩
        have := ((he0.trans he1).trans (emits_writeString w1 r)).trans he2
        simpa [List.append_assoc] using this

theorem writeHeader_emits (w : MessageWriter) (k : String) (v : List String) :
    match headerText k v with
    | none => w.writeHeader k v = none
    | some x => ∃ w1, w.writeHeader k v = some w1 ∧ Emits w w1 x := by
  unfold headerText MessageWriter.writeHeader
  cases v with
  | nil => exact ⟨_, rfl, (emits_writeString w k).trans (emits_writeString _ _)⟩
  | cons s rest =>
    simp only
    have h1 := writeValues_emits (s :: rest) ((w.writeString k).writeString ": ") 0
      (76 - (k.length : Int) - 2)
    cases hv : valuesText 0 (76 - (k.length : Int) - 2) (s :: rest) with
    | none =>
      rw [hv] at h1
      simp only [h1]
    | some x =>
      rw [hv] at h1
      obtain ⟨w1, hw1, he1⟩ := h1
      refine ⟨w1.writeString "\r\n", by simp only [hw1], ?_⟩
      have := (((emits_writeString w k).trans (emits_writeString _ ": ")).trans he1).trans
        (emits_writeString w1 "\r\n")
      simpa [List.append_assoc, crlf] using this

theorem lastSpaceBelow_spec (l : List Char) (n : Nat) (hn : n ≤ l.length) :
    (∃ i, lastSpaceBelow l n = some (some i) ∧ i < n ∧ l.get? i = some ' ') ∨
      (lastSpaceBelow l n = some none ∧ ∀ i, i < n → l.get? i ≠ some ' ') := by
  induction n with
  | zero => exact Or.inr ⟨rfl, fun i hi => absurd hi (Nat.not_lt_zero i)⟩
  | succ n ih =>
    have hlt : n < l.length := hn
    obtain ⟨b, hb⟩ : ∃ b, l.get? n = some b := ⟨l.get ⟨n, hlt⟩, List.get?_eq_get hlt⟩
    by_cases hsp : b = ' '
    · subst hsp
      exact Or.inl ⟨n, by simp only [lastSpaceBelow, hb, if_true], Nat.lt_succ_self n, hb⟩
    · rcases ih (Nat.le_of_lt hlt) with ⟨i, h1, h2, h3⟩ | ⟨h1, h2⟩
      · exact Or.inl ⟨i, by simp only [lastSpaceBelow, hb, hsp, if_false, h1],
          Nat.lt_succ_of_lt h2, h3⟩
      · refine Or.inr ⟨by simp only [lastSpaceBelow, hb, hsp, if_false, h1], ?_⟩
        intro i hi
        rcases Nat.lt_succ_iff_lt_or_eq.mp hi with h | rfl
        · exact h2 i h
        · rw [hb]
          simpa using hsp

theorem indexFrom_none_of_not_mem (c : Char) (l : List Char) (i : Nat) (h : c ∉ l) :
    indexFrom c l i = none := by
  induction l generalizing i with
  | nil => rfl
  | cons b rest ih =>
    have hb : b ≠ c := fun e => h (e ▸ List.mem_cons_self _ _)
    simp only [indexFrom, hb, if_false]
    exact ih (i + 1) (fun hm => h (List.mem_cons_of_mem _ hm))

theorem newlineBefore_none (s : String) (c : Int) (h : '\n' ∉ s.data) :
    newlineBefore s c = none := by
  simp [newlineBefore, IndexByte, indexFrom_none_of_not_mem '\n' s.data 0 h]

theorem nextBreak_spec (l : List Char) (i : Nat) (h : '\n' ∉ l) :
    (∃ j, nextBreak l i = some (j, true) ∧ i ≤ j ∧ l.get? (j - i) = some ' ') ∨
      (nextBreak l i = none ∧ ' ' ∉ l) := by
  induction l generalizing i with
  | nil => exact Or.inr ⟨rfl, by simp⟩
  | cons b rest ih =>
    by_cases hsp : b = ' '
    · subst hsp
      exact Or.inl ⟨i, by simp [nextBreak], le_refl i, by simp⟩
    · have hnl : b ≠ '\n' := fun e => h (e ▸ List.mem_cons_self _ _)
      rcases ih (i + 1) (fun hm => h (List.mem_cons_of_mem _ hm)) with ⟨j, h1, h2, h3⟩ | ⟨h1, h2⟩
      · refine Or.inl ⟨j, by simp [nextBreak, hsp, hnl, h1], by omega, ?_⟩
        have : j - i = (j - (i + 1)) + 1 := by omega
        rw [this]
        simpa using h3
      · refine Or.inr ⟨by simp [nextBreak, hsp, hnl, h1], ?_⟩
        intro hm
        rcases List.mem_cons.mp hm with e | hm
        · exact hsp e.symm
        · exact h2 hm

theorem split_at_get (l : List Char) (i : Nat) (c : Char) (h : l.get? i = some c) :
    l = l.take i ++ c :: l.drop (i + 1) := by
  induction l generalizing i with
  | nil => simp at h
  | cons b rest ih =>
    cases i with
    | zero =>
      simp only [List.get?_cons_zero, Option.some.injEq] at h
      subst h
      rfl
    | succ i =>
      simp only [List.get?_cons_succ] at h
      simp only [List.take_succ_cons, List.drop_succ_cons, List.cons_append]
      rw [← ih i h]

theorem get_of_mem (l : List Char) (c : Char) (h : c ∈ l) : ∃ i, l.get? i = some c := by
  obtain ⟨n, hn⟩ := List.get_of_mem h
  exact ⟨n, by rw [← hn]; exact List.get?_eq_get n.2⟩

theorem lineText_no_newline (s : String) (c : Int) (hnl : '\n' ∉ s.data)
    (hc : c.toNat ≤ s.length) :
    (∃ a r, lineText s c = some (a ++ "\r\n ".data, r) ∧ s.data = a ++ ' ' :: r.data) ∨
      (lineText s c = some (s.data, "") ∧
        ∀ i, s.data.get? i = some ' ' → ¬ ((i : Int) < c ∨ 75 ≤ i)) := by
  unfold lineText
  rw [newlineBefore_none s c hnl]
  simp only
  rcases lastSpaceBelow_spec s.data c.toNat hc with ⟨i, h1, _, h3⟩ | ⟨h1, h2⟩
  · rw [h1]
    exact Or.inl ⟨_, _, rfl, split_at_get s.data i ' ' h3⟩
  · rw [h1]
    simp only
    have hnl2 : '\n' ∉ s.data.drop 75 := fun hm => hnl (List.mem_of_mem_drop hm)
    rcases nextBreak_spec (s.data.drop 75) 75 hnl2 with ⟨j, g1, g2, g3⟩ | ⟨g1, g2⟩
    · rw [g1]
      refine Or.inl ⟨_, _, rfl, split_at_get s.data j ' ' ?_⟩
      rw [List.get?_drop] at g3
      have : 75 + (j - 75) = j := by omega
      rwa [this] at g3
    · rw [g1]
      refine Or.inr ⟨rfl, ?_⟩
      intro i hi hcond
      rcases hcond with hlt | hge
      · refine h2 i ?_ hi
        omega
      · apply g2
        have : (s.data.drop 75).get? (i - 75) = some ' ' := by
          rw [List.get?_drop]
          have : 75 + (i - 75) = i := by omega
          rwa [this]
        exact List.get?_mem this

theorem lineText_isSome (s : String) (c : Int) (hc : c.toNat ≤ s.length) :
    (lineText s c).isSome = true := by
  unfold lineText
  cases newlineBefore s c with
  | some i => rfl
  | none =>
    simp only
    rcases lastSpaceBelow_spec s.data c.toNat hc with ⟨i, h1, _, _⟩ | ⟨h1, _⟩
    · rw [h1]
      rfl
    · rw [h1]
      simp only
      cases nextBreak (s.data.drop 75) 75 with
      | none => rfl
      | some found =>
        obtain ⟨i, b⟩ := found
        cases b <;> rfl

theorem foldText_isSome (fuel : Nat) : ∀ (s : String) (c : Int),
    (foldText fuel s c).isSome = true := by
  induction fuel with
  | zero => intro s c; rfl
  | succ fuel ih =>
    intro s c
    unfold foldText
    by_cases hgt : (s.length : Int) > c
    · simp only [hgt, if_true]
      have h1 := lineText_isSome s c (by omega)
      cases hl : lineText s c with
      | none => simp [hl] at h1
      | some xr =>
        obtain ⟨x, r⟩ := xr
        simp only
        have h2 := ih r 75
        cases hf : foldText fuel r 75 with
        | none => simp [hf] at h2
        | some yr => rfl
    · simp only [hgt, if_false]
      rfl

theorem valuesText_isSome (v : List String) : ∀ (i : Nat) (c : Int),
    (valuesText i c v).isSome = true := by
  induction v with
  | nil => intro i c; rfl
  | cons s rest ih =>
    intro i c
    unfold valuesText
    simp only
    generalize (if c < 1 then (if i = 0 then "\r\n ".data else ",\r\n ".data, (75 : Int))
            else if i ≠ 0 then (", ".data, c - 2) else ([], c)) = start
    have h1 := foldText_isSome (s.length + 1) s start.2
    cases hf : foldText (s.length + 1) s start.2 with
    | none => simp [hf] at h1
    | some xr =>
      obtain ⟨x, r, c1⟩ := xr
      simp only
      have h2 := ih (i + 1) (match LastIndexByte r '\n' with
          | some j => 75 - ((r.length : Int) - j - 1)
          | none => c1 - r.length)
      cases hv : valuesText (i + 1) (match LastIndexByte r '\n' with
          | some j => 75 - ((r.length : Int) - j - 1)
          | none => c1 - r.length) rest with
      | none => simp [hv] at h2
      | some y => rfl

theorem headerText_isSome (k : String) (v : List String) : (headerText k v).isSome = true := by
  unfold headerText
  cases v with
  | nil => rfl
  | cons s rest =>
    simp only
    have h := valuesText_isSome (s :: rest) 0 (76 - (k.length : Int) - 2)
    cases hv : valuesText 0 (76 - (k.length : Int) - 2) (s :: rest) with
    | none => simp [hv] at h
    | some x => rfl

/-! ## Folding one value -/

theorem joinPieces_cons_of_ne_nil (sep p : List Char) (ps : List (List Char)) (h : ps ≠ []) :
    joinPieces sep (p :: ps) = p ++ sep ++ joinPieces sep ps := by
  obtain ⟨q, qs, rfl⟩ := List.exists_cons_of_ne_nil h
  rfl

theorem head_not_startsWithSpace (p : List Char) (ps : List (List Char))
    (h : ¬ startsWithSpace (joinPieces [' '] (p :: ps))) : ¬ startsWithSpace p := by
  intro hp
  apply h
  cases p with
  | nil => simp [startsWithSpace] at hp
  | cons c p1 =>
    cases ps with
    | nil => simpa [joinPieces] using hp
    | cons q qs =>
      simp only [startsWithSpace, List.head?_cons, Option.some.injEq] at hp
      simp [startsWithSpace, joinPieces, hp]

theorem noAdjacentSpaces_split (a r : List Char) (h : NoAdjacentSpaces (a ++ ' ' :: r)) :
    NoAdjacentSpaces r ∧ ¬ startsWithSpace r := by
  have h2 : List.Chain' (fun a b => ¬ (a = ' ' ∧ b = ' ')) (' ' :: r) :=
    (List.chain'_split.mp h).2
  cases r with
  | nil => exact ⟨List.chain'_nil, by simp [startsWithSpace]⟩
  | cons b t =>
    obtain ⟨h3, h4⟩ := List.chain'_cons.mp h2
    refine ⟨h4, ?_⟩
    intro hs
    simp only [startsWithSpace, List.head?_cons, Option.some.injEq] at hs
    exact h3 ⟨rfl, hs⟩

theorem foldText_empty (fuel : Nat) : foldText fuel "" 75 = some ([], "", 75) := by
  cases fuel with
  | zero => rfl
  | succ fuel =>
    have : ¬ ((("" : String).length : Int) > 75) := by decide
    simp only [foldText, this, if_false]

theorem foldText_pieces (fuel : Nat) : ∀ (s : String) (c : Int), '\n' ∉ s.data →
    s.length < fuel →
    ∃ x r c1 ps, foldText fuel s c = some (x, r, c1) ∧ ps ≠ [] ∧
      s.data = joinPieces [' '] ps ∧ x ++ r.data = joinPieces "\r\n ".data ps ∧
      (NoAdjacentSpaces s.data → ∀ p ∈ ps.tail, ¬ startsWithSpace p) ∧
      ((s.length : Int) > c →
        (∃ i, s.data.get? i = some ' ' ∧ ((i : Int) < c ∨ 75 ≤ i)) → 2 ≤ ps.length) := by
  induction fuel with
  | zero => intro s c _ h; exact absurd h (Nat.not_lt_zero _)
  | succ fuel ih =>
    intro s c hnl hfuel
    by_cases hgt : (s.length : Int) > c
    · rcases lineText_no_newline s c hnl (by omega) with ⟨a, r, hl, hs⟩ | ⟨hl, hno⟩
      · have hlen : s.length = a.length + 1 + r.length := by
          show s.data.length = a.length + 1 + r.data.length
          rw [hs]
          simp
          omega
        have hnl2 : '\n' ∉ r.data := by
          intro hm
          apply hnl
          rw [hs]
          exact List.mem_append_right _ (List.mem_cons_of_mem _ hm)
        obtain ⟨x1, r1, c1, ps1, hf, hne, hj, hx, htail, _⟩ := ih r 75 hnl2 (by omega)
        refine ⟨(a ++ "\r\n ".data) ++ x1, r1, c1, a :: ps1, ?_, by simp, ?_, ?_, ?_, ?_⟩
        · simp only [foldText, hgt, if_true, hl, hf]
        · rw [joinPieces_cons_of_ne_nil _ _ _ hne, hs, ← hj]
          simp
        · rw [joinPieces_cons_of_ne_nil _ _ _ hne, ← hx]
          simp
        · intro hadj p hp
          rw [hs] at hadj
          obtain ⟨hr1, hr2⟩ := noAdjacentSpaces_split a r.data hadj
          simp only [List.tail_cons] at hp
          obtain ⟨q, qs, rfl⟩ := List.exists_cons_of_ne_nil hne
          rcases List.mem_cons.mp hp with rfl | hp
          · rw [hj] at hr2
            exact head_not_startsWithSpace _ _ hr2
          · exact htail hr1 p (by simpa using hp)
        · intro _ _
          have : 0 < ps1.length := List.length_pos.mpr hne
          simp
          omega
      · refine ⟨s.data, "", 75, [s.data], ?_, by simp, rfl, by simp [joinPieces], ?_, ?_⟩
        · simp only [foldText, hgt, if_true, hl, foldText_empty, List.append_nil]
        · intro _ p hp
          simp at hp
        · intro _ hex
          obtain ⟨i, hi, hcond⟩ := hex
          exact absurd hcond (hno i hi)
    · refine ⟨[], s, c, [s.data], ?_, by simp, rfl, by simp [joinPieces], ?_, ?_⟩
      · simp only [foldText, hgt, if_false]
      · intro _ p hp
        simp at hp
      · intro h
        exact absurd h hgt

theorem headerText_single (k v : String) (hk : k.length ≤ 73) (hnl : '\n' ∉ v.data) :
    ∃ ps, headerText k [v] =
        some (k.data ++ ": ".data ++ joinPieces "\r\n ".data ps ++ crlf) ∧
      ps ≠ [] ∧ v.data = joinPieces [' '] ps ∧
      (NoAdjacentSpaces v.data → ∀ p ∈ ps.tail, ¬ startsWithSpace p) ∧
      (v.length > 76 → (∃ i, v.data.get? i = some ' ' ∧ (i < 74 - k.length ∨ 75 ≤ i)) →
        2 ≤ ps.length) := by
  obtain ⟨x, r, c1, ps, hf, hne, hj, hx, htail, hfold⟩ :=
    foldText_pieces (v.length + 1) v (76 - (k.length : Int) - 2) hnl (Nat.lt_succ_self _)
  refine ⟨ps, ?_, hne, hj, htail, ?_⟩
  · have hc : ¬ (76 - (k.length : Int) - 2 < 1) := by omega
    simp only [headerText, valuesText, hc, if_false, ne_eq, not_true_eq_false, hf,
      List.nil_append, List.append_nil, hx]
  · intro hlen hex
    apply hfold (by omega)
    obtain ⟨i, hi, hcond⟩ := hex
    exact ⟨i, hi, by omega⟩

/-- C13, the claim as stated fails: the value has more than 76 characters,
holds spaces and no CR or LF, and `writeHeader` folds it at the first of two
adjacent spaces, so that the continuation line begins with two spaces. -/
theorem writeHeader_continuation_two_spaces :
    doubleSpaceValue.length > 76 ∧ ' ' ∈ doubleSpaceValue.data ∧
      '\r' ∉ doubleSpaceValue.data ∧ '\n' ∉ doubleSpaceValue.data ∧
      ((newMessageWriter acceptingSink).writeHeader "Subject" [doubleSpaceValue]).map
        (fun w => (physicalLines w.emitted).map String.mk) =
        some ["Subject: xxxxxxxxxxxxxxxxxxxxxxxxxxxxxxxxxxxxxxxxxxxxxxxxxxxxxxxxxxxxxxxxxx",
          "  yyyyyyyyyyyyyyyyyyyy", ""] := by
  decide!

/-- C13, amended. For a header name of at most 73 characters and a single
value of more than 76 characters without a newline and without two adjacent
spaces, `writeHeader` returns, and what it hands to the sink is the name, a
colon and a space, the value with some of its spaces replaced by CRLF and a
space, and CRLF: the value is the pieces joined by a space and the output
the same pieces joined by the fold.  No piece after the first begins with a
space, so a continuation line begins with exactly one space; and there is at
least one fold when the value has a space at an index below 74 minus the
length of the name, or at index 75 or beyond. -/
theorem writeHeader_folds_at_spaces (w : MessageWriter) (k v : String) (hk : k.length ≤ 73)
    (hlen : v.length > 76) (hnl : '\n' ∉ v.data) (hadj : NoAdjacentSpaces v.data) :
    ∃ w1 ps, w.writeHeader k [v] = some w1 ∧
      Emits w w1 (k.data ++ ": ".data ++ joinPieces "\r\n ".data ps ++ crlf) ∧
      v.data = joinPieces [' '] ps ∧ (∀ p ∈ ps.tail, ¬ startsWithSpace p) ∧
      ((∃ i, v.data.get? i = some ' ' ∧ (i < 74 - k.length ∨ 75 ≤ i)) → 2 ≤ ps.length) := by
  obtain ⟨ps, ht, _, hj, htail, hfold⟩ := headerText_single k v hk hnl
  have h := writeHeader_emits w k [v]
  rw [ht] at h
  obtain ⟨w1, hw1, he⟩ := h
  exact ⟨w1, ps, hw1, he, hj, htail hadj, hfold hlen⟩

theorem writeHeader_folds_at_spaces_witness :
    ∃ w1 ps, (newMessageWriter acceptingSink).writeHeader "Subject" [twoWordValue] = some w1 ∧
      Emits (newMessageWriter acceptingSink) w1
        ("Subject".data ++ ": ".data ++ joinPieces "\r\n ".data ps ++ crlf) ∧
      twoWordValue.data = joinPieces [' '] ps ∧ (∀ p ∈ ps.tail, ¬ startsWithSpace p) ∧
      2 ≤ ps.length := by
  obtain ⟨w1, ps, h1, h2, h3, h4, h5⟩ :=
    writeHeader_folds_at_spaces (newMessageWriter acceptingSink) "Subject" twoWordValue
      (by decide) (by decide) (by decide) (by simp [NoAdjacentSpaces, twoWordValue])
  exact ⟨w1, ps, h1, h2, h3, h4, h5 ⟨40, by decide, Or.inl (by decide)⟩⟩


/-! ## The header fields of a message -/

theorem writeHeaderEntries_emits (h : Header) : ∀ w : MessageWriter,
    ∃ w1, writeHeaderEntries w h = some w1 ∧
      Emits w w1 (fieldsText (h.filter (fun e => e.1 ≠ "Bcc"))) := by
  induction h with
  | nil => intro w; exact ⟨w, rfl, Emits.refl w⟩
  | cons e rest ih =>
    intro w
    obtain ⟨k, v⟩ := e
    by_cases hk : k = "Bcc"
    · subst hk
      obtain ⟨w1, h1, h2⟩ := ih w
      refine ⟨w1, by simpa [writeHeaderEntries] using h1, ?_⟩
      simpa [List.filter] using h2
    · have hs := headerText_isSome k v
      have he := writeHeader_emits w k v
      cases ht : headerText k v with
      | none => simp [ht] at hs
      | some x =>
        rw [ht] at he
        obtain ⟨w1, hw1, he1⟩ := he
        obtain ⟨w2, hw2, he2⟩ := ih w1
        refine ⟨w2, by simp [writeHeaderEntries, hk, hw1, hw2], ?_⟩
        have := he1.trans he2
        simpa [fieldsText, List.filter, hk, ht] using this

theorem headerText_Mime_Version :
    headerText "Mime-Version" ["1.0"] = some "Mime-Version: 1.0\r\n".data := by
  decide

theorem headerText_starts_with_name (k : String) (v : List String) :
    ∃ x, headerText k v = some (k.data ++ ':' :: x) := by
  have h := headerText_isSome k v
  unfold headerText at *
  cases v with
  | nil => exact ⟨"\r\n".data, rfl⟩
  | cons s rest =>
    simp only at h ⊢
    cases hv : valuesText 0 (76 - (k.length : Int) - 2) (s :: rest) with
    | none => simp [hv] at h
    | some x => exact ⟨' ' :: (x ++ crlf), by simp [List.append_assoc]⟩

theorem headerSteps_emits (lib : Library) (w : MessageWriter) (m : Message)
    (hd : w.Depth = 0) :
    ∃ w1, headerSteps lib w m = some w1 ∧ Emits w w1 (fieldsText (m.topFields lib)) := by
  -- the synthesized Mime-Version
  obtain ⟨wa, ha, ea⟩ : ∃ wa, stepIf (m.Header.get? "Mime-Version").isNone
      (fun w => some (w.writeString "Mime-Version: 1.0\r\n")) w = some wa ∧
      Emits w wa (fieldsText
        (if (m.Header.get? "Mime-Version").isNone then [("Mime-Version", ["1.0"])] else [])) := by
    cases (m.Header.get? "Mime-Version").isNone with
    | false => exact ⟨w, rfl, by simpa [fieldsText] using Emits.refl w⟩
    | true =>
      refine ⟨_, rfl, ?_⟩
      have := emits_writeString w "Mime-Version: 1.0\r\n"
      simpa [fieldsText, headerText_Mime_Version] using this
  -- the synthesized Date
  obtain ⟨wb, hb, eb⟩ : ∃ wb, stepIf (m.Header.get? "Date").isNone
      (fun w => w.writeHeader "Date" [lib.now]) wa = some wb ∧
      Emits wa wb (fieldsText
        (if (m.Header.get? "Date").isNone then [("Date", [lib.now])] else [])) := by
    cases (m.Header.get? "Date").isNone with
    | false => exact ⟨wa, rfl, by simpa [fieldsText] using Emits.refl wa⟩
    | true =>
      have hs := headerText_isSome "Date" [lib.now]
      have he := writeHeader_emits wa "Date" [lib.now]
      cases ht : headerText "Date" [lib.now] with
      | none => simp [ht] at hs
      | some x =>
        rw [ht] at he
        obtain ⟨w1, hw1, he1⟩ := he
        refine ⟨w1, by simpa [stepIf] using hw1, ?_⟩
        simpa [fieldsText, ht] using he1
  -- the entries of the header map
  obtain ⟨wc, hc, ec⟩ := writeHeaderEntries_emits m.Header wb
  have hdb : wb.Depth = 0 := by rw [eb.2.2.2.1, ea.2.2.2.1, hd]
  refine ⟨wc, ?_, ?_⟩
  · simp only [headerSteps, ha, hb, Option.bind_eq_bind, Option.some_bind,
      MessageWriter.writeHeaders, hdb, if_true, hc]
  · have := (ea.trans eb).trans ec
    simpa [Message.topFields, fieldsText, List.flatMap_append] using this

theorem GetRecipients_of_parses (P : AddressParser) (m : Message)
    (h : ∀ a ∈ m.recipientValues, parses P a = true) :
    m.GetRecipients P = (keepFirst (m.recipientValues.map (parsedAddress P)), none) := by
  rw [GetRecipients_eq_addAddresses, addAddresses_of_parses P _ [] h, foldl_addAddress_nil]

/-- C16, the claim as stated fails twice. The header map of the first
message has the keys From, To and Bcc, and the top-level header block that
`WriteMessage` writes has, besides Mime-Version, Date, From and To, the
fields Content-Type and Content-Transfer-Encoding, which are no keys of the
map. The second message has a To value that is no address and a Bcc value
that is one: `GetRecipients` returns no address at all, and an error. -/
theorem WriteMessage_writes_content_fields :
    (bccMessage.Header.map Prod.fst = ["From", "To", "Bcc"] ∧
      (bccMessage.WriteTo sampleLibrary acceptingSink).map (fun r => fieldNames r.1.out.data) =
        some ["Mime-Version", "Date", "From", "To", "Content-Type",
          "Content-Transfer-Encoding"]) ∧
    (badToBccMessage.Header.get "Bcc" = ["z@x.com"] ∧
      bareAddressParser "z@x.com" = .ok "z@x.com" ∧
      badToBccMessage.GetRecipients bareAddressParser =
        ([], some (.invalidAddress "nobody" "mail: missing '@' or angle-addr"))) := by
  refine ⟨by decide!, rfl, rfl, by decide⟩

/-- C16, amended. From a writer at depth 0, `WriteMessage` first writes a
`Mime-Version: 1.0` when the message has no Mime-Version, a Date when it has
no Date, and one field for each entry of the header map other than Bcc, in
the order of the map, each beginning with its name and a colon; then it goes
on with the containers, parts and files, whose own fields follow. No field
is written for Bcc, and when the parser accepts every To, Cc and Bcc value,
`GetRecipients` returns no error and the address that the parser yields for
every Bcc value. -/
theorem WriteMessage_skips_Bcc (P : AddressParser) (lib : Library) (w : MessageWriter)
    (m : Message) (hd : w.Depth = 0) :
    (∃ w1, headerSteps lib w m = some w1 ∧ Emits w w1 (fieldsText (m.topFields lib)) ∧
      w.WriteMessage lib m = bodySteps lib m w1) ∧
    (m.topFields lib).map Prod.fst =
      (if (m.Header.get? "Mime-Version").isNone then ["Mime-Version"] else []) ++
        (if (m.Header.get? "Date").isNone then ["Date"] else []) ++
        (m.Header.map Prod.fst).filter (fun k => k ≠ "Bcc") ∧
    (∀ e ∈ m.topFields lib, e.1 ≠ "Bcc" ∧ ∃ x, headerText e.1 e.2 = some (e.1.data ++ ':' :: x)) ∧
    ((∀ a ∈ m.recipientValues, ∃ addr, P a = .ok addr) →
      (m.GetRecipients P).2 = none ∧
        ∀ a ∈ m.Header.get "Bcc", ∀ addr, P a = .ok addr → addr ∈ (m.GetRecipients P).1) := by
  refine ⟨?_, ?_, ?_, ?_⟩
  · obtain ⟨w1, h1, h2⟩ := headerSteps_emits lib w m hd
    refine ⟨w1, h1, h2, ?_⟩
    have : w.WriteMessage lib m = (headerSteps lib w m).bind (bodySteps lib m) := by
      simp only [MessageWriter.WriteMessage, headerSteps, bodySteps, Option.bind_eq_bind,
        Option.bind_assoc]
    rw [this, h1]
    rfl
  · simp only [Message.topFields, List.map_append, List.map_filter]
    cases (m.Header.get? "Mime-Version").isNone <;> cases (m.Header.get? "Date").isNone <;>
      simp [Function.comp_def]
  · intro e he
    refine ⟨?_, headerText_starts_with_name e.1 e.2⟩
    simp only [Message.topFields, List.mem_append, List.mem_filter] at he
    rcases he with (he | he) | he
    · cases hm : (m.Header.get? "Mime-Version").isNone <;> simp [hm] at he
      subst he
      decide
    · cases hm : (m.Header.get? "Date").isNone <;> simp [hm] at he
      subst he
      show "Date" ≠ "Bcc"
      decide
    · simpa using he.2
  · intro hp
    have hp2 : ∀ a ∈ m.recipientValues, parses P a = true := by
      intro a ha
      obtain ⟨addr, hok⟩ := hp a ha
      exact (parses_of_ok P a addr hok).1
    rw [GetRecipients_of_parses P m hp2]
    refine ⟨rfl, ?_⟩
    intro a ha addr hok
    simp only [mem_keepFirst, List.mem_map]
    exact ⟨a, by simp [Message.recipientValues, ha], (parses_of_ok P a addr hok).2⟩

theorem WriteMessage_skips_Bcc_witness :
    (∃ w1, headerSteps sampleLibrary (newMessageWriter acceptingSink) bccMessage = some w1 ∧
      Emits (newMessageWriter acceptingSink) w1 (fieldsText (bccMessage.topFields sampleLibrary)) ∧
      (newMessageWriter acceptingSink).WriteMessage sampleLibrary bccMessage =
        bodySteps sampleLibrary bccMessage w1) ∧
      (bccMessage.topFields sampleLibrary).map Prod.fst = ["Mime-Version", "Date", "From", "To"] ∧
      bccMessage.Header.get "Bcc" = ["z@x.com"] ∧
      bareAddressParser "z@x.com" = .ok "z@x.com" ∧
      (bccMessage.GetRecipients bareAddressParser).2 = none ∧
      "z@x.com" ∈ (bccMessage.GetRecipients bareAddressParser).1 := by
  have h := WriteMessage_skips_Bcc bareAddressParser sampleLibrary
    (newMessageWriter acceptingSink) bccMessage rfl
  have hp : ∀ a ∈ bccMessage.recipientValues, ∃ addr, bareAddressParser a = .ok addr := by
    intro a ha
    have hm : a = "b@x.com" ∨ a = "z@x.com" := by
      simpa [Message.recipientValues, bccMessage, Header.get, Header.get?] using ha
    rcases hm with rfl | rfl
    · exact ⟨"b@x.com", rfl⟩
    · exact ⟨"z@x.com", rfl⟩
  exact ⟨h.1, by decide, rfl, rfl, (h.2.2.2 hp).1, (h.2.2.2 hp).2 "z@x.com" (by decide) _ rfl⟩

/-! ## The header encoder of a new message -/

/-- C21. For every list of settings, the message that `NewMessage` returns
has the base64 word encoder as its header encoder exactly when its encoding
is base64, and the quoted-printable word encoder otherwise, also for the
encoding `8bit`; with no settings the charset is UTF-8 and the encoding
quoted-printable. -/
theorem NewMessage_header_encoder (settings : List MessageSetting) :
    ((NewMessage settings).HEncoder = BEncoding ↔ (NewMessage settings).Encoding = Base64) ∧
    ((NewMessage settings).Encoding ≠ Base64 → (NewMessage settings).HEncoder = QEncoding) ∧
    (NewMessage [SetEncoding Unencoded]).HEncoder = QEncoding ∧
    (NewMessage []).Charset = "UTF-8" ∧ (NewMessage []).Encoding = QuotedPrintable ∧
    (NewMessage []).HEncoder = QEncoding := by
  refine ⟨?_, ?_, by decide, rfl, rfl, by decide⟩
  · unfold NewMessage
    simp only
    split
    · next h => simp [h]
    · next h =>
      simp only [h, iff_false]
      decide
  · unfold NewMessage
    simp only
    split
    · next h => intro hc; exact absurd h hc
    · next h => intro _; rfl

theorem NewMessage_header_encoder_witness :
    (NewMessage [SetCharset "ISO-8859-1", SetEncoding Base64]).HEncoder = BEncoding :=
  (NewMessage_header_encoder [SetCharset "ISO-8859-1", SetEncoding Base64]).1.mpr (by decide)

/-! ## The end of the exchange -/

/-- C30. When no more data is expected, `Next` returns the `nil` response and
no error for every challenge, and so neither the user name nor the
password. -/
theorem Next_done (a : LoginAuth) (fromServer : String) :
    a.Next fromServer false = (none, none) ∧
      (a.Next fromServer false).1 ≠ some a.Username ∧
      (a.Next fromServer false).1 ≠ some a.Password := by
  simp [LoginAuth.Next]

/-! ## Aborted runs -/

/-- C22, the code at the failing input. The message has a body part and two
attachments, and every write to the sink fails: creating the first nested
part fails, `PartWriter` is `nil`, and writing the body through it aborts the
run. -/
theorem WriteMessage_aborts_on_nil_part_writer :
    partTwoAttachments.HasMixedPart = true ∧
      (((newMessageWriter brokenSink).openMultipart "MIXED" "mixed").bind
        (fun w => w.createPart [("Content-Type", ["text/plain; charset=UTF-8"])])).map
        (fun w => (w.PartWriter, w.Err)) = some (none, some (.external "write: broken pipe")) ∧
      (partTwoAttachments.WriteTo sampleLibrary brokenSink).isNone = true := by
  decide!

/-! ## The fold point -/

/-- C25, the code at the failing input. The string has 81 characters, more
than the budget 67, and no newline; it has no space below index 67 and a
space at index 70; `writeLine` does not fold there and writes the string
unfolded. -/
theorem writeLine_misses_space_before_75 :
    slipValue.length = 81 ∧ '\n' ∉ slipValue.data ∧
      (∀ i, i < 67 → slipValue.data.get? i ≠ some ' ') ∧ slipValue.data.get? 70 = some ' ' ∧
      ((newMessageWriter acceptingSink).writeLine slipValue 67).map
        (fun r => (String.mk r.1.emitted, r.2)) = some (slipValue, "") := by
  refine ⟨by decide, by decide, ?_, by decide, by decide!⟩
  intro i hi
  interval_cases i <;> decide

/-! ## Several entities without a container -/

/-- C29, the code at the failing input. The message has no body part, one
embedded file and one attachment: none of `HasMixedPart`, `HasRelatedPart`
and `HasAlternativePart` holds, no container is opened, and `WriteMessage`
writes the fields and the body of the embedded file and after them, at depth
0, the fields and the body of the attachment. -/
theorem WriteMessage_two_blocks_at_depth_0 :
    logoNotesMessage.Parts.length + logoNotesMessage.Embedded.length +
        logoNotesMessage.Attachments.length = 2 ∧
      logoNotesMessage.HasMixedPart = false ∧ logoNotesMessage.HasRelatedPart = false ∧
      logoNotesMessage.HasAlternativePart = false ∧
      (logoNotesMessage.WriteTo sampleLibrary acceptingSink).map (fun r => r.1.out) =
        some ("Mime-Version: 1.0\r\nDate: Mon, 02 Jan 2006 15:04:05 -0700\r\n" ++
          "From: f@x.com\r\nTo: b@x.com\r\n" ++
          "Content-Type: image/png; name=\"logo.png\"\r\n" ++
          "Content-Transfer-Encoding: base64\r\n" ++
          "Content-Disposition: inline; filename=\"logo.png\"\r\n" ++
          "Content-ID: <logo.png>\r\n\r\ncG5n" ++
          "Content-Type: application/octet-stream; name=\"notes.txt\"\r\n" ++
          "Content-Transfer-Encoding: base64\r\n" ++
          "Content-Disposition: attachment; filename=\"notes.txt\"\r\n\r\naGVsbG8=") := by
  decide!

/-! ## Termination and index safety of the fold loop -/

theorem indexFrom_lt (c : Char) (l : List Char) (i j : Nat) (h : indexFrom c l i = some j) :
    i ≤ j ∧ j < i + l.length := by
  induction l generalizing i with
  | nil => simp [indexFrom] at h
  | cons b rest ih =>
    by_cases hb : b = c
    · simp only [indexFrom, hb, if_true, Option.some.injEq] at h
      subst h
      simp
    · simp only [indexFrom, hb, if_false] at h
      have := ih (i + 1) h
      simp only [List.length_cons]
      omega

theorem nextBreak_lt (l : List Char) (i j : Nat) (b : Bool) (h : nextBreak l i = some (j, b)) :
    i ≤ j ∧ j < i + l.length := by
  induction l generalizing i with
  | nil => simp [nextBreak] at h
  | cons a rest ih =>
    by_cases h1 : a = ' '
    · simp only [nextBreak, h1, if_true, Option.some.injEq, Prod.mk.injEq] at h
      obtain ⟨rfl, _⟩ := h
      simp
    · by_cases h2 : a = '\n'
      · simp only [nextBreak, h1, h2, if_false, if_true, Option.some.injEq, Prod.mk.injEq] at h
        obtain ⟨rfl, _⟩ := h
        simp
      · simp only [nextBreak, h1, h2, if_false] at h
        have := ih (i + 1) h
        simp only [List.length_cons]
        omega

theorem lineText_shorter (s : String) (c : Int) (hgt : (s.length : Int) > c) :
    ∃ x r, lineText s c = some (x, r) ∧ (r.length < s.length ∨ r = "") := by
  have hlen : ∀ i, i < s.length → (sliceFrom s (i + 1)).length < s.length := by
    intro i hi
    rw [sliceFrom_length]
    omega
  unfold lineText
  cases hn : newlineBefore s c with
  | some i =>
    refine ⟨_, _, rfl, Or.inl (hlen i ?_)⟩
    unfold newlineBefore IndexByte at hn
    cases hi : indexFrom '\n' s.data 0 with
    | none => simp [hi] at hn
    | some j =>
      have hj := indexFrom_lt _ _ _ _ hi
      simp only [hi] at hn
      split at hn
      · simp only [Option.some.injEq] at hn
        subst hn
        have : j < 0 + s.data.length := hj.2
        simpa using this
      · simp at hn
  | none =>
    simp only
    have hc : c.toNat ≤ s.data.length := by
      have : (s.data.length : Int) > c := hgt
      omega
    rcases lastSpaceBelow_spec s.data c.toNat hc with ⟨i, h1, h2, h3⟩ | ⟨h1, _⟩
    · rw [h1]
      refine ⟨_, _, rfl, Or.inl (hlen i ?_)⟩
      have : (s.data.length : Int) > c := hgt
      show i < s.data.length
      omega
    · rw [h1]
      simp only
      cases hb : nextBreak (s.data.drop 75) 75 with
      | none => exact ⟨_, _, rfl, Or.inr rfl⟩
      | some found =>
        obtain ⟨j, b⟩ := found
        have hj := nextBreak_lt _ _ _ _ hb
        have hj2 : j < s.length := by
          have : j < 75 + (s.data.drop 75).length := hj.2
          simp only [List.length_drop] at this
          show j < s.data.length
          omega
        cases b
        · exact ⟨_, _, rfl, Or.inl (hlen j hj2)⟩
        · exact ⟨_, _, rfl, Or.inl (hlen j hj2)⟩

theorem writeLine_rest (w w1 : MessageWriter) (s r : String) (c : Int)
    (h : w.writeLine s c = some (w1, r)) : ∃ x, lineText s c = some (x, r) := by
  have he := writeLine_emits w s c
  cases hl : lineText s c with
  | none =>
    rw [hl] at he
    simp only at he
    rw [he] at h
    exact absurd h (by simp)
  | some xr =>
    obtain ⟨x, r2⟩ := xr
    rw [hl] at he
    obtain ⟨w2, hw2, _⟩ := he
    rw [hw2] at h
    simp only [Option.some.injEq, Prod.mk.injEq] at h
    exact ⟨x, by rw [h.2]⟩

theorem foldLoop_empty (fuel : Nat) (w : MessageWriter) :
    foldLoop fuel w "" 75 = some (w, "", 75) := by
  cases fuel with
  | zero => rfl
  | succ fuel =>
    have : ¬ ((("" : String).length : Int) > 75) := by decide
    simp only [foldLoop, this, if_false]

theorem foldLoop_fuel (f1 : Nat) : ∀ (f2 : Nat) (w : MessageWriter) (s : String) (c : Int),
    s.length < f1 → s.length < f2 →
    foldLoop f1 w s c = foldLoop f2 w s c ∧
      ∀ w1 r c1, foldLoop f1 w s c = some (w1, r, c1) → ¬ ((r.length : Int) > c1) := by
  induction f1 with
  | zero => intro f2 w s c h; exact absurd h (Nat.not_lt_zero _)
  | succ f1 ih =>
    intro f2 w s c h1 h2
    obtain ⟨f2, rfl⟩ : ∃ g, f2 = g + 1 := ⟨f2 - 1, by omega⟩
    by_cases hgt : (s.length : Int) > c
    · simp only [foldLoop, hgt, if_true]
      cases hw : w.writeLine s c with
      | none => exact ⟨rfl, fun _ _ _ h => absurd h (by simp)⟩
      | some wr =>
        obtain ⟨w1, r⟩ := wr
        simp only
        obtain ⟨x, hx⟩ := writeLine_rest w w1 s r c hw
        obtain ⟨x2, r2, hl, hr⟩ := lineText_shorter s c hgt
        rw [hx] at hl
        simp only [Option.some.injEq, Prod.mk.injEq] at hl
        obtain ⟨_, rfl⟩ := hl
        rcases hr with hr | hr
        · exact ih f2 w1 r 75 (by omega) (by omega)
        · subst hr
          rw [foldLoop_empty, foldLoop_empty]
          refine ⟨rfl, ?_⟩
          intro w2 r2 c2 h
          simp only [Option.some.injEq, Prod.mk.injEq] at h
          obtain ⟨_, rfl, rfl⟩ := h
          decide
    · simp only [foldLoop, hgt, if_false, true_and]
      intro w2 r2 c2 h
      simp only [Option.some.injEq, Prod.mk.injEq] at h
      obtain ⟨_, rfl, rfl⟩ := h
      exact hgt

theorem writeHeader_isSome (w : MessageWriter) (k : String) (v : List String) :
    (w.writeHeader k v).isSome = true := by
  have hs := headerText_isSome k v
  have he := writeHeader_emits w k v
  cases ht : headerText k v with
  | none => simp [ht] at hs
  | some x =>
    rw [ht] at he
    obtain ⟨w1, hw1, _⟩ := he
    simp [hw1]

/-- C28. On every input `writeHeader` returns, and no index or slice bound of
`writeLine` is out of range on the way; a call `writeLine(s, charsLeft)` of
the fold loop, made when `s` is longer than `charsLeft`, returns a strictly
shorter rest or the empty string; and the loop `for len(s) > charsLeft` ends
by its own test within `len(s) + 1` rounds, more rounds being allowed
changing nothing. -/
theorem writeHeader_terminates_safely (w : MessageWriter) (k : String) (v : List String) :
    (w.writeHeader k v).isSome = true ∧
    (∀ (u : MessageWriter) (s : String) (c : Int), (s.length : Int) > c →
      ∃ u1 r, u.writeLine s c = some (u1, r) ∧ (r.length < s.length ∨ r = "")) ∧
    (∀ (u : MessageWriter) (s : String) (c : Int) (fuel : Nat), s.length < fuel →
      foldLoop fuel u s c = foldLoop (s.length + 1) u s c ∧
        ∃ u1 r c1, foldLoop fuel u s c = some (u1, r, c1) ∧ ¬ ((r.length : Int) > c1)) := by
  refine ⟨writeHeader_isSome w k v, ?_, ?_⟩
  · intro u s c hgt
    obtain ⟨x, r, hl, hr⟩ := lineText_shorter s c hgt
    have he := writeLine_emits u s c
    rw [hl] at he
    obtain ⟨u1, hu1, _⟩ := he
    exact ⟨u1, r, hu1, hr⟩
  · intro u s c fuel hf
    obtain ⟨h1, h2⟩ := foldLoop_fuel fuel (s.length + 1) u s c hf (Nat.lt_succ_self _)
    refine ⟨h1, ?_⟩
    have hs := foldText_isSome fuel s c
    have he := foldLoop_emits fuel u s c
    cases hft : foldText fuel s c with
    | none => simp [hft] at hs
    | some xr =>
      obtain ⟨x, r, c1⟩ := xr
      rw [hft] at he
      obtain ⟨u1, hu1, _⟩ := he
      exact ⟨u1, r, c1, hu1, h2 u1 r c1 hu1⟩

theorem writeHeader_terminates_safely_witness :
    ∃ u1 r, (newMessageWriter acceptingSink).writeLine "a b" (-1) = some (u1, r) ∧
      (r.length < "a b".length ∨ r = "") :=
  (writeHeader_terminates_safely (newMessageWriter acceptingSink) "To" ["a b"]).2.1
    (newMessageWriter acceptingSink) "a b" (-1) (by decide)

/-! ## The length of the lines of one value -/

theorem splitWords_append_space (a r cur : List Char) :
    splitWords (a ++ ' ' :: r) cur = splitWords a cur ++ splitWords r [] := by
  induction a generalizing cur with
  | nil => simp [splitWords]
  | cons c a ih =>
    by_cases hc : c = ' '
    · simp [splitWords, hc, ih]
    · simp [splitWords, hc, ih]

theorem splitWords_head_mem (l cur : List Char) :
    ∃ w ∈ splitWords l cur, cur.length ≤ w.length := by
  induction l generalizing cur with
  | nil => exact ⟨cur.reverse, by simp [splitWords], by simp⟩
  | cons c l ih =>
    by_cases hc : c = ' '
    · exact ⟨cur.reverse, by simp [splitWords, hc], by simp⟩
    · obtain ⟨w, hw, hl⟩ := ih (c :: cur)
      refine ⟨w, by simpa [splitWords, hc] using hw, ?_⟩
      simp only [List.length_cons] at hl
      omega

theorem splitWords_first_space (n : Nat) (l cur : List Char)
    (h : ∀ w ∈ splitWords l cur, w.length ≤ n) (hlen : cur.length + l.length > n) :
    ∃ i, i + cur.length ≤ n ∧ l.get? i = some ' ' := by
  induction l generalizing cur with
  | nil =>
    obtain ⟨w, hw, hl⟩ := splitWords_head_mem [] cur
    have := h w hw
    simp only [List.length_nil] at hlen
    omega
  | cons c l ih =>
    by_cases hc : c = ' '
    · subst hc
      obtain ⟨w, hw, hl⟩ := splitWords_head_mem (' ' :: l) cur
      have := h w hw
      exact ⟨0, by omega, rfl⟩
    · have h2 : ∀ w ∈ splitWords l (c :: cur), w.length ≤ n := by
        intro w hw
        exact h w (by simpa [splitWords, hc] using hw)
      obtain ⟨i, hi, hg⟩ := ih (c :: cur) h2 (by simp only [List.length_cons] at hlen ⊢; omega)
      refine ⟨i + 1, ?_, by simpa using hg⟩
      simp only [List.length_cons] at hi
      omega

theorem lineText_words (s : String) (c : Int) (hnl : '\n' ∉ s.data)
    (hw : ∀ w ∈ spaceFreeWords s, w.length ≤ 40) (hc : 41 ≤ c) (hgt : (s.length : Int) > c) :
    ∃ a r, lineText s c = some (a ++ "\r\n ".data, r) ∧ s.data = a ++ ' ' :: r.data ∧
      (a.length : Int) < c := by
  have hlen : (s.data.length : Int) > c := hgt
  obtain ⟨j, hj, hjs⟩ := splitWords_first_space 40 s.data [] hw (by simp; omega)
  simp only [List.length_nil, Nat.add_zero] at hj
  unfold lineText
  rw [newlineBefore_none s c hnl]
  simp only
  rcases lastSpaceBelow_spec s.data c.toNat (by omega) with ⟨i, h1, h2, h3⟩ | ⟨_, h2⟩
  · rw [h1]
    refine ⟨_, _, rfl, split_at_get s.data i ' ' h3, ?_⟩
    have hi : i < s.data.length := by omega
    simp only [List.length_take]
    omega
  · exact absurd hjs (h2 j (by omega))

theorem spaceFreeWords_rest (s r : String) (a : List Char) (hs : s.data = a ++ ' ' :: r.data)
    (hw : ∀ w ∈ spaceFreeWords s, w.length ≤ 40) : ∀ w ∈ spaceFreeWords r, w.length ≤ 40 := by
  intro w hm
  apply hw
  unfold spaceFreeWords at *
  rw [hs, splitWords_append_space]
  exact List.mem_append_right _ hm

theorem foldText_bounded (fuel : Nat) : ∀ (s : String) (c : Int), '\n' ∉ s.data →
    (∀ w ∈ spaceFreeWords s, w.length ≤ 40) → 41 ≤ c → s.length < fuel →
    ∃ x r c1 ps, foldText fuel s c = some (x, r, c1) ∧ ps ≠ [] ∧
      s.data = joinPieces [' '] ps ∧ x ++ r.data = joinPieces "\r\n ".data ps ∧
      (∀ p, ps.head? = some p → (p.length : Int) ≤ c) ∧ ∀ p ∈ ps.tail, p.length ≤ 75 := by
  induction fuel with
  | zero => intro s c _ _ _ h; exact absurd h (Nat.not_lt_zero _)
  | succ fuel ih =>
    intro s c hnl hw hc hfuel
    by_cases hgt : (s.length : Int) > c
    · obtain ⟨a, r, hl, hs, ha⟩ := lineText_words s c hnl hw hc hgt
      have hlen : s.length = a.length + 1 + r.length := by
        show s.data.length = a.length + 1 + r.data.length
        rw [hs]
        simp
        omega
      have hnl2 : '\n' ∉ r.data := by
        intro hm
        apply hnl
        rw [hs]
        exact List.mem_append_right _ (List.mem_cons_of_mem _ hm)
      obtain ⟨x1, r1, c1, ps1, hf, hne, hj, hx, hhead, htail⟩ :=
        ih r 75 hnl2 (spaceFreeWords_rest s r a hs hw) (by omega) (by omega)
      refine ⟨(a ++ "\r\n ".data) ++ x1, r1, c1, a :: ps1, ?_, by simp, ?_, ?_, ?_, ?_⟩
      · simp only [foldText, hgt, if_true, hl, hf]
      · rw [joinPieces_cons_of_ne_nil _ _ _ hne, hs, ← hj]
        simp
      · rw [joinPieces_cons_of_ne_nil _ _ _ hne, ← hx]
        simp
      · intro p hp
        simp only [List.head?_cons, Option.some.injEq] at hp
        subst hp
        omega
      · intro p hp
        simp only [List.tail_cons] at hp
        obtain ⟨q, qs, rfl⟩ := List.exists_cons_of_ne_nil hne
        rcases List.mem_cons.mp hp with rfl | hp
        · have := hhead p rfl
          omega
        · exact htail p (by simpa using hp)
    · refine ⟨[], s, c, [s.data], ?_, by simp, rfl, by simp [joinPieces], ?_, ?_⟩
      · simp only [foldText, hgt, if_false]
      · intro p hp
        simp only [List.head?_cons, Option.some.injEq] at hp
        subst hp
        show (s.data.length : Int) ≤ c
        have : ¬ ((s.data.length : Int) > c) := hgt
        omega
      · intro p hp
        simp at hp

theorem headerText_bounded (k v : String) (hk : k.length ≤ 30) (hnl : '\n' ∉ v.data)
    (hw : ∀ w ∈ spaceFreeWords v, w.length ≤ 40) :
    ∃ ps, headerText k [v] =
        some (k.data ++ ": ".data ++ joinPieces "\r\n ".data ps ++ crlf) ∧
      ps ≠ [] ∧ v.data = joinPieces [' '] ps ∧
      (∀ p, ps.head? = some p → k.length + 2 + p.length ≤ 76) ∧
      ∀ p ∈ ps.tail, 1 + p.length ≤ 76 := by
  obtain ⟨x, r, c1, ps, hf, hne, hj, hx, hhead, htail⟩ :=
    foldText_bounded (v.length + 1) v (76 - (k.length : Int) - 2) hnl hw (by omega)
      (Nat.lt_succ_self _)
  refine ⟨ps, ?_, hne, hj, ?_, ?_⟩
  · have hc : ¬ (76 - (k.length : Int) - 2 < 1) := by omega
    simp only [headerText, valuesText, hc, if_false, ne_eq, not_true_eq_false, hf,
      List.nil_append, List.append_nil, hx]
  · intro p hp
    have := hhead p hp
    omega
  · intro p hp
    have := htail p hp
    omega

/-! ## Physical lines -/

theorem splitLines_cons_of_ne (c : Char) (rest cur : List Char) (hc : c ≠ '\r') :
    splitLines (c :: rest) cur = splitLines rest (c :: cur) := by
  rw [splitLines]
  intro rest2 h1 h2
  exact absurd h1 hc

theorem splitLines_no_cr (t cur : List Char) (h : '\r' ∉ t) :
    splitLines t cur = [cur.reverse ++ t] := by
  induction t generalizing cur with
  | nil => simp [splitLines]
  | cons c t ih =>
    have hc : c ≠ '\r' := fun e => h (e ▸ List.mem_cons_self _ _)
    rw [splitLines_cons_of_ne c t cur hc, ih _ (fun hm => h (List.mem_cons_of_mem _ hm))]
    simp

theorem splitLines_crlf (t rest cur : List Char) (h : '\r' ∉ t) :
    splitLines (t ++ '\r' :: '\n' :: rest) cur = (cur.reverse ++ t) :: splitLines rest [] := by
  induction t generalizing cur with
  | nil => simp [splitLines]
  | cons c t ih =>
    have hc : c ≠ '\r' := fun e => h (e ▸ List.mem_cons_self _ _)
    rw [List.cons_append, splitLines_cons_of_ne c _ cur hc,
      ih _ (fun hm => h (List.mem_cons_of_mem _ hm))]
    simp

theorem physicalLines_joinPieces (ls : List (List Char)) (hne : ls ≠ [])
    (h : ∀ l ∈ ls, '\r' ∉ l) : physicalLines (joinPieces crlf ls) = ls := by
  induction ls with
  | nil => exact absurd rfl hne
  | cons l rest ih =>
    by_cases hr : rest = []
    · subst hr
      simp only [joinPieces, physicalLines]
      rw [splitLines_no_cr l [] (h l (List.mem_cons_self _ _))]
      simp
    · rw [joinPieces_cons_of_ne_nil _ _ _ hr]
      have := ih hr (fun x hx => h x (List.mem_cons_of_mem _ hx))
      unfold physicalLines at *
      simp only [crlf, List.append_assoc, List.cons_append, List.nil_append]
      rw [splitLines_crlf l _ [] (h l (List.mem_cons_self _ _))]
      simp only [crlf] at this
      rw [this]
      simp

theorem joinPieces_cons_prefix (sep a p : List Char) (ps : List (List Char)) :
    a ++ joinPieces sep (p :: ps) = joinPieces sep ((a ++ p) :: ps) := by
  cases ps with
  | nil => rfl
  | cons q qs => simp [joinPieces]

theorem joinPieces_fold_eq (p : List Char) (ps : List (List Char)) :
    joinPieces "\r\n ".data (p :: ps) = joinPieces crlf (p :: ps.map (fun q => ' ' :: q)) := by
  induction ps generalizing p with
  | nil => rfl
  | cons q qs ih =>
    show p ++ "\r\n ".data ++ joinPieces "\r\n ".data (q :: qs) =
      p ++ crlf ++ joinPieces crlf ((' ' :: q) :: qs.map (fun q => ' ' :: q))
    rw [ih q, show (' ' :: q) = [' '] ++ q from rfl, ← joinPieces_cons_prefix crlf [' '] q]
    simp [crlf]

theorem joinPieces_append_last (sep : List Char) (ls : List (List Char)) (hne : ls ≠ [])
    (t : List Char) : joinPieces sep ls ++ sep ++ t = joinPieces sep (ls ++ [t]) := by
  induction ls with
  | nil => exact absurd rfl hne
  | cons l rest ih =>
    by_cases hr : rest = []
    · subst hr
      simp [joinPieces]
    · rw [joinPieces_cons_of_ne_nil _ _ _ hr, List.cons_append,
        joinPieces_cons_of_ne_nil _ _ _ (by simp), ← ih hr]
      simp

theorem mem_of_mem_piece (sep : List Char) (ps : List (List Char)) (p : List Char) (x : Char)
    (hp : p ∈ ps) (hx : x ∈ p) : x ∈ joinPieces sep ps := by
  induction ps with
  | nil => simp at hp
  | cons q qs ih =>
    by_cases hq : qs = []
    · subst hq
      simp only [List.mem_singleton] at hp
      subst hp
      simpa [joinPieces] using hx
    · rw [joinPieces_cons_of_ne_nil _ _ _ hq]
      rcases List.mem_cons.mp hp with rfl | hp
      · simp [hx]
      · simp [ih hp]

theorem header_lines (k : List Char) (ps : List (List Char)) (hne : ps ≠ [])
    (hk : '\r' ∉ k) (hps : ∀ p ∈ ps, '\r' ∉ p) :
    physicalLines (k ++ ": ".data ++ joinPieces "\r\n ".data ps ++ crlf) =
      (k ++ ": ".data ++ ps.head!) :: ps.tail.map (fun q => ' ' :: q) ++ [[]] := by
  obtain ⟨p, rest, rfl⟩ := List.exists_cons_of_ne_nil hne
  have e : k ++ ": ".data ++ joinPieces "\r\n ".data (p :: rest) ++ crlf =
      joinPieces crlf (((k ++ ": ".data ++ p) :: rest.map (fun q => ' ' :: q)) ++ [[]]) := by
    rw [joinPieces_fold_eq, ← joinPieces_append_last _ _ (by simp),
      ← joinPieces_cons_prefix crlf (k ++ ": ".data) p]
    simp
  rw [e, physicalLines_joinPieces _ (by simp)]
  · simp
  · intro l hl
    simp only [List.cons_append, List.mem_cons, List.mem_append, List.mem_map,
      List.mem_singleton] at hl
    rcases hl with rfl | ⟨q, hq, rfl⟩ | rfl | hl
    · intro hm
      simp only [List.mem_append] at hm
      rcases hm with (hm | hm) | hm
      · exact hk hm
      · revert hm; decide
      · exact hps p (List.mem_cons_self _ _) hm
    · intro hm
      rcases List.mem_cons.mp hm with hm | hm
      · revert hm; decide
      · exact hps q (List.mem_cons_of_mem _ hq) hm
    · simp
    · simp at hl

theorem mem_piece_of_join (ps : List (List Char)) (v : List Char) (x : Char)
    (hv : v = joinPieces [' '] ps) (hx : x ∉ v) : ∀ p ∈ ps, x ∉ p := by
  intro p hp hm
  exact hx (hv ▸ mem_of_mem_piece _ ps p x hp hm)

/-- C26. Line bound for a single value: for a name of at most 30 characters and
one value without CR or LF whose space-free words are at most 40 characters
long, `writeHeader` returns and hands the sink the name, colon, space and the
pieces of the value, a piece ending where a space of the value stood and the
next one written on a new line after one space. The first line (name, colon,
space and first piece) has at most 76 characters, every continuation line (the
space and a piece of at most 75 characters) has at most 76 characters, and for
a name without CR these are the physical lines of the output. -/
theorem writeHeader_single_value_line_bound (w : MessageWriter) (k v : String)
    (hk : k.length ≤ 30) (hcr : '\r' ∉ v.data) (hnl : '\n' ∉ v.data)
    (hw : ∀ word ∈ spaceFreeWords v, word.length ≤ 40) :
    ∃ w1 ps, w.writeHeader k [v] = some w1 ∧
      Emits w w1 (k.data ++ ": ".data ++ joinPieces "\r\n ".data ps ++ crlf) ∧
      ps ≠ [] ∧ v.data = joinPieces [' '] ps ∧
      (∀ p, ps.head? = some p → (k.data ++ ": ".data ++ p).length ≤ 76) ∧
      (∀ p ∈ ps.tail, p.length ≤ 75 ∧ (' ' :: p).length ≤ 76) ∧
      ('\r' ∉ k.data →
        physicalLines (k.data ++ ": ".data ++ joinPieces "\r\n ".data ps ++ crlf) =
          (k.data ++ ": ".data ++ ps.head!) :: ps.tail.map (fun q => ' ' :: q) ++ [[]] ∧
        ∀ l ∈ physicalLines (k.data ++ ": ".data ++ joinPieces "\r\n ".data ps ++ crlf),
          l.length ≤ 76) := by
  obtain ⟨ps, hh, hne, hv, hfirst, hrest⟩ := headerText_bounded k v hk hnl hw
  have he := writeHeader_emits w k [v]
  rw [hh] at he
  obtain ⟨w1, hw1, hem⟩ := he
  have hfirst2 : ∀ p, ps.head? = some p → (k.data ++ ": ".data ++ p).length ≤ 76 := by
    intro p hp
    have := hfirst p hp
    simp only [List.length_append]
    have e : ": ".data.length = 2 := rfl
    rw [e]
    exact this
  have hrest2 : ∀ p ∈ ps.tail, p.length ≤ 75 ∧ (' ' :: p).length ≤ 76 := by
    intro p hp
    have := hrest p hp
    simp only [List.length_cons]
    omega
  refine ⟨w1, ps, hw1, hem, hne, hv, hfirst2, hrest2, ?_⟩
  intro hkcr
  have hl := header_lines k.data ps hne hkcr (mem_piece_of_join ps v.data '\r' hv hcr)
  refine ⟨hl, ?_⟩
  rw [hl]
  intro l hm
  obtain ⟨p, rest, rfl⟩ := List.exists_cons_of_ne_nil hne
  simp only [List.cons_append, List.mem_cons, List.mem_append, List.mem_map,
    List.mem_singleton, List.tail_cons, List.head!_cons] at hm
  rcases hm with rfl | ⟨q, hq, rfl⟩ | rfl | hm
  · exact hfirst2 p rfl
  · exact (hrest2 q hq).2
  · simp
  · simp at hm

theorem writeHeader_single_value_line_bound_witness :
    ∃ w1, (newMessageWriter acceptingSink).writeHeader "Subject" [twoWordValue] = some w1 ∧
      ∀ l ∈ physicalLines (w1.emitted), l.length ≤ 76 := by
  obtain ⟨w1, ps, h1, hem, _, _, _, _, hl⟩ :=
    writeHeader_single_value_line_bound (newMessageWriter acceptingSink) "Subject" twoWordValue
      (by decide) (by decide) (by decide) (by decide!)
  refine ⟨w1, h1, ?_⟩
  have e : w1.emitted = "Subject".data ++ ": ".data ++ joinPieces "\r\n ".data ps ++ crlf := by
    have := hem.1
    simpa [MessageWriter.emitted, newMessageWriter, acceptingSink] using this
  rw [e]
  exact (hl (by decide)).2

/-! ## Folding loses nothing -/

theorem deleteCRLF_cons_of_ne (c : Char) (rest : List Char) (hc : c ≠ '\r') :
    deleteCRLF (c :: rest) = c :: deleteCRLF rest := by
  rw [deleteCRLF]
  intro rest2 h1 h2
  exact absurd h1 hc

theorem deleteCRLF_cr_of_ne (c : Char) (rest : List Char) (hc : c ≠ '\n') :
    deleteCRLF ('\r' :: c :: rest) = '\r' :: deleteCRLF (c :: rest) := by
  rw [deleteCRLF]
  intro rest2 h1 h2
  simp only [List.cons.injEq] at h2
  exact absurd h2.1 hc

theorem deleteCRLF_append_of_no_cr (a b : List Char) (h : '\r' ∉ a) :
    deleteCRLF (a ++ b) = a ++ deleteCRLF b := by
  induction a with
  | nil => rfl
  | cons c a ih =>
    have hc : c ≠ '\r' := fun e => h (e ▸ List.mem_cons_self _ _)
    rw [List.cons_append, deleteCRLF_cons_of_ne c _ hc,
      ih (fun hm => h (List.mem_cons_of_mem _ hm))]
    rfl

theorem deleteCRLF_of_no_cr (a : List Char) (h : '\r' ∉ a) : deleteCRLF a = a := by
  have := deleteCRLF_append_of_no_cr a [] h
  simpa [deleteCRLF] using this

theorem deleteCRLF_fold (ps : List (List Char)) (t : List Char)
    (h : ∀ p ∈ ps, '\r' ∉ p) :
    deleteCRLF (joinPieces "\r\n ".data ps ++ t) = joinPieces [' '] ps ++ deleteCRLF t := by
  induction ps with
  | nil => rfl
  | cons p rest ih =>
    by_cases hr : rest = []
    · subst hr
      exact deleteCRLF_append_of_no_cr p t (h p (List.mem_cons_self _ _))
    · rw [joinPieces_cons_of_ne_nil _ _ _ hr, joinPieces_cons_of_ne_nil _ _ _ hr]
      have e : p ++ "\r\n ".data ++ joinPieces "\r\n ".data rest ++ t =
          p ++ ('\r' :: '\n' :: ([' '] ++ (joinPieces "\r\n ".data rest ++ t))) := by
        simp
      rw [e, deleteCRLF_append_of_no_cr p _ (h p (List.mem_cons_self _ _)), deleteCRLF,
        deleteCRLF_append_of_no_cr [' '] _ (by decide),
        ih (fun q hq => h q (List.mem_cons_of_mem _ hq))]
      simp

theorem deleteCRLF_before (n : Nat) : ∀ (k : List Char) (c : Char) (t : List Char),
    k.length ≤ n → c ≠ '\n' →
    deleteCRLF (k ++ c :: t) = deleteCRLF k ++ deleteCRLF (c :: t) := by
  induction n with
  | zero =>
    intro k c t hk _
    have : k = [] := List.length_eq_zero.mp (Nat.le_zero.mp hk)
    subst this
    rfl
  | succ n ih =>
    intro k c t hk hc
    cases k with
    | nil => rfl
    | cons a k1 =>
      by_cases ha : a = '\r'
      · subst ha
        cases k1 with
        | nil =>
          show deleteCRLF ('\r' :: c :: t) = deleteCRLF ['\r'] ++ deleteCRLF (c :: t)
          rw [deleteCRLF_cr_of_ne c t hc]
          rfl
        | cons b k2 =>
          by_cases hb : b = '\n'
          · subst hb
            show deleteCRLF ('\r' :: '\n' :: (k2 ++ c :: t)) = deleteCRLF ('\r' :: '\n' :: k2) ++ _
            rw [deleteCRLF, deleteCRLF]
            exact ih k2 c t (by simp at hk; omega) hc
          · show deleteCRLF ('\r' :: b :: (k2 ++ c :: t)) = deleteCRLF ('\r' :: b :: k2) ++ _
            rw [deleteCRLF_cr_of_ne b _ hb, deleteCRLF_cr_of_ne b _ hb]
            have := ih (b :: k2) c t (by simp at hk ⊢; omega) hc
            rw [List.cons_append] at this
            rw [this]
            rfl
      · rw [List.cons_append, deleteCRLF_cons_of_ne a _ ha, deleteCRLF_cons_of_ne a _ ha,
          ih k1 c t (by simp at hk; omega) hc]
        rfl

theorem joinPieces_comma (p : List Char) (ps : List (List Char)) :
    joinPieces ", ".data (p :: ps) = p ++ (ps.map (fun q => ", ".data ++ q)).flatten := by
  induction ps generalizing p with
  | nil => simp [joinPieces]
  | cons q qs ih =>
    rw [joinPieces_cons_of_ne_nil _ _ _ (by simp), ih q]
    simp

theorem valuesText_deleteCRLF (v : List String)
    (hv : ∀ s ∈ v, '\r' ∉ s.data ∧ '\n' ∉ s.data) : ∀ (i : Nat) (c : Int), (i = 0 → 1 ≤ c) →
    ∃ y, valuesText i c v = some y ∧
      deleteCRLF y = if i = 0 then joinPieces ", ".data (v.map String.data)
        else (v.map (fun s => ", ".data ++ s.data)).flatten := by
  induction v with
  | nil =>
    intro i c _
    refine ⟨[], rfl, ?_⟩
    by_cases hi : i = 0 <;> simp [hi, deleteCRLF, joinPieces]
  | cons s rest ih =>
    intro i c hic
    obtain ⟨hcr, hnl⟩ := hv s (List.mem_cons_self _ _)
    have ih1 := fun c1 => ih (fun q hq => hv q (List.mem_cons_of_mem _ hq)) (i + 1) c1
      (fun h => absurd h (Nat.succ_ne_zero i))
    unfold valuesText
    simp only
    generalize hst : (if c < 1 then (if i = 0 then "\r\n ".data else ",\r\n ".data, (75 : Int))
            else if i ≠ 0 then (", ".data, c - 2) else ([], c)) = start
    obtain ⟨x, r, c1, ps, hf, hne, hj, hx, _, _⟩ :=
      foldText_pieces (s.length + 1) s start.2 hnl (Nat.lt_succ_self _)
    rw [hf]
    simp only
    split
    · rename_i hnone
      exact (ih1 _).elim fun y hy => absurd (hy.1.symm.trans hnone) (by simp)
    rename_i y hy
    have hdy : deleteCRLF y = (rest.map (fun q => ", ".data ++ q.data)).flatten :=
      (ih1 _).elim fun y1 hy1 => by
        have e : y1 = y := Option.some.inj (hy1.1.symm.trans hy)
        rw [← e, hy1.2, if_neg (Nat.succ_ne_zero i)]
    refine ⟨_, rfl, ?_⟩
    have hps : ∀ p ∈ ps, '\r' ∉ p := fun p hp hm => hcr (hj ▸ mem_of_mem_piece _ ps p _ hp hm)
    have hmid : deleteCRLF (x ++ r.data ++ y) =
        s.data ++ (rest.map (fun q => ", ".data ++ q.data)).flatten := by
      rw [hx, deleteCRLF_fold ps y hps, ← hj, hdy]
    by_cases hc : c < 1
    · have hi : i ≠ 0 := fun h => by have := hic h; omega
      rw [if_pos hc, if_neg hi] at hst
      subst hst
      rw [if_neg hi]
      show deleteCRLF (",\r\n ".data ++ x ++ r.data ++ y) = _
      have e : ",\r\n ".data ++ x ++ r.data ++ y =
          [','] ++ ('\r' :: '\n' :: ([' '] ++ (x ++ r.data ++ y))) := by simp
      rw [e, deleteCRLF_append_of_no_cr [','] _ (by decide), deleteCRLF,
        deleteCRLF_append_of_no_cr [' '] _ (by decide), hmid]
      simp
    · rw [if_neg hc] at hst
      by_cases hi : i = 0
      · have hi2 : ¬ (i ≠ 0) := fun h => h hi
        rw [if_neg hi2] at hst
        subst hst
        rw [if_pos hi]
        show deleteCRLF ([] ++ x ++ r.data ++ y) = _
        rw [List.nil_append, hmid, List.map_cons, joinPieces_comma]
        simp [List.map_map, Function.comp_def]
      · rw [if_pos hi] at hst
        subst hst
        rw [if_neg hi]
        show deleteCRLF (", ".data ++ x ++ r.data ++ y) = _
        have e : ", ".data ++ x ++ r.data ++ y = ", ".data ++ (x ++ r.data ++ y) := by simp
        rw [e, deleteCRLF_append_of_no_cr ", ".data _ (by decide), hmid]
        simp

/-- C27. Folding loses nothing: for a name of at most 73 characters and a
non-empty list of values without CR or LF, `writeHeader` returns and hands the
sink the name, a colon and space, a body and the final CRLF; deleting every
CRLF from the body yields the values joined by a comma and space, and deleting
every CRLF from what precedes the final CRLF yields the name without its own
CRLFs (the name itself when it has no CR), the colon and space and the joined
values. -/
theorem writeHeader_folding_loses_nothing (w : MessageWriter) (k : String) (v : List String)
    (hk : k.length ≤ 73) (hne : v ≠ []) (hv : ∀ s ∈ v, '\r' ∉ s.data ∧ '\n' ∉ s.data) :
    ∃ w1 body, w.writeHeader k v = some w1 ∧
      Emits w w1 (k.data ++ ": ".data ++ body ++ crlf) ∧
      deleteCRLF body = joinPieces ", ".data (v.map String.data) ∧
      deleteCRLF (k.data ++ ": ".data ++ body) ++ crlf =
        deleteCRLF k.data ++ ": ".data ++ joinPieces ", ".data (v.map String.data) ++ crlf ∧
      ('\r' ∉ k.data → deleteCRLF (k.data ++ ": ".data ++ body) ++ crlf =
        k.data ++ ": ".data ++ joinPieces ", ".data (v.map String.data) ++ crlf) := by
  obtain ⟨y, hy, hdy⟩ := valuesText_deleteCRLF v hv 0 (76 - (k.length : Int) - 2)
    (fun _ => by omega)
  rw [if_pos rfl] at hdy
  have hh : headerText k v = some (k.data ++ ": ".data ++ y ++ crlf) := by
    obtain ⟨s, rest, rfl⟩ := List.exists_cons_of_ne_nil hne
    simp only [headerText, hy]
  have he := writeHeader_emits w k v
  rw [hh] at he
  obtain ⟨w1, hw1, hem⟩ := he
  have hall : deleteCRLF (k.data ++ ": ".data ++ y) =
      deleteCRLF k.data ++ ": ".data ++ joinPieces ", ".data (v.map String.data) := by
    have e : k.data ++ ": ".data ++ y = k.data ++ ':' :: ([' '] ++ y) := by simp
    rw [e, deleteCRLF_before k.data.length k.data ':' _ (Nat.le_refl _) (by decide),
      deleteCRLF_cons_of_ne ':' _ (by decide), deleteCRLF_append_of_no_cr [' '] _ (by decide),
      hdy]
    simp
  refine ⟨w1, y, hw1, hem, hdy, by rw [hall], ?_⟩
  intro hkcr
  rw [hall, deleteCRLF_of_no_cr k.data hkcr]

theorem writeHeader_folding_loses_nothing_witness :
    ∃ w1 body, (newMessageWriter acceptingSink).writeHeader "To" foldedValues = some w1 ∧
      w1.emitted =
        ("To: aaaaaaaaaaaaaaaaaaaaaaaaaaaaaaaaaaaaaaaa\r\n " ++
          "bbbbbbbbbbbbbbbbbbbbbbbbbbbbbbbbbbbbbbbb, carol@example.org\r\n").data ∧
      (physicalLines w1.emitted).map List.length = [44, 60, 0] ∧
      w1.emitted = "To".data ++ ": ".data ++ body ++ crlf ∧
      deleteCRLF ("To".data ++ ": ".data ++ body) ++ crlf =
        ("To: aaaaaaaaaaaaaaaaaaaaaaaaaaaaaaaaaaaaaaaa " ++
          "bbbbbbbbbbbbbbbbbbbbbbbbbbbbbbbbbbbbbbbb, carol@example.org\r\n").data := by
  obtain ⟨w1, body, h1, hem, _, _, h2⟩ :=
    writeHeader_folding_loses_nothing (newMessageWriter acceptingSink) "To" foldedValues
      (by decide) (by decide) (by decide)
  have he : ((newMessageWriter acceptingSink).writeHeader "To" foldedValues).map
      MessageWriter.emitted =
      some ("To: aaaaaaaaaaaaaaaaaaaaaaaaaaaaaaaaaaaaaaaa\r\n " ++
          "bbbbbbbbbbbbbbbbbbbbbbbbbbbbbbbbbbbbbbbb, carol@example.org\r\n").data := by
    decide!
  rw [h1] at he
  have he1 : w1.emitted =
      ("To: aaaaaaaaaaaaaaaaaaaaaaaaaaaaaaaaaaaaaaaa\r\n " ++
          "bbbbbbbbbbbbbbbbbbbbbbbbbbbbbbbbbbbbbbbb, carol@example.org\r\n").data :=
    Option.some.inj he
  refine ⟨w1, body, h1, he1, ?_, ?_, ?_⟩
  · rw [he1]
    decide
  · have := hem.1
    simpa [MessageWriter.emitted, newMessageWriter, acceptingSink] using this
  · rw [h2 (by decide)]
    decide

/-! ## Nesting of the multipart containers -/

theorem KeepsNest.same (w : MessageWriter) : KeepsNest w w := ⟨rfl, rfl⟩

theorem KeepsNest.andThen {a b c : MessageWriter} (h1 : KeepsNest a b) (h2 : KeepsNest b c) :
    KeepsNest a c :=
  ⟨h2.1.trans h1.1, h2.2.trans h1.2⟩

theorem Emits.keepsNest {w w1 : MessageWriter} {x : List Char} (h : Emits w w1 x) :
    KeepsNest w w1 :=
  ⟨h.2.2.2.1, h.2.2.2.2.2.1⟩

theorem Nest.of_keeps {w w1 : MessageWriter} {bs : List String} (h : Nest w bs)
    (hk : KeepsNest w w1) : Nest w1 bs := by
  unfold Nest
  rw [hk.1, hk.2]
  exact h

theorem keepsNest_Write (w : MessageWriter) (p : String) : KeepsNest w (w.Write p).1 := by
  unfold MessageWriter.Write
  cases w.Err with
  | some e => exact KeepsNest.same w
  | none => exact ⟨rfl, rfl⟩

theorem keepsNest_closePart (w : MessageWriter) (i : Nat) : KeepsNest w (closePart w i).1 := by
  unfold closePart
  cases w.parts.get? i with
  | none => exact KeepsNest.same w
  | some ps => exact ⟨rfl, rfl⟩

theorem keepsNest_partWrite (w : MessageWriter) (i : Nat) (d : String) :
    KeepsNest w (partWrite w i d).1 := by
  unfold partWrite
  cases w.parts.get? i with
  | none => exact KeepsNest.same w
  | some ps =>
    simp only
    by_cases hc : ps.closed = true
    · rw [if_pos hc]
      exact KeepsNest.same w
    · rw [if_neg hc]
      have h := keepsNest_Write w d
      rcases hw : w.Write d with ⟨w1, n, err⟩
      rw [hw] at h
      cases err with
      | none => exact h
      | some e => exact ⟨h.1, h.2⟩

theorem keepsNest_copyBuffer (w : MessageWriter) (text : String) :
    KeepsNest w (copyBuffer w text).1 := by
  unfold copyBuffer
  have h := keepsNest_Write w text
  rcases hw : w.Write text with ⟨w1, n, err⟩
  rw [hw] at h
  cases err with
  | some e => exact h
  | none =>
    simp only
    by_cases hn : n = text.length
    · rw [if_pos hn]; exact h
    · rw [if_neg hn]; exact h

theorem keepsNest_SubWriter_Write (sub : SubWriter) (w : MessageWriter) (p : String)
    (r : MessageWriter × Nat × Option Error) (h : sub.Write w p = some r) : KeepsNest w r.1 := by
  cases sub with
  | nil => simp [SubWriter.Write] at h
  | sink =>
    simp only [SubWriter.Write, Option.some.injEq] at h
    subst h
    exact ⟨rfl, rfl⟩
  | part i =>
    simp only [SubWriter.Write, Option.some.injEq] at h
    subst h
    exact keepsNest_partWrite w i p

theorem Prog.run_invariant {α S : Type} (wr : S → String → Option (S × Nat × Option Error))
    (P : S → Prop) (hwr : ∀ s p r, P s → wr s p = some r → P r.1) :
    ∀ (prog : Prog α) (s : S) (r : S × α), P s → prog.run wr s = some r → P r.1 := by
  intro prog
  induction prog with
  | ret a =>
    intro s r hs h
    simp only [Prog.run, Option.some.injEq] at h
    subst h
    exact hs
  | write p next ih =>
    intro s r hs h
    unfold Prog.run at h
    cases hw : wr s p with
    | none => simp [hw] at h
    | some t =>
      obtain ⟨s1, n, err⟩ := t
      rw [hw] at h
      exact ih n err s1 r (hwr s p _ hs hw) h

theorem writeOn_invariant {S : Type} (enc : StreamEncoder)
    (wr : S → String → Option (S × Nat × Option Error))
    (P : S → Prop) (hwr : ∀ s p r, P s → wr s p = some r → P r.1)
    (st : enc.State × S) (p : String) (r : (enc.State × S) × Nat × Option Error)
    (hs : P st.2) (h : enc.writeOn wr st p = some r) : P r.1.2 := by
  unfold StreamEncoder.writeOn at h
  cases hr : (enc.Write st.1 p).run wr st.2 with
  | none => simp [hr] at h
  | some t =>
    obtain ⟨s, es, n, err⟩ := t
    rw [hr] at h
    simp only [Option.some.injEq] at h
    subst h
    exact Prog.run_invariant wr P hwr _ _ _ hs hr

theorem keepsNest_lineLoop (w0 : MessageWriter) (f : Nat) : ∀ (lw : base64LineWriter)
    (w : MessageWriter) (p : String) (n : Nat)
    (r : base64LineWriter × MessageWriter × String × Nat),
    KeepsNest w0 w → lineLoop f lw w p n = some r → KeepsNest w0 r.2.1 := by
  induction f with
  | zero =>
    intro lw w p n r hk h
    simp only [lineLoop, Option.some.injEq] at h
    subst h
    exact hk
  | succ f ih =>
    intro lw w p n r hk h
    unfold lineLoop at h
    by_cases hc : p.length + lw.lineLen > maxLineLen
    · rw [if_pos hc] at h
      cases h1 : lw.w.Write w (sliceTo p (maxLineLen - lw.lineLen)) with
      | none => simp [h1] at h
      | some t1 =>
        obtain ⟨w1, n1, e1⟩ := t1
        rw [h1] at h
        simp only at h
        cases h2 : lw.w.Write w1 "\r\n" with
        | none => simp [h2] at h
        | some t2 =>
          obtain ⟨w2, n2, e2⟩ := t2
          rw [h2] at h
          simp only at h
          exact ih _ _ _ _ r
            ((hk.andThen (keepsNest_SubWriter_Write _ _ _ _ h1)).andThen
              (keepsNest_SubWriter_Write _ _ _ _ h2)) h
    · rw [if_neg hc] at h
      simp only [Option.some.injEq] at h
      subst h
      exact hk

theorem keepsNest_base64Write (w0 : MessageWriter) (st : base64LineWriter × MessageWriter)
    (p : String) (r : (base64LineWriter × MessageWriter) × Nat × Option Error)
    (hk : KeepsNest w0 st.2) (h : base64LineWriter.Write st p = some r) :
    KeepsNest w0 r.1.2 := by
  unfold base64LineWriter.Write at h
  cases h1 : lineLoop (p.length + 1) st.1 st.2 p 0 with
  | none => simp [h1] at h
  | some t1 =>
    obtain ⟨lw, w, p1, n⟩ := t1
    rw [h1] at h
    simp only at h
    have hk1 := keepsNest_lineLoop w0 _ _ _ _ _ _ hk h1
    cases h2 : lw.w.Write w p1 with
    | none => simp [h2] at h
    | some t2 =>
      obtain ⟨w2, n2, e2⟩ := t2
      rw [h2] at h
      simp only [Option.some.injEq] at h
      subst h
      exact hk1.andThen (keepsNest_SubWriter_Write _ _ _ _ h2)

theorem keepsNest_writeBody (lib : Library) (w : MessageWriter) (f : Producer) (enc : Encoding)
    (w1 : MessageWriter) (h : w.writeBody lib f enc = some w1) : KeepsNest w w1 := by
  unfold MessageWriter.writeBody at h
  simp only at h
  generalize hst : (if w.Depth = 0 then (w.writeString "\r\n", SubWriter.sink)
    else (w, w.partSubWriter)) = start at h
  have hstart : KeepsNest w start.1 := by
    by_cases hd : w.Depth = 0
    · rw [if_pos hd] at hst
      subst hst
      exact (emits_writeString w "\r\n").keepsNest
    · rw [if_neg hd] at hst
      subst hst
      exact KeepsNest.same w
  by_cases he : enc = Base64
  · rw [if_pos he] at h
    cases h1 : f.run (lib.base64.writeOn base64LineWriter.Write)
        (lib.base64.init, newBase64LineWriter start.2, start.1) with
    | none => simp [h1] at h
    | some t1 =>
      obtain ⟨⟨es, lw, u⟩, err⟩ := t1
      rw [h1] at h
      simp only at h
      have hu : KeepsNest w u :=
        Prog.run_invariant (lib.base64.writeOn base64LineWriter.Write)
          (fun st => KeepsNest w st.2.2)
          (fun s p r hs hr => writeOn_invariant lib.base64 base64LineWriter.Write
            (fun st => KeepsNest w st.2)
            (fun s p r hs hr => keepsNest_base64Write w s p r hs hr) s p r hs hr)
          f _ _ hstart h1
      cases h2 : (lib.base64.Close es).run base64LineWriter.Write (lw, { u with Err := err }) with
      | none => simp [h2] at h
      | some t2 =>
        obtain ⟨⟨lw2, u2⟩, e2⟩ := t2
        rw [h2] at h
        simp only [Option.some.injEq] at h
        subst h
        exact Prog.run_invariant base64LineWriter.Write (fun st => KeepsNest w st.2)
          (fun s p r hs hr => keepsNest_base64Write w s p r hs hr)
          _ _ _ (show KeepsNest w ({ u with Err := err } : MessageWriter) from ⟨hu.1, hu.2⟩) h2
  · rw [if_neg he] at h
    by_cases hu : enc = Unencoded
    · rw [if_pos hu] at h
      cases h1 : f.run start.2.Write start.1 with
      | none => simp [h1] at h
      | some t1 =>
        obtain ⟨u, err⟩ := t1
        rw [h1] at h
        simp only [Option.some.injEq] at h
        subst h
        have hk : KeepsNest w u :=
          Prog.run_invariant start.2.Write (fun u => KeepsNest w u)
            (fun s p r hs hr => hs.andThen (keepsNest_SubWriter_Write _ _ _ _ hr)) f _ _ hstart h1
        exact ⟨hk.1, hk.2⟩
    · rw [if_neg hu] at h
      cases h1 : f.run (lib.quotedprintable.writeOn start.2.Write)
          (lib.quotedprintable.init, start.1) with
      | none => simp [h1] at h
      | some t1 =>
        obtain ⟨⟨es, u⟩, err⟩ := t1
        rw [h1] at h
        simp only at h
        have hk : KeepsNest w u :=
          Prog.run_invariant (lib.quotedprintable.writeOn start.2.Write)
            (fun st => KeepsNest w st.2)
            (fun s p r hs hr => writeOn_invariant lib.quotedprintable start.2.Write
              (fun u => KeepsNest w u)
              (fun s p r hs hr => hs.andThen (keepsNest_SubWriter_Write _ _ _ _ hr)) s p r hs hr)
            f _ _ hstart h1
        cases h2 : (lib.quotedprintable.Close es).run start.2.Write { u with Err := err } with
        | none => simp [h2] at h
        | some t2 =>
          obtain ⟨u2, e2⟩ := t2
          rw [h2] at h
          simp only [Option.some.injEq] at h
          subst h
          exact Prog.run_invariant start.2.Write (fun u => KeepsNest w u)
            (fun s p r hs hr => hs.andThen (keepsNest_SubWriter_Write _ _ _ _ hr))
            _ _ _ (show KeepsNest w ({ u with Err := err } : MessageWriter) from ⟨hk.1, hk.2⟩) h2

theorem Slots.set_same {ws : List (Option MultipartWriter)} {bs : List String}
    (h : Slots ws bs) (slot : Nat) (mw1 : MultipartWriter)
    (hb : ∀ b, bs.get? slot = some b → mw1.boundary = b) (hs : slot < 3) :
    Slots (ws.set slot (some mw1)) bs := by
  obtain ⟨h1, h2, h3⟩ := h
  refine ⟨by rw [List.length_set]; exact h1, h2, ?_⟩
  intro i b hib
  simp only [List.get?_eq_getElem?] at *
  by_cases hi : slot = i
  · subst hi
    exact ⟨mw1, by rw [List.getElem?_set_self (by omega)], hb b hib⟩
  · rw [List.getElem?_set_ne hi]
    exact h3 i b hib

theorem Slots.push {ws : List (Option MultipartWriter)} {bs : List String}
    (h : Slots ws bs) (hlt : bs.length < 3) (mw1 : MultipartWriter) :
    Slots (ws.set bs.length (some mw1)) (bs ++ [mw1.boundary]) := by
  obtain ⟨h1, h2, h3⟩ := h
  refine ⟨by rw [List.length_set]; exact h1, by simp; omega, ?_⟩
  intro i b hib
  simp only [List.get?_eq_getElem?] at *
  by_cases hi : bs.length = i
  · subst hi
    rw [List.getElem?_concat_length] at hib
    exact ⟨mw1, by rw [List.getElem?_set_self (by omega)], Option.some.inj hib⟩
  · rw [List.getElem?_set_ne hi]
    by_cases hl : i < bs.length
    · rw [List.getElem?_append_left hl] at hib
      exact h3 i b hib
    · rw [List.getElem?_append_right (by omega)] at hib
      have : i - bs.length ≠ 0 := by omega
      rw [List.getElem?_eq_none (by simp; omega)] at hib
      cases hib

theorem Slots.pop {ws : List (Option MultipartWriter)} {bs : List String} {b : String}
    (h : Slots ws (bs ++ [b])) : Slots ws bs := by
  obtain ⟨h1, h2, h3⟩ := h
  refine ⟨h1, by simp at h2; omega, ?_⟩
  intro i c hic
  simp only [List.get?_eq_getElem?] at *
  have hl : i < bs.length := by
    rcases List.getElem?_eq_some.mp hic with ⟨hl, _⟩
    exact hl
  exact h3 i c (by rw [List.getElem?_append_left hl]; exact hic)

theorem Slots.last {ws : List (Option MultipartWriter)} {bs : List String} {b : String}
    (h : Slots ws (bs ++ [b])) :
    ∃ mw, ws.get? bs.length = some (some mw) ∧ mw.boundary = b ∧ bs.length < 3 := by
  obtain ⟨h1, h2, h3⟩ := h
  obtain ⟨mw, hm, hb⟩ := h3 bs.length b (by
    simp only [List.get?_eq_getElem?]; exact List.getElem?_concat_length bs b)
  exact ⟨mw, hm, hb, by simp at h2; omega⟩

theorem writerAt_of_get {w : MessageWriter} {i : Nat} {mw : MultipartWriter}
    (h : w.Writers.get? i = some (some mw)) (hi : i < 3) : w.writerAt i = some mw := by
  unfold MessageWriter.writerAt
  rw [if_pos hi, h]
  rfl

theorem keepsNest_closeLast (w : MessageWriter) (lp : Option Nat)
    (r : MessageWriter × Option Error)
    (h : (match lp with
      | some i => closePart w i
      | none => (w, none)) = r) : KeepsNest w r.1 := by
  subst h
  cases lp with
  | none => exact KeepsNest.same w
  | some i => exact keepsNest_closePart w i

theorem CreatePart_frame (w : MessageWriter) (slot : Nat) (mw : MultipartWriter) (h : Header) :
    (CreatePart w slot mw h).1.Depth = w.Depth ∧
      ((CreatePart w slot mw h).1.Writers = w.Writers ∨
        ∃ lp, (CreatePart w slot mw h).1.Writers =
          w.Writers.set slot (some { mw with lastpart := lp })) := by
  unfold CreatePart
  simp only
  split
  · rename_i w1 err hc
    have hk := keepsNest_closeLast w mw.lastpart _ hc
    exact ⟨hk.1, Or.inl hk.2⟩
  · rename_i w1 hc
    have hk := keepsNest_closeLast w mw.lastpart _ hc
    have hk2 := keepsNest_copyBuffer w1 (partHeaderText mw.boundary mw.lastpart.isNone h)
    split
    · rename_i w2 err hcb
      rw [hcb] at hk2
      have hk3 := KeepsNest.andThen hk hk2
      exact ⟨hk3.1, Or.inl hk3.2⟩
    · rename_i w2 hcb
      rw [hcb] at hk2
      have hk3 := KeepsNest.andThen hk hk2
      exact ⟨hk3.1, Or.inr ⟨_, by simp only; rw [hk3.2]⟩⟩

theorem MultipartClose_frame (w : MessageWriter) (slot : Nat) (mw : MultipartWriter) :
    (MultipartClose w slot mw).1.Depth = w.Depth ∧
      ((MultipartClose w slot mw).1.Writers = w.Writers ∨
        ∃ lp, (MultipartClose w slot mw).1.Writers =
          w.Writers.set slot (some { mw with lastpart := lp })) := by
  unfold MultipartClose
  simp only
  split
  · rename_i w1 err hc
    have hk := keepsNest_closeLast w mw.lastpart _ hc
    exact ⟨hk.1, Or.inl hk.2⟩
  · rename_i w1 hc
    have hk := keepsNest_closeLast w mw.lastpart _ hc
    have hk2 := keepsNest_Write
      ({ w1 with Writers := w1.Writers.set slot (some { mw with lastpart := none }) })
      ("\r\n--" ++ mw.boundary ++ "--\r\n")
    exact ⟨hk2.1.trans hk.1, Or.inr ⟨none, by rw [hk2.2]; simp only; rw [hk.2]⟩⟩

theorem createPart_slots (w : MessageWriter) (h : Header) (bs : List String) (i : Nat)
    (mw : MultipartWriter) (hs : Slots w.Writers bs) (hd : w.Depth = i + 1) (hi : i < 3)
    (hm : w.Writers.get? i = some (some mw))
    (hb : ∀ b, bs.get? i = some b → mw.boundary = b) :
    ∃ w1, w.createPart h = some w1 ∧ w1.Depth = w.Depth ∧ Slots w1.Writers bs := by
  have hslot : (w.Depth + 255) % 256 = i := by omega
  unfold MessageWriter.createPart
  simp only [hslot, writerAt_of_get hm hi]
  obtain ⟨h1, h2⟩ := CreatePart_frame w i mw h
  rcases hcp : CreatePart w i mw h with ⟨w2, pw, err⟩
  rw [hcp] at h1 h2
  refine ⟨_, rfl, h1, ?_⟩
  simp only at h2 ⊢
  rcases h2 with h2 | ⟨lp, h2⟩
  · rw [h2]; exact hs
  · rw [h2]; exact hs.set_same i _ hb hi

theorem createPart_nest (w : MessageWriter) (h : Header) (bs : List String) (b : String)
    (hn : Nest w (bs ++ [b])) :
    ∃ w1, w.createPart h = some w1 ∧ Nest w1 (bs ++ [b]) := by
  obtain ⟨mw, hm, hb, hlt⟩ := hn.2.last
  obtain ⟨w1, h1, h2, h3⟩ := createPart_slots w h (bs ++ [b]) bs.length mw hn.2
    (by rw [hn.1]; simp) hlt hm (fun c hc => by
      simp only [List.get?_eq_getElem?] at hc
      rw [List.getElem?_concat_length] at hc
      exact hb.trans (Option.some.inj hc))
  exact ⟨w1, h1, h2.trans hn.1, h3⟩

theorem closeMultipart_nest (w : MessageWriter) (bs : List String) (b : String)
    (hn : Nest w (bs ++ [b])) :
    ∃ mw w1, w.Writers.get? bs.length = some (some mw) ∧ mw.boundary = b ∧
      w.closeMultipart = some w1 ∧
      w1 = { (MultipartClose w bs.length mw).1 with Depth := bs.length } ∧ Nest w1 bs := by
  obtain ⟨mw, hm, hb, hlt⟩ := hn.2.last
  have hd : w.Depth = bs.length + 1 := by rw [hn.1]; simp
  have hpos : w.Depth > 0 := by omega
  have hsub : w.Depth - 1 = bs.length := by omega
  refine ⟨mw, _, hm, hb, ?_, rfl, ?_⟩
  · unfold MessageWriter.closeMultipart
    rw [if_pos hpos, hsub, writerAt_of_get hm hlt]
    have h1 := (MultipartClose_frame w bs.length mw).1
    simp only
    have : (MultipartClose w bs.length mw).1.Depth - 1 = bs.length := by omega
    rw [this]
  · obtain ⟨h1, h2⟩ := MultipartClose_frame w bs.length mw
    refine ⟨rfl, ?_⟩
    simp only
    rcases h2 with h2 | ⟨lp, h2⟩
    · rw [h2]; exact hn.2.pop
    · rw [h2]
      exact (hn.2.set_same bs.length _ (fun c hc => by
        simp only [List.get?_eq_getElem?] at hc
        rw [List.getElem?_concat_length] at hc
        exact hb.trans (Option.some.inj hc)) hlt).pop

theorem openMultipart_nest (w : MessageWriter) (bs : List String) (b t : String)
    (hn : Nest w bs) (hlt : bs.length < 3) :
    ∃ w1, w.openMultipart b t = some w1 ∧ Nest w1 (bs ++ [b]) := by
  have hd : w.Depth < 3 := by rw [hn.1]; exact hlt
  have hpush : Slots (w.Writers.set w.Depth (some ⟨b, none⟩)) (bs ++ [b]) := by
    rw [hn.1]
    exact hn.2.push hlt ⟨b, none⟩
  unfold MessageWriter.openMultipart
  simp only [if_pos hd]
  by_cases h0 : w.Depth = 0
  · simp only [if_pos h0]
    have hs := writeHeader_isSome
      ({ w with Writers := w.Writers.set w.Depth (some ⟨b, none⟩) })
      "Content-Type" ["multipart/" ++ t ++ ";\r\n boundary=" ++ b]
    have he := writeHeader_emits
      ({ w with Writers := w.Writers.set w.Depth (some ⟨b, none⟩) })
      "Content-Type" ["multipart/" ++ t ++ ";\r\n boundary=" ++ b]
    cases ht : headerText "Content-Type" ["multipart/" ++ t ++ ";\r\n boundary=" ++ b] with
    | none =>
      rw [ht] at he
      simp only at he
      rw [he] at hs
      cases hs
    | some x =>
      rw [ht] at he
      obtain ⟨w1, hw1, hem⟩ := he
      rw [hw1]
      refine ⟨_, rfl, ?_, ?_⟩
      · have hk := hem.keepsNest.andThen (emits_writeString w1 "\r\n").keepsNest
        simp only
        rw [hk.1]
        simp only
        rw [hn.1]
        simp
        omega
      · have hk := hem.keepsNest.andThen (emits_writeString w1 "\r\n").keepsNest
        simp only
        rw [hk.2]
        exact hpush
  · simp only [if_neg h0]
    obtain ⟨i, hi⟩ : ∃ i, w.Depth = i + 1 := ⟨w.Depth - 1, by omega⟩
    have hib : i < bs.length := by rw [← hn.1]; omega
    obtain ⟨c, hc⟩ : ∃ c, bs.get? i = some c := by
      simp only [List.get?_eq_getElem?]
      exact ⟨bs[i], List.getElem?_eq_getElem hib⟩
    obtain ⟨mw, hm, hmb⟩ := hpush.2.2 i c (by
      simp only [List.get?_eq_getElem?] at hc ⊢
      rw [List.getElem?_append_left hib]
      exact hc)
    obtain ⟨w1, h1, h2, h3⟩ := createPart_slots
      ({ w with Writers := w.Writers.set w.Depth (some ⟨b, none⟩) })
      [("Content-Type", ["multipart/" ++ t ++ ";\r\n boundary=" ++ b])] (bs ++ [b]) i mw
      hpush hi (by omega) hm (fun c2 hc2 => by
        have : bs.get? i = some c2 := by
          simp only [List.get?_eq_getElem?] at hc2 ⊢
          rw [List.getElem?_append_left hib] at hc2
          exact hc2
        rw [hc] at this
        exact hmb.trans (Option.some.inj this))
    rw [h1]
    refine ⟨_, rfl, ?_, h3⟩
    simp only
    rw [h2]
    simp only
    rw [hn.1]
    simp
    omega

theorem nest_newMessageWriter (sink : Sink) : Nest (newMessageWriter sink) [] :=
  ⟨rfl, rfl, Nat.zero_le _, fun i b h => by simp at h⟩

theorem writeHeaders_nest (w : MessageWriter) (h : Header) (bs : List String)
    (hn : Nest w bs) : ∃ w1, w.writeHeaders h = some w1 ∧ Nest w1 bs := by
  unfold MessageWriter.writeHeaders
  by_cases hd : w.Depth = 0
  · rw [if_pos hd]
    obtain ⟨w1, h1, hem⟩ := writeHeaderEntries_emits h w
    exact ⟨w1, h1, hn.of_keeps hem.keepsNest⟩
  · rw [if_neg hd]
    rcases List.eq_nil_or_concat bs with rfl | ⟨bs1, b, rfl⟩
    · exact absurd hn.1 hd
    · rw [List.concat_eq_append] at hn ⊢
      exact createPart_nest w h bs1 b hn

theorem writePart_nest (lib : Library) (w : MessageWriter) (p : Part) (charset : String)
    (bs : List String) (hn : Nest w bs) (w1 : MessageWriter)
    (h : w.writePart lib p charset = some w1) : Nest w1 bs := by
  unfold MessageWriter.writePart at h
  obtain ⟨w2, h2, hn2⟩ := writeHeaders_nest w
    [("Content-Type", [p.ContentType ++ "; charset=" ++ charset]),
      ("Content-Transfer-Encoding", [p.Encoding])] bs hn
  rw [h2] at h
  exact hn2.of_keeps (keepsNest_writeBody lib w2 _ _ w1 h)

theorem writeParts_nest (lib : Library) (charset : String) (bs : List String)
    (parts : List Part) : ∀ (w w1 : MessageWriter), Nest w bs →
    writeParts lib w parts charset = some w1 → Nest w1 bs := by
  induction parts with
  | nil =>
    intro w w1 hn h
    simp only [writeParts, Option.some.injEq] at h
    subst h
    exact hn
  | cons p rest ih =>
    intro w w1 hn h
    unfold writeParts at h
    cases h2 : w.writePart lib p charset with
    | none => simp [h2] at h
    | some w2 =>
      rw [h2] at h
      exact ih w2 w1 (writePart_nest lib w p charset bs hn w2 h2) h

theorem addFiles_nest (lib : Library) (isAttachment : Bool) (bs : List String)
    (files : List File) : ∀ (w w1 : MessageWriter), Nest w bs →
    w.addFiles lib files isAttachment = some w1 → Nest w1 bs := by
  induction files with
  | nil =>
    intro w w1 hn h
    simp only [MessageWriter.addFiles, Option.some.injEq] at h
    subst h
    exact hn
  | cons f rest ih =>
    intro w w1 hn h
    unfold MessageWriter.addFiles at h
    simp only at h
    obtain ⟨w2, h2, hn2⟩ := writeHeaders_nest w (fillFileHeader lib f isAttachment).Header bs hn
    rw [h2] at h
    simp only at h
    cases h3 : w2.writeBody lib (fillFileHeader lib f isAttachment).CopyFunc Base64 with
    | none => simp [h3] at h
    | some w3 =>
      rw [h3] at h
      exact ih w3 w1 (hn2.of_keeps (keepsNest_writeBody lib w2 _ _ w3 h3)) h

theorem stepIf_open_nest (c : Bool) (w : MessageWriter) (bs : List String) (b t : String)
    (hn : Nest w bs) (hlt : c = true → bs.length < 3) :
    ∃ w1, stepIf c (fun w => w.openMultipart b t) w = some w1 ∧
      Nest w1 (bs ++ if c then [b] else []) := by
  unfold stepIf
  cases c with
  | false => exact ⟨w, rfl, by simpa using hn⟩
  | true =>
    obtain ⟨w1, h1, h2⟩ := openMultipart_nest w bs b t hn (hlt rfl)
    exact ⟨w1, h1, h2⟩

theorem stepIf_close_nest (c : Bool) (w : MessageWriter) (bs : List String) (b : String)
    (hn : Nest w (bs ++ if c then [b] else [])) :
    ∃ w1, stepIf c MessageWriter.closeMultipart w = some w1 ∧ Nest w1 bs := by
  unfold stepIf
  cases c with
  | false => exact ⟨w, rfl, by simpa using hn⟩
  | true =>
    obtain ⟨mw, w1, _, _, h1, _, h2⟩ := closeMultipart_nest w bs b hn
    exact ⟨w1, h1, h2⟩

theorem openSteps_nest (lib : Library) (m : Message) (w : MessageWriter) (hn : Nest w []) :
    ∃ w3, openSteps lib m w = some w3 ∧ Nest w3 (containers lib m) := by
  obtain ⟨w1, h1, n1⟩ := stepIf_open_nest m.HasMixedPart w [] lib.mixedBoundary "mixed" hn
    (fun _ => by decide)
  obtain ⟨w2, h2, n2⟩ := stepIf_open_nest m.HasRelatedPart w1 _ lib.relatedBoundary "related" n1
    (fun _ => by cases m.HasMixedPart <;> simp)
  obtain ⟨w3, h3, n3⟩ := stepIf_open_nest m.HasAlternativePart w2 _ lib.alternativeBoundary
    "alternative" n2 (fun _ => by cases m.HasMixedPart <;> cases m.HasRelatedPart <;> simp)
  refine ⟨w3, ?_, ?_⟩
  · simp only [openSteps, h1, h2, h3, Option.bind_eq_bind, Option.some_bind]
  · simpa [containers] using n3

theorem WriteMessage_stages (lib : Library) (w : MessageWriter) (m : Message) :
    w.WriteMessage lib m =
      (headerSteps lib w m).bind fun wh =>
      (openSteps lib m wh).bind fun w3 =>
      (writeParts lib w3 m.Parts m.Charset).bind fun w4 =>
      (stepIf m.HasAlternativePart MessageWriter.closeMultipart w4).bind fun w5 =>
      (w5.addFiles lib m.Embedded false).bind fun w6 =>
      (stepIf m.HasRelatedPart MessageWriter.closeMultipart w6).bind fun w7 =>
      (w7.addFiles lib m.Attachments true).bind fun w8 =>
      stepIf m.HasMixedPart MessageWriter.closeMultipart w8 := by
  simp only [MessageWriter.WriteMessage, headerSteps, openSteps, Option.bind_eq_bind,
    Option.bind_assoc]

/-- C24. Multipart nesting is bounded and balanced. From a fresh writer the
fields are written at depth 0 and the conditional calls of `openMultipart`
always return, leaving the writer inside exactly the containers that the
three tests of the message call for, in the order mixed, related,
alternative, each in the slot of its depth. When `WriteMessage` returns, the
parts were written inside all of them, the embedded files after the
alternative container was closed, the attachments after the related one was
closed, and the depth is 0 at the end. In every state inside at most three
containers `openMultipart` (below three), `createPart` and `closeMultipart`
(above zero) find their slot of `Writers` in range and filled, and
`closeMultipart` closes the innermost container. -/
theorem WriteMessage_nesting_bounded_balanced (lib : Library) (sink : Sink) (m : Message) :
    (∃ wh w3, headerSteps lib (newMessageWriter sink) m = some wh ∧ Nest wh [] ∧
      openSteps lib m wh = some w3 ∧ Nest w3 (containers lib m) ∧
      w3.Depth = (containers lib m).length ∧ w3.Depth ≤ 3) ∧
    (∀ wz, (newMessageWriter sink).WriteMessage lib m = some wz →
      ∃ wh w3 w4 w5 w6 w7 w8,
        headerSteps lib (newMessageWriter sink) m = some wh ∧
        openSteps lib m wh = some w3 ∧
        writeParts lib w3 m.Parts m.Charset = some w4 ∧ Nest w4 (containers lib m) ∧
        stepIf m.HasAlternativePart MessageWriter.closeMultipart w4 = some w5 ∧
        Nest w5 ((if m.HasMixedPart then [lib.mixedBoundary] else []) ++
          (if m.HasRelatedPart then [lib.relatedBoundary] else [])) ∧
        w5.addFiles lib m.Embedded false = some w6 ∧
        Nest w6 ((if m.HasMixedPart then [lib.mixedBoundary] else []) ++
          (if m.HasRelatedPart then [lib.relatedBoundary] else [])) ∧
        stepIf m.HasRelatedPart MessageWriter.closeMultipart w6 = some w7 ∧
        Nest w7 (if m.HasMixedPart then [lib.mixedBoundary] else []) ∧
        w7.addFiles lib m.Attachments true = some w8 ∧
        Nest w8 (if m.HasMixedPart then [lib.mixedBoundary] else []) ∧
        stepIf m.HasMixedPart MessageWriter.closeMultipart w8 = some wz ∧
        Nest wz [] ∧ wz.Depth = 0) ∧
    (∀ (u : MessageWriter) (bs : List String) (b t : String), Nest u bs → bs.length < 3 →
      ∃ u1, u.openMultipart b t = some u1 ∧ Nest u1 (bs ++ [b])) ∧
    (∀ (u : MessageWriter) (bs : List String) (b : String) (h : Header), Nest u (bs ++ [b]) →
      ∃ u1, u.createPart h = some u1 ∧ Nest u1 (bs ++ [b])) ∧
    (∀ (u : MessageWriter) (bs : List String) (b : String), Nest u (bs ++ [b]) →
      ∃ mw u1, u.Writers.get? bs.length = some (some mw) ∧ mw.boundary = b ∧
        u.closeMultipart = some u1 ∧
        u1 = { (MultipartClose u bs.length mw).1 with Depth := bs.length } ∧ Nest u1 bs) := by
  obtain ⟨wh, hh, hem⟩ := headerSteps_emits lib (newMessageWriter sink) m rfl
  have nh : Nest wh [] := (nest_newMessageWriter sink).of_keeps hem.keepsNest
  obtain ⟨w3, h3, n3⟩ := openSteps_nest lib m wh nh
  refine ⟨⟨wh, w3, hh, nh, h3, n3, n3.1, n3.1 ▸ n3.2.2.1⟩, ?_,
    fun u bs b t hn hlt => openMultipart_nest u bs b t hn hlt,
    fun u bs b h hn => createPart_nest u h bs b hn,
    fun u bs b hn => closeMultipart_nest u bs b hn⟩
  intro wz hz
  rw [WriteMessage_stages, hh, Option.some_bind, h3, Option.some_bind] at hz
  cases h4 : writeParts lib w3 m.Parts m.Charset with
  | none => simp [h4] at hz
  | some w4 =>
    rw [h4, Option.some_bind] at hz
    have n4 : Nest w4 (containers lib m) := writeParts_nest lib _ _ _ w3 w4 n3 h4
    obtain ⟨w5, h5, n5⟩ := stepIf_close_nest m.HasAlternativePart w4 _ lib.alternativeBoundary n4
    rw [h5, Option.some_bind] at hz
    cases h6 : w5.addFiles lib m.Embedded false with
    | none => simp [h6] at hz
    | some w6 =>
      rw [h6, Option.some_bind] at hz
      have n6 := addFiles_nest lib false _ _ w5 w6 n5 h6
      obtain ⟨w7, h7, n7⟩ := stepIf_close_nest m.HasRelatedPart w6 _ lib.relatedBoundary n6
      rw [h7, Option.some_bind] at hz
      cases h8 : w7.addFiles lib m.Attachments true with
      | none => simp [h8] at hz
      | some w8 =>
        rw [h8, Option.some_bind] at hz
        have n8 := addFiles_nest lib true _ _ w7 w8 n7 h8
        obtain ⟨w9, h9, n9⟩ := stepIf_close_nest m.HasMixedPart w8 [] lib.mixedBoundary
          (by simpa using n8)
        have e : w9 = wz := Option.some.inj (h9.symm.trans hz)
        subst e
        exact ⟨wh, w3, w4, w5, w6, w7, w8, hh, h3, h4, n4, h5, n5, h6, n6, h7, n7, h8, n8,
          h9, n9, n9.1⟩

theorem WriteMessage_nesting_bounded_balanced_witness :
    containers sampleLibrary nestedMessage = ["MIXED", "RELATED", "ALTERNATIVE"] ∧
    ∃ wz, (newMessageWriter acceptingSink).WriteMessage sampleLibrary nestedMessage = some wz ∧
      wz.Depth = 0 := by
  refine ⟨by decide, ?_⟩
  have hs : ((newMessageWriter acceptingSink).WriteMessage sampleLibrary nestedMessage).isSome
      = true := by decide!
  obtain ⟨wz, hz⟩ := Option.isSome_iff_exists.mp hs
  obtain ⟨_, _, _, _, _, _, _, _, _, _, _, _, _, _, _, _, _, _, _, _, _, hd⟩ :=
    (WriteMessage_nesting_bounded_balanced sampleLibrary acceptingSink nestedMessage).2.1 wz hz
  exact ⟨wz, hz, hd⟩

/-! ## Recipients, sender and sending, in terms of the parser and the sender -/

/-- C1. When every value stored under To, Cc and Bcc parses, `addrs` being
the addresses that the parser yields for the To values, then the Cc values,
then the Bcc values, `GetRecipients` returns, without an error, `addrs` with
every repetition of an earlier address removed: the first occurrences, in
their order. The result has no address twice and holds every address of
`addrs`. -/
theorem GetRecipients_keeps_first_occurrences (P : AddressParser) (m : Message)
    (addrs : List String)
    (h : List.Forall₂ (fun a addr => P a = .ok addr) m.recipientValues addrs) :
    m.GetRecipients P = (keepFirst addrs, none) ∧
      (m.GetRecipients P).1.Nodup ∧
      (∀ addr, addr ∈ (m.GetRecipients P).1 ↔ addr ∈ addrs) ∧
      ∀ a ∈ m.recipientValues, ∀ addr, P a = .ok addr → addr ∈ (m.GetRecipients P).1 := by
  obtain ⟨hp, hmap⟩ := forall2_parsed P _ _ h
  have key : m.GetRecipients P = (keepFirst addrs, none) := by
    rw [GetRecipients_eq_addAddresses, addAddresses_of_parses P _ [] hp, foldl_addAddress_nil,
      hmap]
  rw [key]
  refine ⟨rfl, nodup_keepFirst _, fun addr => mem_keepFirst _ addr, ?_⟩
  intro a ha addr hok
  rw [mem_keepFirst, ← hmap]
  exact List.mem_map.mpr ⟨a, ha, (parses_of_ok P a addr hok).2⟩

theorem GetRecipients_keeps_first_occurrences_witness :
    (toCcMessage.recipientValues = ["a@x.com", "b@x.com", "a@x.com"] ∧
      bareAddressParser "a@x.com" = .ok "a@x.com" ∧
      bareAddressParser "b@x.com" = .ok "b@x.com" ∧
      toCcMessage.GetRecipients bareAddressParser = (["a@x.com", "b@x.com"], none)) ∧
    (namedToCcMessage.recipientValues = ["Ann <a@x.com>", "b@x.com", "a@x.com"] ∧
      angleAddressParser "Ann <a@x.com>" = .ok "a@x.com" ∧
      namedToCcMessage.GetRecipients angleAddressParser = (["a@x.com", "b@x.com"], none)) := by
  have hp : List.Forall₂ (fun a addr => bareAddressParser a = .ok addr)
      toCcMessage.recipientValues ["a@x.com", "b@x.com", "a@x.com"] :=
    List.Forall₂.cons rfl (List.Forall₂.cons rfl (List.Forall₂.cons rfl List.Forall₂.nil))
  have hq : List.Forall₂ (fun a addr => angleAddressParser a = .ok addr)
      namedToCcMessage.recipientValues ["a@x.com", "b@x.com", "a@x.com"] :=
    List.Forall₂.cons rfl (List.Forall₂.cons rfl (List.Forall₂.cons rfl List.Forall₂.nil))
  refine ⟨⟨rfl, rfl, rfl, ?_⟩, rfl, rfl, ?_⟩
  · rw [(GetRecipients_keeps_first_occurrences bareAddressParser toCcMessage _ hp).1]
    decide
  · rw [(GetRecipients_keeps_first_occurrences angleAddressParser namedToCcMessage _ hq).1]
    decide

/-- C3. `GetFrom` returns the address that the parser yields for the first
Sender value when Sender has a value, and else for the first From value; it
fails with the absent-field error exactly when neither field has a value,
and with an invalid-address error, which names the value and the parser's
error, when the parser refuses the chosen value. -/
theorem GetFrom_prefers_Sender (P : AddressParser) (m : Message) :
    (∀ a rest addr, m.Header.get "Sender" = a :: rest → P a = .ok addr →
      m.GetFrom P = (addr, none)) ∧
    (∀ a rest addr, m.Header.get "Sender" = [] → m.Header.get "From" = a :: rest →
      P a = .ok addr → m.GetFrom P = (addr, none)) ∧
    (m.GetFrom P = ("", some .absentFrom) ↔
      m.Header.get "Sender" = [] ∧ m.Header.get "From" = []) ∧
    (∀ a rest cause, m.Header.get "Sender" = a :: rest → P a = .error cause →
      m.GetFrom P = ("", some (.invalidAddress a cause))) ∧
    (∀ a rest cause, m.Header.get "Sender" = [] → m.Header.get "From" = a :: rest →
      P a = .error cause → m.GetFrom P = ("", some (.invalidAddress a cause))) := by
  have hne : ∀ a, parseAddress P a ≠ ("", some Error.absentFrom) := by
    intro a
    unfold parseAddress
    cases P a <;> simp
  refine ⟨?_, ?_, ?_, ?_, ?_⟩
  · intro a rest addr h hp
    simp [Message.GetFrom, h, parseAddress, hp]
  · intro a rest addr hs hf hp
    simp [Message.GetFrom, hs, hf, parseAddress, hp]
  · unfold Message.GetFrom
    cases hs : m.Header.get "Sender" with
    | cons a rest => simpa using hne a
    | nil =>
      cases hf : m.Header.get "From" with
      | cons a rest => simpa using hne a
      | nil => simp
  · intro a rest cause h hp
    simp [Message.GetFrom, h, parseAddress, hp]
  · intro a rest cause hs hf hp
    simp [Message.GetFrom, hs, hf, parseAddress, hp]

theorem GetFrom_prefers_Sender_witness :
    (senderFromMessage.Header.get "Sender" = ["s@x.com"] ∧
      senderFromMessage.Header.get "From" = ["f@x.com"] ∧
      bareAddressParser "s@x.com" = .ok "s@x.com" ∧
      senderFromMessage.GetFrom bareAddressParser = ("s@x.com", none)) ∧
    (namedSenderMessage.Header.get "Sender" = ["Sam <s@x.com>"] ∧
      angleAddressParser "Sam <s@x.com>" = .ok "s@x.com" ∧
      namedSenderMessage.GetFrom angleAddressParser = ("s@x.com", none)) :=
  ⟨⟨rfl, rfl, rfl,
    (GetFrom_prefers_Sender bareAddressParser senderFromMessage).1 "s@x.com" [] "s@x.com"
      rfl rfl⟩,
    rfl, rfl,
    (GetFrom_prefers_Sender angleAddressParser namedSenderMessage).1 "Sam <s@x.com>" []
      "s@x.com" rfl rfl⟩

theorem send_of_prepared {σ : Type} (P : AddressParser) (s : Sender σ) (st : σ) (m : Message)
    (hf : (m.GetFrom P).2 = none) (hr : (m.GetRecipients P).2 = none) :
    send P s st m =
      ⟨(s.Send st (m.GetFrom P).1 (m.GetRecipients P).1 m).1, [callOf P m],
        (s.Send st (m.GetFrom P).1 (m.GetRecipients P).1 m).2⟩ := by
  unfold send callOf
  rcases hgf : m.GetFrom P with ⟨sender, e1⟩
  rcases hgr : m.GetRecipients P with ⟨recipients, e2⟩
  rw [hgf] at hf
  rw [hgr] at hr
  simp only at hf hr
  subst hf hr
  simp only
  rcases hs : s.Send st sender recipients m with ⟨st2, _ | e⟩ <;> rfl

theorem send_of_failsWith {σ : Type} (P : AddressParser) (s : Sender σ) (st : σ) (m : Message)
    (e : Error) (st1 : σ) (calls : List Call) (h : failsWith P s st m e st1 calls) :
    send P s st m = ⟨st1, calls, some e⟩ := by
  rcases h with ⟨hf, rfl, rfl⟩ | ⟨hf, hr, rfl, rfl⟩ | ⟨hf, hr, hs, rfl⟩
  · unfold send
    rcases hgf : m.GetFrom P with ⟨sender, e1⟩
    rw [hgf] at hf
    simp only at hf
    subst hf
    rfl
  · unfold send
    rcases hgf : m.GetFrom P with ⟨sender, e1⟩
    rcases hgr : m.GetRecipients P with ⟨recipients, e2⟩
    rw [hgf] at hf
    rw [hgr] at hr
    simp only at hf hr
    subst hf hr
    rfl
  · rw [send_of_prepared P s st m hf hr, hs]

theorem failsWith_iff_send {σ : Type} (P : AddressParser) (s : Sender σ) (st : σ) (m : Message)
    (e : Error) (h : (send P s st m).err = some e) :
    ∃ st1 calls, failsWith P s st m e st1 calls := by
  cases hf : (m.GetFrom P).2 with
  | some e1 =>
    have : send P s st m = ⟨st, [], some e1⟩ :=
      send_of_failsWith P s st m e1 st [] (Or.inl ⟨hf, rfl, rfl⟩)
    rw [this] at h
    simp only [Option.some.injEq] at h
    subst h
    exact ⟨st, [], Or.inl ⟨hf, rfl, rfl⟩⟩
  | none =>
    cases hr : (m.GetRecipients P).2 with
    | some e2 =>
      have : send P s st m = ⟨st, [], some e2⟩ :=
        send_of_failsWith P s st m e2 st [] (Or.inr (Or.inl ⟨hf, hr, rfl, rfl⟩))
      rw [this] at h
      simp only [Option.some.injEq] at h
      subst h
      exact ⟨st, [], Or.inr (Or.inl ⟨hf, hr, rfl, rfl⟩)⟩
    | none =>
      rw [send_of_prepared P s st m hf hr] at h
      simp only at h
      exact ⟨_, _, Or.inr (Or.inr ⟨hf, hr, Prod.ext rfl h, rfl⟩)⟩

theorem sendLoop_handedOver {σ : Type} (P : AddressParser) (s : Sender σ) (msgs : List Message)
    (i : Nat) (st st1 : σ) (calls : List Call) (h : handedOver P s st msgs st1) :
    sendLoop P s i st calls msgs = ⟨st1, calls ++ msgs.map (callOf P), none⟩ := by
  induction msgs generalizing i st calls with
  | nil =>
    simp only [handedOver] at h
    simp [sendLoop, h]
  | cons m rest ih =>
    obtain ⟨hf, hr, hs, hrest⟩ := h
    have hsend := send_of_prepared P s st m hf hr
    rw [hs] at hsend
    simp only [sendLoop, hsend]
    rw [ih _ _ _ hrest]
    simp

theorem sendLoop_failsWith {σ : Type} (P : AddressParser) (s : Sender σ)
    (pre : List Message) (mk : Message) (post : List Message) (i : Nat) (st st1 st2 : σ)
    (calls made : List Call) (e : Error) (h : handedOver P s st pre st1)
    (hk : failsWith P s st1 mk e st2 made) :
    sendLoop P s i st calls (pre ++ mk :: post) =
      ⟨st2, calls ++ pre.map (callOf P) ++ made,
        some (.couldNotSend (i + pre.length + 1) e)⟩ := by
  induction pre generalizing i st calls with
  | nil =>
    simp only [handedOver] at h
    rw [h] at hk
    have hs := send_of_failsWith P s st mk e st2 made hk
    simp [sendLoop, hs]
  | cons m rest ih =>
    obtain ⟨hf, hr, hs, hrest⟩ := h
    have hsend := send_of_prepared P s st m hf hr
    rw [hs] at hsend
    rw [List.cons_append]
    simp only [sendLoop, hsend]
    rw [ih _ _ _ hrest]
    simp [Nat.add_comm, Nat.add_left_comm]

theorem handedOver_or_failsWith {σ : Type} (P : AddressParser) (s : Sender σ)
    (msgs : List Message) (st : σ) :
    (∃ st1, handedOver P s st msgs st1) ∨
      ∃ pre mk post st1 e st2 made, msgs = pre ++ mk :: post ∧ handedOver P s st pre st1 ∧
        failsWith P s st1 mk e st2 made := by
  induction msgs generalizing st with
  | nil => exact Or.inl ⟨st, rfl⟩
  | cons m rest ih =>
    cases hm : (send P s st m).err with
    | some e =>
      obtain ⟨st2, made, hfw⟩ := failsWith_iff_send P s st m e hm
      exact Or.inr ⟨[], m, rest, st, e, st2, made, rfl, rfl, hfw⟩
    | none =>
      have hf : (m.GetFrom P).2 = none := by
        cases hf : (m.GetFrom P).2 with
        | none => rfl
        | some e1 =>
          rw [send_of_failsWith P s st m e1 st [] (Or.inl ⟨hf, rfl, rfl⟩)] at hm
          cases hm
      have hr : (m.GetRecipients P).2 = none := by
        cases hr : (m.GetRecipients P).2 with
        | none => rfl
        | some e1 =>
          rw [send_of_failsWith P s st m e1 st [] (Or.inr (Or.inl ⟨hf, hr, rfl, rfl⟩))] at hm
          cases hm
      have hs : (s.Send st (m.GetFrom P).1 (m.GetRecipients P).1 m).2 = none := by
        rw [send_of_prepared P s st m hf hr] at hm
        exact hm
      rcases ih (s.Send st (m.GetFrom P).1 (m.GetRecipients P).1 m).1 with
        ⟨st1, h1⟩ | ⟨pre, mk, post, st1, e, st2, made, rfl, h1, h2⟩
      · exact Or.inl ⟨st1, hf, hr, hs, h1⟩
      · exact Or.inr ⟨m :: pre, mk, post, st1, e, st2, made, rfl, ⟨hf, hr, hs, h1⟩, h2⟩

/-- C2. `Send` hands the messages to the sender in order and stops at the
first failure. If every message passes `GetFrom` and `GetRecipients` and is
taken by the sender (also for the empty list), `Send` returns no error, the
sender is left in the state that its `Send` method reaches when it is applied
once to each message in order, and the invocations are one per message, in
order, with the sender and recipients of the message. If the messages `pre`
are handed over and the next message `mk` fails, in `GetFrom`, in
`GetRecipients` or in the sender, `Send` returns the error wrapped with the
1-based index of `mk`; the sender was applied once to each message of `pre`
in order, once more to `mk` only when the sender itself failed, and to no
message after `mk`. One of the two cases always applies. -/
theorem Send_stops_at_first_failure {σ : Type} (P : AddressParser) (s : Sender σ) (st : σ) :
    (∀ msgs st1, handedOver P s st msgs st1 →
      Send P s st msgs = ⟨st1, msgs.map (callOf P), none⟩) ∧
    (∀ pre mk post st1 e st2 made, handedOver P s st pre st1 →
      failsWith P s st1 mk e st2 made →
      Send P s st (pre ++ mk :: post) =
        ⟨st2, pre.map (callOf P) ++ made, some (.couldNotSend (pre.length + 1) e)⟩) ∧
    (∀ msgs, (∃ st1, handedOver P s st msgs st1) ∨
      ∃ pre mk post st1 e st2 made, msgs = pre ++ mk :: post ∧ handedOver P s st pre st1 ∧
        failsWith P s st1 mk e st2 made) := by
  refine ⟨?_, ?_, fun msgs => handedOver_or_failsWith P s msgs st⟩
  · intro msgs st1 h
    simpa [Send] using sendLoop_handedOver P s msgs 0 st st1 [] h
  · intro pre mk post st1 e st2 made h hk
    simpa [Send] using sendLoop_failsWith P s pre mk post 0 st st1 st2 [] made e h hk

theorem Send_stops_at_first_failure_witness :
    handedOver bareAddressParser countingSender 0 [plainMessage] 1 ∧
      failsWith bareAddressParser countingSender 1 noFromMessage .absentFrom 1 [] ∧
      (Send bareAddressParser countingSender 0 [plainMessage, noFromMessage, plainMessage]).err =
        some (.couldNotSend 2 .absentFrom) ∧
      (Send bareAddressParser countingSender 0
        [plainMessage, noFromMessage, plainMessage]).state = 1 ∧
      ((Send bareAddressParser countingSender 0
        [plainMessage, noFromMessage, plainMessage]).calls.map Call.recipients) =
        [["b@x.com"]] := by
  have h1 : handedOver bareAddressParser countingSender 0 [plainMessage] 1 :=
    ⟨rfl, rfl, rfl, rfl⟩
  have h2 : failsWith bareAddressParser countingSender 1 noFromMessage .absentFrom 1 [] :=
    Or.inl ⟨rfl, rfl, rfl⟩
  have h := (Send_stops_at_first_failure bareAddressParser countingSender 0).2.1
    [plainMessage] noFromMessage [plainMessage] 1 .absentFrom 1 [] h1 h2
  refine ⟨h1, h2, ?_, ?_, ?_⟩
  · rw [show [plainMessage, noFromMessage, plainMessage] =
      [plainMessage] ++ noFromMessage :: [plainMessage] from rfl, h]
    rfl
  · rw [show [plainMessage, noFromMessage, plainMessage] =
      [plainMessage] ++ noFromMessage :: [plainMessage] from rfl, h]
  · rw [show [plainMessage, noFromMessage, plainMessage] =
      [plainMessage] ++ noFromMessage :: [plainMessage] from rfl, h]
    rfl

/-! ## The SMTP driver -/

theorem Run.step_steps {σ : Type} (r : Run σ) (s : Step) (call : σ → σ × Option Error) :
    (r.step s call).1.steps = r.steps ++ [s] := rfl

theorem dials_append (a b : List Step) : dials (a ++ b) = dials a + dials b := by
  unfold dials
  exact List.count_append _ _ _

theorem dials_singleton (s : Step) (h : s ≠ Step.dial) : dials [s] = 0 := by
  unfold dials
  rw [List.count_eq_zero]
  intro hm
  exact h (List.mem_singleton.mp hm).symm

theorem hello_steps {σ : Type} (d : Dialer) (c : SmtpClient σ) (r : Run σ) :
    ∃ x, (d.hello c r).1.steps = r.steps ++ x ∧ dials x = 0 := by
  unfold Dialer.hello
  by_cases h : d.LocalName ≠ ""
  · rw [if_pos h]
    exact ⟨[.hello d.LocalName], rfl, dials_singleton _ (by simp)⟩
  · rw [if_neg h]
    exact ⟨[], by simp, rfl⟩

theorem upgrade_steps {σ : Type} (d : Dialer) (c : SmtpClient σ) (r : Run σ) :
    ∃ x, (d.upgrade c r).1.steps = r.steps ++ x ∧ dials x = 0 := by
  unfold Dialer.upgrade
  by_cases h : d.Port = 465
  · rw [if_pos h]
    exact ⟨[], by simp, rfl⟩
  · rw [if_neg h]
    rcases he : c.Extension r.conn "STARTTLS" with ⟨conn, ok, p⟩
    simp only
    cases ok with
    | false => exact ⟨[.extension "STARTTLS"], rfl, by decide⟩
    | true =>
      simp only [if_true]
      rcases hs : c.StartTLS conn with ⟨conn2, e⟩
      cases e with
      | some err =>
        exact ⟨[.extension "STARTTLS", .startTLS], by simp [Run.step, hs], by decide⟩
      | none =>
        exact ⟨[.extension "STARTTLS", .startTLS, .helloAgain], by simp [Run.step, hs],
          by decide⟩

theorem authenticate_steps {σ : Type} (d : Dialer) (c : SmtpClient σ) (r : Run σ)
    (secured : Bool) : ∃ x, (d.authenticate c r secured).1.steps = r.steps ++ x ∧ dials x = 0 := by
  unfold Dialer.authenticate
  by_cases h : d.Username = ""
  · rw [if_pos h]
    exact ⟨[], by simp, rfl⟩
  · rw [if_neg h]
    rcases he : c.Extension r.conn "AUTH" with ⟨conn, ok, mechanisms⟩
    simp only
    split
    · exact ⟨[.extension "AUTH", .auth], by simp [Run.step], by decide⟩
    · exact ⟨[.extension "AUTH"], rfl, by decide⟩

theorem Dial_steps {σ : Type} (d : Dialer) (c : SmtpClient σ) (r : Run σ) :
    ∃ setup, (d.Dial c r).1.steps = r.steps ++ setup ∧ dials setup = 1 := by
  unfold Dialer.Dial
  rcases h1 : r.step .dial c.Dial with ⟨r1, e1⟩
  have s1 : r1.steps = r.steps ++ [.dial] := by
    have := Run.step_steps r .dial c.Dial
    rw [h1] at this
    exact this
  cases e1 with
  | some err => exact ⟨[.dial], s1, by decide⟩
  | none =>
    simp only
    obtain ⟨x2, s2, d2⟩ := hello_steps d c r1
    rcases h2 : d.hello c r1 with ⟨r2, e2⟩
    rw [h2] at s2
    simp only at s2
    cases e2 with
    | some err =>
      exact ⟨[.dial] ++ x2, by simp only; rw [s2, s1, List.append_assoc],
        by rw [dials_append, d2]; rfl⟩
    | none =>
      simp only
      obtain ⟨x3, s3, d3⟩ := upgrade_steps d c r2
      rcases h3 : d.upgrade c r2 with ⟨r3, secured, e3⟩
      rw [h3] at s3
      simp only at s3
      cases e3 with
      | some err =>
        exact ⟨[.dial] ++ x2 ++ x3, by simp only; rw [s3, s2, s1]; simp,
          by rw [dials_append, dials_append, d2, d3]; rfl⟩
      | none =>
        simp only
        obtain ⟨x4, s4, d4⟩ := authenticate_steps d c r3 secured
        exact ⟨[.dial] ++ x2 ++ x3 ++ x4, by rw [s4, s3, s2, s1]; simp,
          by rw [dials_append, dials_append, dials_append, d2, d3, d4]; rfl⟩

theorem mailFrom_steps {σ : Type} (d : Dialer) (c : SmtpClient σ) (first : Bool) (r : Run σ)
    (sender : String) :
    (d.mailFrom c first r sender).1.steps = r.steps ++ [.mail sender] ∨
      (first = true ∧ (c.Mail r.conn sender).2 = some EOF ∧
        ∃ setup, dials setup = 1 ∧
          ((d.mailFrom c first r sender).1.steps = r.steps ++ [.mail sender] ++ setup ∨
            (d.mailFrom c first r sender).1.steps =
              r.steps ++ [.mail sender] ++ setup ++ [.mail sender])) := by
  unfold Dialer.mailFrom
  rcases hm : c.Mail r.conn sender with ⟨conn, e⟩
  have h1 : r.step (.mail sender) (fun s => c.Mail s sender) =
      (⟨conn, r.steps ++ [.mail sender]⟩, e) := by
    simp only [Run.step, hm]
  rw [h1]
  cases e with
  | none => exact Or.inl rfl
  | some err =>
    simp only
    by_cases hc : err = EOF ∧ first = true
    · rw [if_pos hc]
      obtain ⟨setup, s2, d2⟩ := Dial_steps d c ⟨conn, r.steps ++ [.mail sender]⟩
      refine Or.inr ⟨hc.2, by rw [hc.1], setup, d2, ?_⟩
      rcases hd : d.Dial c ⟨conn, r.steps ++ [.mail sender]⟩ with ⟨r2, e2⟩
      rw [hd] at s2
      simp only at s2
      simp only [hd]
      cases e2 with
      | some err2 => exact Or.inl s2
      | none =>
        refine Or.inr ?_
        simp only
        rw [Run.step_steps, s2]
    · rw [if_neg hc]
      exact Or.inl rfl

theorem mailFrom_dials {σ : Type} (d : Dialer) (c : SmtpClient σ) (first : Bool) (r : Run σ)
    (sender : String) :
    dials (d.mailFrom c first r sender).1.steps ≤ dials r.steps + (if first then 1 else 0) := by
  rcases mailFrom_steps d c first r sender with h | ⟨hf, _, setup, hd, h | h⟩
  · rw [h, dials_append]
    have : dials [Step.mail sender] = 0 := dials_singleton _ (by simp)
    omega
  · rw [h, dials_append, dials_append, hd, hf]
    have : dials [Step.mail sender] = 0 := dials_singleton _ (by simp)
    simp only [if_true]
    omega
  · rw [h, dials_append, dials_append, dials_append, hd, hf]
    have : dials [Step.mail sender] = 0 := dials_singleton _ (by simp)
    simp only [if_true]
    omega

theorem rcptLoop_steps {σ : Type} (c : SmtpClient σ) (recipients : List String) :
    ∀ r : Run σ, ∃ x, (rcptLoop c r recipients).1.steps = r.steps ++ x ∧
      x <+: recipients.map Step.rcpt ∧
      ((rcptLoop c r recipients).2 = none → x = recipients.map Step.rcpt) := by
  induction recipients with
  | nil => intro r; exact ⟨[], by simp [rcptLoop], List.prefix_refl _, fun _ => rfl⟩
  | cons t rest ih =>
    intro r
    unfold rcptLoop
    rcases h1 : r.step (.rcpt t) (fun s => c.Rcpt s t) with ⟨r1, e1⟩
    have s1 : r1.steps = r.steps ++ [.rcpt t] := by
      have := Run.step_steps r (.rcpt t) (fun s => c.Rcpt s t)
      rw [h1] at this
      exact this
    cases e1 with
    | some err =>
      exact ⟨[.rcpt t], s1, by simp [List.prefix_iff_eq_append], fun h => by simp at h⟩
    | none =>
      simp only
      obtain ⟨x, hx, hp, hfull⟩ := ih r1
      refine ⟨.rcpt t :: x, by rw [hx, s1]; simp, ?_, fun h => by rw [hfull h]; rfl⟩
      rw [List.map_cons]
      exact (List.prefix_cons_inj _).mpr hp

theorem dataSteps_steps {σ : Type} (c : SmtpClient σ) (r : Run σ) (m : Message) :
    ∃ x, (dataSteps c r m).1.steps = r.steps ++ x ∧ x <+: [.data, .write, .closeWriter] := by
  unfold dataSteps
  rcases h1 : c.Data r.conn with ⟨c1, e1⟩
  cases e1 with
  | some err => exact ⟨[.data], by simp [Run.step, h1], by decide⟩
  | none =>
    rcases h2 : c.Write c1 m with ⟨c2, e2⟩
    cases e2 with
    | some err => exact ⟨[.data, .write], by simp [Run.step, h1, h2], by decide⟩
    | none => exact ⟨[.data, .write, .closeWriter], by simp [Run.step, h1, h2], by decide⟩

theorem dials_of_prefix (x y : List Step) (h : x <+: y) (hy : dials y = 0) : dials x = 0 := by
  obtain ⟨z, rfl⟩ := h
  rw [dials_append] at hy
  omega

theorem dials_map_rcpt (recipients : List String) : dials (recipients.map Step.rcpt) = 0 := by
  unfold dials
  rw [List.count_eq_zero]
  intro h
  simp at h

/-- The steps that a transaction adds to a run. -/
theorem transaction_steps {σ : Type} (d : Dialer) (c : SmtpClient σ) (first : Bool) (r : Run σ)
    (sender : String) (recipients : List String) (m : Message) :
    ∃ body, body <+: recipients.map Step.rcpt ++ [.data, .write, .closeWriter] ∧
      (d.transaction c first r sender recipients m).1.steps =
        (d.mailFrom c first r sender).1.steps ++ body := by
  unfold Dialer.transaction
  rcases h1 : d.mailFrom c first r sender with ⟨r1, e1⟩
  cases e1 with
  | some err => exact ⟨[], List.nil_prefix, by simp⟩
  | none =>
    simp only
    obtain ⟨x, hx, hp, hfull⟩ := rcptLoop_steps c recipients r1
    rcases h2 : rcptLoop c r1 recipients with ⟨r2, e2⟩
    rw [h2] at hx hfull
    simp only at hx hfull
    cases e2 with
    | some err =>
      exact ⟨x, hp.trans (List.prefix_append _ _), hx⟩
    | none =>
      simp only
      obtain ⟨y, hy, hpy⟩ := dataSteps_steps c r2 m
      refine ⟨recipients.map Step.rcpt ++ y, ?_, ?_⟩
      · exact (List.prefix_append_right_inj _).mpr hpy
      · rw [hy, hx, hfull rfl, List.append_assoc]

theorem transaction_dials {σ : Type} (d : Dialer) (c : SmtpClient σ) (first : Bool) (r : Run σ)
    (sender : String) (recipients : List String) (m : Message) :
    dials (d.transaction c first r sender recipients m).1.steps ≤
      dials r.steps + (if first then 1 else 0) := by
  obtain ⟨body, hp, hs⟩ := transaction_steps d c first r sender recipients m
  have hb : dials body = 0 :=
    dials_of_prefix _ _ hp (by rw [dials_append, dials_map_rcpt]; rfl)
  rw [hs, dials_append, hb]
  exact mailFrom_dials d c first r sender

theorem send_dials {σ : Type} (P : AddressParser) (d : Dialer) (c : SmtpClient σ)
    (st : Run σ × Bool) (m : Message) :
    dials (send P (d.sender c) st m).state.1.steps ≤
        dials st.1.steps + (if st.2 then 1 else 0) ∧
      ((send P (d.sender c) st m).err = none → (send P (d.sender c) st m).state.2 = false) := by
  unfold send
  rcases hf : m.GetFrom P with ⟨sender, _ | e⟩
  · rcases hr : m.GetRecipients P with ⟨recipients, _ | e⟩
    · have ht := transaction_dials d c st.2 st.1 sender recipients m
      simp only [Dialer.sender]
      rcases hx : d.transaction c st.2 st.1 sender recipients m with ⟨r1, _ | e⟩
      · rw [hx] at ht
        exact ⟨ht, fun _ => rfl⟩
      · rw [hx] at ht
        exact ⟨ht, fun h => by simp at h⟩
    · exact ⟨by simp only; omega, fun h => by simp at h⟩
  · exact ⟨by simp only; omega, fun h => by simp at h⟩

theorem sendLoop_dials {σ : Type} (P : AddressParser) (d : Dialer) (c : SmtpClient σ)
    (msgs : List Message) : ∀ (i : Nat) (st : Run σ × Bool) (calls : List Call),
    dials (sendLoop P (d.sender c) i st calls msgs).state.1.steps ≤
      dials st.1.steps + (if st.2 then 1 else 0) := by
  induction msgs with
  | nil => intro i st calls; simp only [sendLoop]; omega
  | cons m rest ih =>
    intro i st calls
    obtain ⟨h1, h2⟩ := send_dials P d c st m
    unfold sendLoop
    rcases hs : send P (d.sender c) st m with ⟨st1, made, _ | e⟩
    · rw [hs] at h1 h2
      simp only at h1 h2 ⊢
      have := ih (i + 1) st1 (calls ++ made)
      rw [h2 trivial] at this
      simp only [Bool.false_eq_true, if_false, Nat.add_zero] at this
      omega
    · rw [hs] at h1
      exact h1

theorem DialAndSend_dials {σ : Type} (P : AddressParser) (d : Dialer) (c : SmtpClient σ)
    (conn : σ) (msgs : List Message) : dials (d.DialAndSend P c conn msgs).1.steps ≤ 2 := by
  unfold Dialer.DialAndSend
  obtain ⟨setup, hs, hd⟩ := Dial_steps d c ⟨conn, []⟩
  rcases h1 : d.Dial c ⟨conn, []⟩ with ⟨r, _ | e⟩
  · rw [h1] at hs
    simp only at hs ⊢
    rw [Run.step_steps, Run.step_steps, dials_append, dials_append]
    have hl := sendLoop_dials P d c msgs 0 (r, true) []
    simp only [if_true] at hl
    rw [hs, List.nil_append, hd] at hl
    have q1 : dials [Step.quit] = 0 := by decide
    have q2 : dials [Step.close] = 0 := by decide
    unfold Send
    omega
  · rw [h1] at hs
    simp only at hs ⊢
    rw [hs, List.nil_append, hd]
    omega

theorem mock_Dial (d : Dialer) (r : Run MockState) :
    (d.Dial mockClient r).2 = none ∧
      (d.Dial mockClient r).1.conn = ⟨r.conn.log ++ setupCommands d, r.conn.timeout⟩ := by
  obtain ⟨⟨log, t⟩, steps⟩ := r
  by_cases h1 : d.LocalName = "" <;> by_cases h2 : d.Port = 465 <;>
    by_cases h3 : d.Username = "" <;>
    simp [Dialer.Dial, Dialer.hello, Dialer.upgrade, Dialer.authenticate, Run.step, mockClient,
      MockState.record, setupCommands, h1, h2, h3]

theorem mock_rcptLoop (recipients : List String) : ∀ r : Run MockState,
    (rcptLoop mockClient r recipients).2 = none ∧
      (rcptLoop mockClient r recipients).1.conn =
        ⟨r.conn.log ++ recipients.map (fun t => "Rcpt " ++ t), r.conn.timeout⟩ := by
  induction recipients with
  | nil => intro r; simp [rcptLoop]
  | cons t rest ih =>
    intro r
    obtain ⟨h1, h2⟩ := ih (r.step (.rcpt t) (fun s => mockClient.Rcpt s t)).1
    unfold rcptLoop
    have hs : r.step (.rcpt t) (fun s => mockClient.Rcpt s t) =
        ((r.step (.rcpt t) (fun s => mockClient.Rcpt s t)).1, none) := rfl
    rw [hs]
    simp only
    refine ⟨h1, ?_⟩
    rw [h2]
    simp [Run.step, mockClient, MockState.record]

theorem mock_mailFrom_timeout (d : Dialer) (r : Run MockState) (sender : String)
    (ht : r.conn.timeout = true) :
    (d.mailFrom mockClient true r sender).2 = none ∧
      (d.mailFrom mockClient true r sender).1.conn =
        ⟨r.conn.log ++ ["Mail " ++ sender] ++ setupCommands d ++ ["Mail " ++ sender], false⟩ ∧
      dials (d.mailFrom mockClient true r sender).1.steps = dials r.steps + 1 := by
  obtain ⟨⟨log, t⟩, steps⟩ := r
  simp only at ht
  subst ht
  obtain ⟨h1, h2⟩ := mock_Dial d ⟨⟨log ++ ["Mail " ++ sender], false⟩, steps ++ [.mail sender]⟩
  obtain ⟨setup, h3, h4⟩ :=
    Dial_steps d mockClient ⟨⟨log ++ ["Mail " ++ sender], false⟩, steps ++ [.mail sender]⟩
  have hm : Run.step (⟨⟨log, true⟩, steps⟩ : Run MockState) (.mail sender)
      (fun s => mockClient.Mail s sender) =
      (⟨⟨log ++ ["Mail " ++ sender], false⟩, steps ++ [.mail sender]⟩, some EOF) := by
    simp [Run.step, mockClient, MockState.record]
  unfold Dialer.mailFrom
  rw [hm]
  simp only [and_self, if_true]
  rcases hd : d.Dial mockClient ⟨⟨log ++ ["Mail " ++ sender], false⟩, steps ++ [.mail sender]⟩
    with ⟨r2, e2⟩
  rw [hd] at h1 h2 h3
  subst h1
  obtain ⟨conn2, steps2⟩ := r2
  simp only at h2 h3
  subst h2 h3
  rw [hd]
  refine ⟨by simp [Run.step, mockClient, MockState.record],
    by simp [Run.step, mockClient, MockState.record], ?_⟩
  rw [Run.step_steps, dials_append, dials_append, dials_append, h4,
    dials_singleton _ (by simp)]

theorem mock_transaction_timeout (d : Dialer) (r : Run MockState) (sender : String)
    (recipients : List String) (m : Message) (ht : r.conn.timeout = true) :
    (d.transaction mockClient true r sender recipients m).2 = none ∧
      (d.transaction mockClient true r sender recipients m).1.conn =
        ⟨r.conn.log ++ ["Mail " ++ sender] ++ setupCommands d ++ ["Mail " ++ sender] ++
          recipients.map (fun t => "Rcpt " ++ t) ++ ["Data", "Write msg", "Close writer"],
          false⟩ ∧
      dials (d.transaction mockClient true r sender recipients m).1.steps = dials r.steps + 1 := by
  obtain ⟨body, hp, hs⟩ := transaction_steps d mockClient true r sender recipients m
  have hb : dials body = 0 :=
    dials_of_prefix _ _ hp (by rw [dials_append, dials_map_rcpt]; rfl)
  obtain ⟨h1, h2, h3⟩ := mock_mailFrom_timeout d r sender ht
  refine ⟨?_, ?_, by rw [hs, dials_append, hb, h3]⟩
  · unfold Dialer.transaction
    rcases hm : d.mailFrom mockClient true r sender with ⟨r1, e1⟩
    rw [hm] at h1
    simp only at h1
    subst h1
    simp only
    obtain ⟨h4, h5⟩ := mock_rcptLoop recipients r1
    rcases hl : rcptLoop mockClient r1 recipients with ⟨r2, e2⟩
    rw [hl] at h4
    simp only at h4
    subst h4
    rfl
  · unfold Dialer.transaction
    rcases hm : d.mailFrom mockClient true r sender with ⟨r1, e1⟩
    rw [hm] at h1 h2
    simp only at h1 h2
    subst h1
    simp only
    obtain ⟨h4, h5⟩ := mock_rcptLoop recipients r1
    rcases hl : rcptLoop mockClient r1 recipients with ⟨r2, e2⟩
    rw [hl] at h4 h5
    simp only at h4 h5
    subst h4
    simp only [dataSteps, Run.step, mockClient, MockState.record]
    rw [h5, h2]
    simp

theorem dataSteps_full {σ : Type} (c : SmtpClient σ) (r : Run σ) (m : Message)
    (h : (dataSteps c r m).2 = none) :
    (dataSteps c r m).1.steps = r.steps ++ [.data, .write, .closeWriter] := by
  unfold dataSteps at h ⊢
  rcases h1 : c.Data r.conn with ⟨c1, e1⟩
  cases e1 with
  | some err => simp [Run.step, h1] at h
  | none =>
    rcases h2 : c.Write c1 m with ⟨c2, e2⟩
    cases e2 with
    | some err => simp [Run.step, h1, h2] at h
    | none => simp [Run.step, h1, h2]

theorem transaction_full {σ : Type} (d : Dialer) (c : SmtpClient σ) (first : Bool) (r : Run σ)
    (sender : String) (recipients : List String) (m : Message)
    (h : (d.transaction c first r sender recipients m).2 = none) :
    (d.transaction c first r sender recipients m).1.steps =
      (d.mailFrom c first r sender).1.steps ++
        (recipients.map Step.rcpt ++ [.data, .write, .closeWriter]) := by
  unfold Dialer.transaction at h ⊢
  rcases h1 : d.mailFrom c first r sender with ⟨r1, e1⟩
  rw [h1] at h
  cases e1 with
  | some err => simp at h
  | none =>
    simp only at h ⊢
    obtain ⟨x, hx, _, hfull⟩ := rcptLoop_steps c recipients r1
    rcases h2 : rcptLoop c r1 recipients with ⟨r2, e2⟩
    rw [h2] at hx hfull h
    cases e2 with
    | some err => simp at h
    | none =>
      simp only at hx hfull h ⊢
      rw [dataSteps_full c r2 m h, hx, hfull trivial, List.append_assoc]

theorem mailFrom_redial {σ : Type} (d : Dialer) (c : SmtpClient σ) (r : Run σ)
    (sender : String) (conn1 : σ) (h : c.Mail r.conn sender = (conn1, some EOF)) :
    d.mailFrom c true r sender =
      match d.Dial c ⟨conn1, r.steps ++ [.mail sender]⟩ with
      | (r2, some _) => (r2, some EOF)
      | (r2, none) => r2.step (.mail sender) (fun s => c.Mail s sender) := by
  have h1 : r.step (.mail sender) (fun s => c.Mail s sender) =
      (⟨conn1, r.steps ++ [.mail sender]⟩, some EOF) := by
    simp only [Run.step, h]
  simp only [Dialer.mailFrom, h1, and_self, if_true]

theorem dials_le_of_prefix (x y : List Step) (h : x <+: y) : dials x ≤ dials y := by
  obtain ⟨z, rfl⟩ := h
  rw [dials_append]
  omega

theorem mailFrom_grows {σ : Type} (d : Dialer) (c : SmtpClient σ) (first : Bool) (r : Run σ)
    (sender : String) : r.steps <+: (d.mailFrom c first r sender).1.steps := by
  rcases mailFrom_steps d c first r sender with h | ⟨_, _, setup, _, h | h⟩
  · rw [h]; exact List.prefix_append _ _
  · rw [h, List.append_assoc]; exact List.prefix_append _ _
  · rw [h, List.append_assoc, List.append_assoc]; exact List.prefix_append _ _

theorem transaction_grows {σ : Type} (d : Dialer) (c : SmtpClient σ) (first : Bool) (r : Run σ)
    (sender : String) (recipients : List String) (m : Message) :
    r.steps <+: (d.transaction c first r sender recipients m).1.steps := by
  obtain ⟨body, _, hs⟩ := transaction_steps d c first r sender recipients m
  rw [hs]
  exact (mailFrom_grows d c first r sender).trans (List.prefix_append _ _)

theorem send_grows {σ : Type} (P : AddressParser) (d : Dialer) (c : SmtpClient σ)
    (st : Run σ × Bool) (m : Message) :
    st.1.steps <+: (send P (d.sender c) st m).state.1.steps := by
  unfold send
  rcases hf : m.GetFrom P with ⟨sender, _ | e⟩
  · rcases hr : m.GetRecipients P with ⟨recipients, _ | e⟩
    · have ht := transaction_grows d c st.2 st.1 sender recipients m
      simp only [Dialer.sender]
      rcases hx : d.transaction c st.2 st.1 sender recipients m with ⟨r1, _ | e⟩
      · rw [hx] at ht
        exact ht
      · rw [hx] at ht
        exact ht
    · exact List.prefix_refl _
  · exact List.prefix_refl _

theorem sendLoop_grows {σ : Type} (P : AddressParser) (d : Dialer) (c : SmtpClient σ)
    (msgs : List Message) : ∀ (i : Nat) (st : Run σ × Bool) (calls : List Call),
    st.1.steps <+: (sendLoop P (d.sender c) i st calls msgs).state.1.steps := by
  induction msgs with
  | nil => intro i st calls; exact List.prefix_refl _
  | cons m rest ih =>
    intro i st calls
    have h1 := send_grows P d c st m
    unfold sendLoop
    rcases hs : send P (d.sender c) st m with ⟨st1, made, _ | e⟩
    · rw [hs] at h1
      exact h1.trans (ih (i + 1) st1 (calls ++ made))
    · rw [hs] at h1
      exact h1

theorem send_transaction {σ : Type} (P : AddressParser) (d : Dialer) (c : SmtpClient σ)
    (st : Run σ × Bool) (m : Message)
    (hf : (m.GetFrom P).2 = none) (hr : (m.GetRecipients P).2 = none) :
    (send P (d.sender c) st m).state.1 =
        (d.transaction c st.2 st.1 (m.GetFrom P).1 (m.GetRecipients P).1 m).1 ∧
      (send P (d.sender c) st m).err =
        (d.transaction c st.2 st.1 (m.GetFrom P).1 (m.GetRecipients P).1 m).2 := by
  rw [send_of_prepared P (d.sender c) st m hf hr]
  exact ⟨rfl, rfl⟩

/-- The run of a call of `DialAndSend` whose session setup succeeds. -/
theorem DialAndSend_of_dialed {σ : Type} (P : AddressParser) (d : Dialer) (c : SmtpClient σ)
    (conn : σ) (msgs : List Message) (r0 : Run σ) (h : d.Dial c ⟨conn, []⟩ = (r0, none)) :
    (d.DialAndSend P c conn msgs).1.steps =
        (Send P (d.sender c) (r0, true) msgs).state.1.steps ++ [.quit, .close] ∧
      (d.DialAndSend P c conn msgs).2 = (Send P (d.sender c) (r0, true) msgs).err := by
  unfold Dialer.DialAndSend
  rw [h]
  simp only [Run.step_steps, List.append_assoc, List.singleton_append, and_self]

theorem redial_general {σ : Type} (P : AddressParser) (d : Dialer) (m : Message)
    (hf : (m.GetFrom P).2 = none) (hr : (m.GetRecipients P).2 = none)
    (c : SmtpClient σ) (conn : σ) (rest : List Message) (r0 : Run σ) (conn1 : σ)
    (hd : d.Dial c ⟨conn, []⟩ = (r0, none))
    (hm : c.Mail r0.conn (m.GetFrom P).1 = (conn1, some EOF)) :
    dials (d.DialAndSend P c conn (m :: rest)).1.steps = 2 ∧
      ∃ setup, dials setup = 1 ∧
        (d.Dial c ⟨conn1, r0.steps ++ [.mail (m.GetFrom P).1]⟩).1.steps =
          r0.steps ++ [.mail (m.GetFrom P).1] ++ setup ∧
        (r0.steps ++ [.mail (m.GetFrom P).1] ++ setup) <+:
          (d.DialAndSend P c conn (m :: rest)).1.steps ∧
        ((d.Dial c ⟨conn1, r0.steps ++ [.mail (m.GetFrom P).1]⟩).2 = none →
          ∃ body, body <+: (m.GetRecipients P).1.map Step.rcpt ++ [.data, .write, .closeWriter] ∧
            (d.DialAndSend P c conn [m]).1.steps =
              r0.steps ++ [.mail (m.GetFrom P).1] ++ setup ++ [.mail (m.GetFrom P).1] ++
                body ++ [.quit, .close] ∧
            ((d.DialAndSend P c conn [m]).2 = none →
              body = (m.GetRecipients P).1.map Step.rcpt ++ [.data, .write, .closeWriter])) := by
  obtain ⟨setup0, hs0, hd0⟩ := Dial_steps d c ⟨conn, []⟩
  rw [hd] at hs0
  simp only [List.nil_append] at hs0
  obtain ⟨setup, hs, hds⟩ := Dial_steps d c ⟨conn1, r0.steps ++ [.mail (m.GetFrom P).1]⟩
  simp only at hs
  have hmf := mailFrom_redial d c r0 (m.GetFrom P).1 conn1 hm
  -- the steps of the `MAIL` stage
  have hstage : (r0.steps ++ [.mail (m.GetFrom P).1] ++ setup) <+:
      (d.mailFrom c true r0 (m.GetFrom P).1).1.steps := by
    rw [hmf]
    rcases hx : d.Dial c ⟨conn1, r0.steps ++ [.mail (m.GetFrom P).1]⟩ with ⟨r2, _ | e2⟩
    · rw [hx] at hs
      simp only at hs
      rw [hx]
      simp only
      rw [Run.step_steps, hs]
      exact List.prefix_append _ _
    · rw [hx] at hs
      simp only at hs
      rw [hx]
      simp only
      rw [hs]
  have htr := transaction_grows d c true r0 (m.GetFrom P).1 (m.GetRecipients P).1 m
  obtain ⟨body, hbp, hbs⟩ :=
    transaction_steps d c true r0 (m.GetFrom P).1 (m.GetRecipients P).1 m
  have hst := send_transaction P d c (r0, true) m hf hr
  simp only at hst
  have hfirst : (r0.steps ++ [.mail (m.GetFrom P).1] ++ setup) <+:
      (send P (d.sender c) (r0, true) m).state.1.steps := by
    rw [hst.1, hbs]
    exact hstage.trans (List.prefix_append _ _)
  have hloop : (r0.steps ++ [.mail (m.GetFrom P).1] ++ setup) <+:
      (Send P (d.sender c) (r0, true) (m :: rest)).state.1.steps := by
    unfold Send sendLoop
    rcases hx : send P (d.sender c) (r0, true) m with ⟨st1, made, _ | e⟩
    · rw [hx] at hfirst
      exact hfirst.trans (sendLoop_grows P d c rest 1 st1 ([] ++ made))
    · rw [hx] at hfirst
      exact hfirst
  obtain ⟨hsteps, herr⟩ := DialAndSend_of_dialed P d c conn (m :: rest) r0 hd
  have hall : (r0.steps ++ [.mail (m.GetFrom P).1] ++ setup) <+:
      (d.DialAndSend P c conn (m :: rest)).1.steps := by
    rw [hsteps]
    exact hloop.trans (List.prefix_append _ _)
  refine ⟨?_, setup, hds, hs, hall, ?_⟩
  · have h1 := DialAndSend_dials P d c conn (m :: rest)
    have h2 := dials_le_of_prefix _ _ hall
    rw [dials_append, dials_append, hs0, hd0, hds, dials_singleton _ (by simp)] at h2
    omega
  · intro hok
    obtain ⟨hsteps1, herr1⟩ := DialAndSend_of_dialed P d c conn [m] r0 hd
    have hsend1 : Send P (d.sender c) (r0, true) [m] = send P (d.sender c) (r0, true) m ∨
        (Send P (d.sender c) (r0, true) [m]).state = (send P (d.sender c) (r0, true) m).state := by
      right
      unfold Send sendLoop
      rcases hx : send P (d.sender c) (r0, true) m with ⟨st1, made, _ | e⟩ <;> simp [sendLoop]
    have hstate : (Send P (d.sender c) (r0, true) [m]).state.1.steps =
        (d.transaction c true r0 (m.GetFrom P).1 (m.GetRecipients P).1 m).1.steps := by
      rcases hsend1 with h | h
      · rw [h, hst.1]
      · rw [h, hst.1]
    have hmfs : (d.mailFrom c true r0 (m.GetFrom P).1).1.steps =
        r0.steps ++ [.mail (m.GetFrom P).1] ++ setup ++ [.mail (m.GetFrom P).1] := by
      rw [hmf]
      rcases hx : d.Dial c ⟨conn1, r0.steps ++ [.mail (m.GetFrom P).1]⟩ with ⟨r2, _ | e2⟩
      · rw [hx] at hs
        simp only at hs
        rw [hx]
        simp only
        rw [Run.step_steps, hs]
      · rw [hx] at hok
        simp at hok
    refine ⟨body, hbp, ?_, ?_⟩
    · rw [hsteps1, hstate, hbs, hmfs]
    · intro hnone
      rw [herr1] at hnone
      have herr2 : (d.transaction c true r0 (m.GetFrom P).1 (m.GetRecipients P).1 m).2 = none := by
        rw [← hst.2]
        unfold Send sendLoop at hnone
        rcases hx : send P (d.sender c) (r0, true) m with ⟨st1, made, _ | e⟩
        · rfl
        · rw [hx] at hnone
          simp at hnone
      have hfull := transaction_full d c true r0 (m.GetFrom P).1 (m.GetRecipients P).1 m herr2
      rw [hbs] at hfull
      exact List.append_cancel_left hfull

/-- C23. Single bounded retry, on the driver modelled after the
specification, for a first message whose sender and recipients parse. Against
the mock transport of the test file whose first `MAIL` returns end-of-stream,
`DialAndSend` reports no error and the transport has seen the session setup,
`MAIL`, the session setup again, `MAIL` again, `RCPT` for every recipient in
order, `DATA`, the body write, the writer close, `QUIT` and the connection
close. Against every transport, when the session setup succeeds and the first
`MAIL` returns end-of-stream, the run holds exactly two connect steps and goes
on from the failed `MAIL` with the session setup; when that setup succeeds the
run of the one message is the first setup, `MAIL`, the second setup, `MAIL`,
an initial piece of `RCPT` for every recipient, `DATA`, body write, writer
close, and then `QUIT` and the connection close, the piece being the whole
sequence when the call reports no error. For every transport and every batch
a call holds at most two connect steps; a transaction that is not the first
one of the batch adds none; a `MAIL` that does not return end-of-stream is
followed by no other step of the `MAIL` stage; and after the `MAIL` stage a
transaction adds only an initial piece of the sequence `RCPT` for every
recipient, `DATA`, body write, writer close, each step at most once. -/
theorem DialAndSend_single_bounded_retry (P : AddressParser) (d : Dialer) (m : Message)
    (hf : (m.GetFrom P).2 = none) (hr : (m.GetRecipients P).2 = none) :
    ((d.DialAndSend P mockClient ⟨[], true⟩ [m]).2 = none ∧
      (d.DialAndSend P mockClient ⟨[], true⟩ [m]).1.conn.log =
        setupCommands d ++ ["Mail " ++ (m.GetFrom P).1] ++
          setupCommands d ++ ["Mail " ++ (m.GetFrom P).1] ++
          (m.GetRecipients P).1.map (fun t => "Rcpt " ++ t) ++
          ["Data", "Write msg", "Close writer", "Quit", "Close"] ∧
      dials (d.DialAndSend P mockClient ⟨[], true⟩ [m]).1.steps = 2) ∧
    (∀ (σ : Type) (c : SmtpClient σ) (conn : σ) (rest : List Message) (r0 : Run σ) (conn1 : σ),
      d.Dial c ⟨conn, []⟩ = (r0, none) →
      c.Mail r0.conn (m.GetFrom P).1 = (conn1, some EOF) →
      dials (d.DialAndSend P c conn (m :: rest)).1.steps = 2 ∧
        ∃ setup, dials setup = 1 ∧
          (d.Dial c ⟨conn1, r0.steps ++ [.mail (m.GetFrom P).1]⟩).1.steps =
            r0.steps ++ [.mail (m.GetFrom P).1] ++ setup ∧
          (r0.steps ++ [.mail (m.GetFrom P).1] ++ setup) <+:
            (d.DialAndSend P c conn (m :: rest)).1.steps ∧
          ((d.Dial c ⟨conn1, r0.steps ++ [.mail (m.GetFrom P).1]⟩).2 = none →
            ∃ body,
              body <+: (m.GetRecipients P).1.map Step.rcpt ++ [.data, .write, .closeWriter] ∧
              (d.DialAndSend P c conn [m]).1.steps =
                r0.steps ++ [.mail (m.GetFrom P).1] ++ setup ++ [.mail (m.GetFrom P).1] ++
                  body ++ [.quit, .close] ∧
              ((d.DialAndSend P c conn [m]).2 = none →
                body =
                  (m.GetRecipients P).1.map Step.rcpt ++ [.data, .write, .closeWriter]))) ∧
    (∀ (σ : Type) (c : SmtpClient σ) (conn : σ) (msgs : List Message),
      dials (d.DialAndSend P c conn msgs).1.steps ≤ 2) ∧
    (∀ (σ : Type) (c : SmtpClient σ) (r : Run σ) (sender : String) (recipients : List String)
      (msg : Message),
      dials (d.transaction c false r sender recipients msg).1.steps ≤ dials r.steps) ∧
    (∀ (σ : Type) (c : SmtpClient σ) (first : Bool) (r : Run σ) (sender : String),
      (c.Mail r.conn sender).2 ≠ some EOF →
        (d.mailFrom c first r sender).1.steps = r.steps ++ [.mail sender]) ∧
    (∀ (σ : Type) (c : SmtpClient σ) (first : Bool) (r : Run σ) (sender : String)
      (recipients : List String) (msg : Message),
      ∃ body, body <+: recipients.map Step.rcpt ++ [.data, .write, .closeWriter] ∧
        (d.transaction c first r sender recipients msg).1.steps =
          (d.mailFrom c first r sender).1.steps ++ body) := by
  refine ⟨?_, fun σ c conn rest r0 conn1 hd hm => redial_general P d m hf hr c conn rest r0 conn1
      hd hm,
    fun σ c conn msgs => DialAndSend_dials P d c conn msgs, ?_, ?_,
    fun σ c first r sender recipients msg => transaction_steps d c first r sender recipients msg⟩
  · obtain ⟨h1, h2⟩ := mock_Dial d ⟨⟨[], true⟩, []⟩
    obtain ⟨setup, h3, h4⟩ := Dial_steps d mockClient ⟨⟨[], true⟩, []⟩
    rcases hd : d.Dial mockClient ⟨⟨[], true⟩, []⟩ with ⟨r, e⟩
    rw [hd] at h1 h2 h3
    simp only at h1 h2 h3
    subst h1
    have hfrom : m.GetFrom P = ((m.GetFrom P).1, none) := by rw [← hf]
    have hto : m.GetRecipients P = ((m.GetRecipients P).1, none) := by rw [← hr]
    obtain ⟨t1, t2, t3⟩ := mock_transaction_timeout d r (m.GetFrom P).1 (m.GetRecipients P).1 m
      (by rw [h2])
    rcases ht : d.transaction mockClient true r (m.GetFrom P).1 (m.GetRecipients P).1 m
      with ⟨r1, e1⟩
    rw [ht] at t1 t2 t3
    simp only at t1 t2 t3
    subst t1
    have hsend : Send P (d.sender mockClient) (r, true) [m] =
        ⟨(r1, false), [⟨(m.GetFrom P).1, (m.GetRecipients P).1, m⟩], none⟩ := by
      unfold Send sendLoop send
      rw [hfrom, hto]
      simp only [Dialer.sender, ht, sendLoop, List.nil_append]
    unfold Dialer.DialAndSend
    rw [hd]
    simp only [hsend]
    refine ⟨trivial, ?_, ?_⟩
    · simp only [Run.step, mockClient, MockState.record]
      rw [t2, h2]
      simp
    · rw [Run.step_steps, Run.step_steps, dials_append, dials_append, t3, h3, dials_append, h4]
      rfl
  · intro σ c r sender recipients msg
    have := transaction_dials d c false r sender recipients msg
    simpa using this
  · intro σ c first r sender hne
    rcases mailFrom_steps d c first r sender with h | ⟨_, he, _⟩
    · exact h
    · exact absurd he hne

theorem DialAndSend_single_bounded_retry_witness :
    ((timeoutDialer.DialAndSend bareAddressParser mockClient ⟨[], true⟩ [testMessage]).2 = none ∧
      (timeoutDialer.DialAndSend bareAddressParser mockClient ⟨[], true⟩
          [testMessage]).1.conn.log =
        ["Extension STARTTLS", "StartTLS", "Mail from@example.com",
          "Extension STARTTLS", "StartTLS", "Mail from@example.com",
          "Rcpt to1@example.com", "Rcpt to2@example.com",
          "Data", "Write msg", "Close writer", "Quit", "Close"] ∧
      dials (timeoutDialer.DialAndSend bareAddressParser mockClient ⟨[], true⟩
        [testMessage]).1.steps = 2) ∧
    flakyClient.Mail 0 "from@example.com" = (1, some EOF) ∧
    dials (timeoutDialer.DialAndSend bareAddressParser flakyClient 0
      [testMessage, testMessage]).1.steps = 2 ∧
    (timeoutDialer.DialAndSend bareAddressParser flakyClient 0 [testMessage]).1.steps =
      [.dial, .extension "STARTTLS", .mail "from@example.com",
        .dial, .extension "STARTTLS", .mail "from@example.com",
        .rcpt "to1@example.com", .rcpt "to2@example.com", .data, .write, .closeWriter,
        .quit, .close] := by
  have h := DialAndSend_single_bounded_retry bareAddressParser timeoutDialer testMessage
    (by decide) (by decide)
  have hg := h.2.1 Nat flakyClient 0 [testMessage]
    ⟨0, [.dial, .extension "STARTTLS"]⟩ 1 rfl rfl
  refine ⟨⟨h.1.1, ?_, h.1.2.2⟩, rfl, hg.1, by decide!⟩
  rw [h.1.2.1]
  decide

end Gomail
